import Mathlib

/-!
# Verification of the BPE tokenizer (`src/tokenStrategy/BPE.tsx`)

A shallow embedding of the `BPETokenizer` class.  Texts, tokens and symbol
sequences are modelled as `List Char` (JS strings over the ASCII range used by
the program); JS `Map`s are insertion-ordered association lists, mirroring the
insertion-order iteration semantics of JavaScript `Map`.  The regex-based merge
application `word.replace(new RegExp("\\b"+esc(f)+" "+esc(s)+"\\b","g"), f+s)`
is embedded as an explicit left-to-right scan (`replaceMergeGo`): `escapeRegex`
escapes every regex metacharacter occurring in the pattern, so the pattern
matches the literal text `f ++ " " ++ s` bracketed by the JS `\b` word-boundary
assertions, which hold at a position exactly when one neighbour is a word
character (`[A-Za-z0-9_]`) and the other is not (ends of string count as
non-word).  Wall-clock statistics (`performance.now()` timings, float
compression ratios) are not modelled; the benchmark accuracy percentage is
modelled with exact rationals.
-/

namespace BPE

/-- Strings are lists of characters. -/
abbrev Tok := List Char

/-- JS `\w` word characters: ASCII letters, digits and underscore. -/
def isWordChar (c : Char) : Bool :=
  ('a' ≤ c && c ≤ 'z') || ('A' ≤ c && c ≤ 'Z') || ('0' ≤ c && c ≤ '9') || c = '_'

/-- Word-character test lifted to the virtual characters beyond the ends of
the string (JS `\b` treats the ends as non-word). -/
def isWordCharO : Option Char → Bool
  | none => false
  | some c => isWordChar c

/-- The ASCII whitespace characters matched by JS `\s` (the model covers the
ASCII range used by the program). -/
def jsIsWS (c : Char) : Bool :=
  c = ' ' || c = '\t' || c = '\n' || c = '\r' || c = '\x0b' || c = '\x0c'

/-- ASCII lowercasing, the fragment of `String.prototype.toLowerCase` relevant
to the ASCII texts the model covers. -/
def lowerChar (c : Char) : Char :=
  if 'A' ≤ c && c ≤ 'Z' then Char.ofNat (c.toNat + 32) else c

/-- `text.toLowerCase()`. -/
def lowerT (s : Tok) : Tok := s.map lowerChar

/-- The end-of-word marker `"</w>"`. -/
def eow : Tok := ['<', '/', 'w', '>']

/-! ## JS `Map` as an insertion-ordered association list -/

/-- `Map.get`: first (unique) binding of the key. -/
def mapGet {α β : Type} [DecidableEq α] : List (α × β) → α → Option β
  | [], _ => none
  | (k, v) :: rest, k' => if k' = k then some v else mapGet rest k'

/-- `Map.get` with a default (`map.get(k) || d`). -/
def mapGetD {α β : Type} [DecidableEq α] (m : List (α × β)) (k : α) (d : β) : β :=
  (mapGet m k).getD d

/-- `Map.set`: update the existing binding in place, else append. -/
def mapSet {α β : Type} [DecidableEq α] : List (α × β) → α → β → List (α × β)
  | [], k, v => [(k, v)]
  | (k0, v0) :: rest, k, v =>
    if k = k0 then (k0, v) :: rest else (k0, v0) :: mapSet rest k v

/-- `m.set(k, (m.get(k) || 0) + d)`: the counting idiom used throughout. -/
def bump {α : Type} [DecidableEq α] (m : List (α × Nat)) (k : α) (d : Nat) : List (α × Nat) :=
  mapSet m k (mapGetD m k 0 + d)

/-! ## Splitting and joining -/

/-- `dropWhile` never lengthens a list (used for termination). -/
theorem dropWhile_length_le {α : Type} (p : α → Bool) :
    ∀ l : List α, (l.dropWhile p).length ≤ l.length
  | [] => le_refl _
  | a :: l => by
    rw [List.dropWhile_cons]
    split
    · exact Nat.le_succ_of_le (dropWhile_length_le p l)
    · exact le_refl _

/-- Boolean prefix test on character lists. -/
def listPrefix : Tok → Tok → Bool
  | [], _ => true
  | _ :: _, [] => false
  | a :: as, b :: bs => a = b && listPrefix as bs

/-- `words.join(' ')` / `String.prototype.split(' ')`'s inverse shape. -/
def joinSp : List Tok → Tok
  | [] => []
  | [w] => w
  | w :: ws => w ++ ' ' :: joinSp ws

/-- `s.split(c)`: split on every single occurrence of `c`, keeping empty
segments (JS semantics: `"".split(' ') = [""]`). -/
def splitChar (sep : Char) : Tok → List Tok
  | [] => [[]]
  | c :: cs =>
    match splitChar sep cs with
    | [] => [[c]]
    | t :: ts => if c = sep then [] :: t :: ts else (c :: t) :: ts

/-- `s.split(/\s+/)`: maximal whitespace runs are single separators; a leading
or trailing run produces an empty segment, as in JS.  The scan consumes at
least one character per step; the fuel (initially the input length) makes the
recursion structural. -/
def splitWSGo : Nat → Tok → Tok → List Tok
  | 0, _, acc => [acc.reverse]
  | fuel + 1, s, acc =>
    match s with
    | [] => [acc.reverse]
    | c :: cs =>
      if jsIsWS c then acc.reverse :: splitWSGo fuel (cs.dropWhile jsIsWS) []
      else splitWSGo fuel cs (c :: acc)

/-- `s.split(/\s+/)`. -/
def splitWS (s : Tok) : List Tok := splitWSGo s.length s []

/-- `s.replace(/\s+/g, ' ')` (fuelled like `splitWSGo`). -/
def collapseWSGo : Nat → Tok → Tok
  | 0, s => s
  | fuel + 1, s =>
    match s with
    | [] => []
    | c :: cs =>
      if jsIsWS c then ' ' :: collapseWSGo fuel (cs.dropWhile jsIsWS)
      else c :: collapseWSGo fuel cs

/-- `s.replace(/\s+/g, ' ')`. -/
def collapseWS (s : Tok) : Tok := collapseWSGo s.length s

/-- `s.trim()`. -/
def jsTrim (s : Tok) : Tok :=
  ((s.dropWhile jsIsWS).reverse.dropWhile jsIsWS).reverse

/-! ## The regex merge application

`applyMerge` and `tokenize` both build
`new RegExp(`\\b${esc(first)} ${esc(second)}\\b`, 'g')` and call
`word.replace(pattern, first + second)`.  `escapeRegex` makes the pattern body
literal, so a global replace scans left to right; at each position the pattern
matches when the literal `first ++ " " ++ second` is a prefix of the remaining
input and the JS word-boundary assertion `\b` holds at both ends; on a match
the replacement is emitted and scanning resumes after the matched text
(non-overlapping), otherwise one character is copied. -/

/-- `escapeRegex`: `str.replace(/[.*+?^${}()|[\]\\]/g, '\\$&')`. -/
def escapeRegex : Tok → Tok
  | [] => []
  | c :: cs =>
    if c ∈ ['.', '*', '+', '?', '^', '$', '\x7b', '\x7d', '(', ')', '|', '[', ']', '\\']
    then '\\' :: c :: escapeRegex cs
    else c :: escapeRegex cs

/-- One global-replace scan of `pat` (with `\b` at both ends) by `rep` over the
input; `prev` is the character just before the current position (`none` at the
start of the string).  The scan consumes one character per step, or the whole
matched text on a match; the fuel argument is kept equal to the length of the
remaining input (the wrapper passes `word.length`), so the recursion is
structural. -/
def replaceMergeGo (pat rep : Tok) : Nat → Option Char → Tok → Tok
  | 0, _, s => s
  | fuel + 1, prev, s =>
    match s with
    | [] => []
    | c :: cs =>
      if pat ≠ [] ∧ listPrefix pat (c :: cs) ∧
          (isWordCharO prev ≠ isWordChar c) ∧
          (isWordCharO pat.getLast? ≠ isWordCharO ((c :: cs).drop pat.length).head?) then
        rep ++ replaceMergeGo pat rep fuel pat.getLast? ((c :: cs).drop pat.length)
      else
        c :: replaceMergeGo pat rep fuel (some c) cs

/-- `word.replace(new RegExp(`\\b${esc(first)} ${esc(second)}\\b`, 'g'),
`${first}${second}`)`. -/
def replaceMerge (first second : Tok) (word : Tok) : Tok :=
  replaceMergeGo (first ++ ' ' :: second) (first ++ second) word.length none word

/-- The scan at its canonical fuel (the remaining input's length); the
correctness lemmas below are stated about this form. -/
def scanG (pat rep : Tok) (prev : Option Char) (t : Tok) : Tok :=
  replaceMergeGo pat rep t.length prev t

/-! ## Pair counting and selection -/

/-- The pair key `` `${a} ${b}` ``. -/
def pairKey (a b : Tok) : Tok := a ++ ' ' :: b

/-- `getPairs(word)`: adjacent pairs of a symbol array with multiplicities, in
first-encounter order. -/
def getPairs (word : List Tok) : List (Tok × Nat) :=
  (word.zip word.tail).foldl (fun acc xy => bump acc (pairKey xy.1 xy.2) 1) []

/-- Inner loop of `countPairs` for one word entry. -/
def addWordPairs (acc : List (Tok × Nat)) (word : Tok) (freq : Nat) : List (Tok × Nat) :=
  (getPairs (splitChar ' ' word)).foldl (fun a p => bump a p.1 (freq * p.2)) acc

/-- `countPairs(words)`: weighted pair counts across the word-frequency table,
keys in first-encounter order over table iteration. -/
def countPairs (words : List (Tok × Nat)) : List (Tok × Nat) :=
  words.foldl (fun acc wf => addWordPairs acc wf.1 wf.2) []

/-- `pair.split(' ') as [string, string]`: the segments before and after the
first space. -/
def splitPair (p : Tok) : Tok × Tok :=
  (p.takeWhile (· ≠ ' '), ((p.dropWhile (· ≠ ' ')).drop 1).takeWhile (· ≠ ' '))

/-- The selection fold of the training loop: running `(maxCount, bestPair)`,
updated when `count > maxCount && count >= minFreq`. -/
def selectBestState (pcs : List (Tok × Nat)) (minFreq : Nat) : Nat × Option Tok :=
  pcs.foldl
    (fun acc pc => if pc.2 > acc.1 ∧ pc.2 ≥ minFreq then (pc.2, some pc.1) else acc)
    (0, none)

/-- The selected pair, `none` when the loop's
`if (!bestPair || maxCount < minFreq)` guard fires. -/
def selectBest (pcs : List (Tok × Nat)) (minFreq : Nat) : Option (Tok × Tok) :=
  match selectBestState pcs minFreq with
  | (_, none) => none
  | (maxCount, some p) => if maxCount < minFreq then none else some (splitPair p)

/-- `applyMerge(words, merge)`: rebuild the table with every word rewritten by
the merge's global replace. -/
def applyMerge (words : List (Tok × Nat)) (first second : Tok) : List (Tok × Nat) :=
  words.foldl (fun acc wf => mapSet acc (replaceMerge first second wf.1) wf.2) []

/-! ## Tokenizer state -/

/-- `TokenizerConfig`: the constructor always fills every field, so the model
uses a total record.  `minFreq`/`maxMerges` are read through `x || default`,
modelled by `orDefault` (`0` is falsy in JS). -/
structure TokenizerConfig where
  vocabSize : Nat
  specialTokens : List Tok
  unknownToken : Tok
  padToken : Tok
  minFreq : Nat
  maxMerges : Nat
deriving DecidableEq, Repr

/-- `x || d` on numbers (JS: `0` is falsy). -/
def orDefault (x d : Nat) : Nat := if x = 0 then d else x

/-- The constructor defaults of `BPETokenizer`. -/
def defaultConfig : TokenizerConfig :=
  { vocabSize := 1000
    specialTokens := ["<pad>".toList, "<unk>".toList, "<s>".toList, "</s>".toList]
    unknownToken := "<unk>".toList
    padToken := "<pad>".toList
    minFreq := 2
    maxMerges := 500 }

/-- The mutable fields of a `BPETokenizer` (statistics are wall-clock metrics
and are not modelled). -/
structure BPEState where
  vocabulary : List (Tok × Nat)
  reverseVocabulary : List (Nat × Tok)
  merges : List (Tok × Tok)
  config : TokenizerConfig
deriving DecidableEq, Repr

/-- `new BPETokenizer(config)` with a fully specified configuration. -/
def initState (cfg : TokenizerConfig) : BPEState :=
  { vocabulary := [], reverseVocabulary := [], merges := [], config := cfg }

/-! ## Training -/

/-- Guarded vocabulary insertion:
`if (!vocabulary.has(tok)) { vocabulary.set(tok, tokenId); reverseVocabulary.set(tokenId, tok); tokenId++ }`. -/
def addIfAbsent (v : List (Tok × Nat)) (r : List (Nat × Tok)) (tid : Nat) (tok : Tok) :
    List (Tok × Nat) × List (Nat × Tok) × Nat :=
  if mapGet v tok = none then (mapSet v tok tid, mapSet r tid tok, tid + 1)
  else (v, r, tid)

/-- Seeding the vocabulary with the configured special tokens (ids from 0). -/
def seedSpecials (cfg : TokenizerConfig) : List (Tok × Nat) × List (Nat × Tok) × Nat :=
  cfg.specialTokens.foldl
    (fun st tok => (mapSet st.1 tok st.2.2, mapSet st.2.1 st.2.2 tok, st.2.2 + 1))
    ([], [], 0)

/-- `word.split('').join(' ')`. -/
def sepChars : Tok → Tok
  | [] => []
  | [c] => [c]
  | c :: cs => c :: ' ' :: sepChars cs

/-- `word.split('').join(' ') + ' </w>'`. -/
def processedWord (w : Tok) : Tok := sepChars w ++ ' ' :: eow

/-- The normalized word list of `train`:
`text.toLowerCase().replace(/\s+/g,' ').trim().split(/\s+/).filter(w => w.length > 0)`. -/
def trainWordList (text : Tok) : List Tok :=
  (splitWS (jsTrim (collapseWS (lowerT text)))).filter (· ≠ [])

/-- The initial word-frequency table of `train`. -/
def buildWordTable (wordList : List Tok) : List (Tok × Nat) :=
  wordList.foldl (fun t w => bump t (processedWord w) 1) []

/-- `if (x ∈ l) l else l ++ [x]`: JS `Set.add` on an insertion-ordered set. -/
def addUnique (l : List Tok) (x : Tok) : List Tok := if x ∈ l then l else l ++ [x]

/-- The `allChars` set: every symbol of every table key other than `</w>` and
the empty string, in first-encounter order. -/
def collectChars (keys : List Tok) : List Tok :=
  keys.foldl
    (fun acc k =>
      (splitChar ' ' k).foldl
        (fun a c => if c ≠ eow ∧ c ≠ [] then addUnique a c else a) acc)
    []

/-- UTF-16 lexicographic comparison of JS strings (`Array.prototype.sort`'s
default order). -/
def lexLe : Tok → Tok → Bool
  | [], _ => true
  | _ :: _, [] => false
  | a :: as, b :: bs =>
    if a.toNat < b.toNat then true
    else if a.toNat = b.toNat then lexLe as bs
    else false

/-- Insertion into a sorted list (for `Array.from(set).sort()`). -/
def insertTok (x : Tok) : List Tok → List Tok
  | [] => [x]
  | y :: ys => if lexLe x y then x :: y :: ys else y :: insertTok x ys

/-- `Array.from(allChars).sort()`. -/
def sortToks (l : List Tok) : List Tok := l.foldr insertTok []

/-- Adding the sorted characters to the vocabulary. -/
def seedChars (v : List (Tok × Nat)) (r : List (Nat × Tok)) (tid : Nat) :
    List Tok → List (Tok × Nat) × List (Nat × Tok) × Nat
  | [] => (v, r, tid)
  | c :: cs =>
    let (v', r', tid') := addIfAbsent v r tid c
    seedChars v' r' tid' cs

/-- The state just before the BPE merge loop: vocabulary and inverse seeded
with specials, sorted characters and `</w>`, plus the initial table. -/
def trainSeed (cfg : TokenizerConfig) (text : Tok) :
    List (Tok × Nat) × List (Nat × Tok) × Nat × List (Tok × Nat) :=
  let sp := seedSpecials cfg
  let table := buildWordTable (trainWordList text)
  let sc := seedChars sp.1 sp.2.1 sp.2.2 (sortToks (collectChars (table.map Prod.fst)))
  let ae := addIfAbsent sc.1 sc.2.1 sc.2.2 eow
  (ae.1, ae.2.1, ae.2.2, table)

/-- The BPE training loop.  The fuel is `maxMerges - mergeCount`, so
`fuel = 0` is exactly the `mergeCount < maxMerges` guard failing; the loop
also stops when the vocabulary is full, when no pairs exist, or when the
`!bestPair || maxCount < minFreq` guard fires. -/
def trainLoopAux (cfg : TokenizerConfig) :
    Nat → List (Tok × Nat) → List (Nat × Tok) → Nat → List (Tok × Tok) → List (Tok × Nat) →
    List (Tok × Nat) × List (Nat × Tok) × Nat × List (Tok × Tok) × List (Tok × Nat)
  | 0, v, r, tid, ms, tbl => (v, r, tid, ms, tbl)
  | fuel + 1, v, r, tid, ms, tbl =>
    if v.length < cfg.vocabSize then
      let pcs := countPairs tbl
      if pcs = [] then (v, r, tid, ms, tbl)
      else
        match selectBest pcs (orDefault cfg.minFreq 2) with
        | none => (v, r, tid, ms, tbl)
        | some (f, s) =>
          let a := addIfAbsent v r tid (f ++ s)
          trainLoopAux cfg fuel a.1 a.2.1 a.2.2 (ms ++ [(f, s)]) (applyMerge tbl f s)
    else (v, r, tid, ms, tbl)

/-- `train(text)`: returns the state after the call together with the thrown
error, if any (the reset has happened in either case). -/
def train (s : BPEState) (text : Tok) : BPEState × Option Tok :=
  let s0 : BPEState := { s with vocabulary := [], reverseVocabulary := [], merges := [] }
  if jsTrim text = [] then (s0, some "Training text cannot be empty".toList)
  else
    let sd := trainSeed s.config text
    let out :=
      trainLoopAux s.config (orDefault s.config.maxMerges 500) sd.1 sd.2.1 sd.2.2.1 [] sd.2.2.2
    ({ s0 with vocabulary := out.1, reverseVocabulary := out.2.1, merges := out.2.2.2.1 },
      none)

/-! ## Tokenization -/

/-- Applying every learned merge rule in training order to one word's symbol
string (the inner loop of `tokenize`, which rebuilds the same regex as
`applyMerge`). -/
def applyMerges (ms : List (Tok × Tok)) (w : Tok) : Tok :=
  ms.foldl (fun acc fs => replaceMerge fs.1 fs.2 acc) w

/-- Per-word encoding: split the fully merged symbol string, drop empty parts,
and map each part to its id, falling back to the unknown token's id (a missing
unknown token is skipped). -/
def tokenizeWord (s : BPEState) (w : Tok) : List Nat :=
  let parts := (splitChar ' ' (applyMerges s.merges (processedWord w))).filter (· ≠ [])
  parts.foldl
    (fun acc part =>
      match mapGet s.vocabulary part with
      | some id => acc ++ [id]
      | none =>
        match mapGet s.vocabulary s.config.unknownToken with
        | some unk => acc ++ [unk]
        | none => acc)
    []

/-- `tokenize(text)`. -/
def tokenize (s : BPEState) (text : Tok) : Except Tok (List Nat) :=
  if s.vocabulary = [] then .error "Tokenizer not trained. Call train() first.".toList
  else if text = [] then .ok []
  else
    .ok (((splitWS (lowerT text)).filter (· ≠ [])).foldl
      (fun acc w => acc ++ tokenizeWord s w) [])

/-! ## Detokenization -/

/-- The decode loop, carrying the collected words and the current word buffer.
An id missing from the inverse vocabulary is skipped (`!token` also skips an
empty-string token); the end-of-word marker flushes a non-empty buffer;
configured special tokens are skipped; other symbols are appended.  At the end
a non-empty buffer is flushed. -/
def detokLoop (s : BPEState) : List Nat → List Tok → Tok → List Tok
  | [], ws, cur => if cur ≠ [] then ws ++ [cur] else ws
  | id :: rest, ws, cur =>
    match mapGet s.reverseVocabulary id with
    | none => detokLoop s rest ws cur
    | some tok =>
      if tok = [] then detokLoop s rest ws cur
      else if tok = eow then
        if cur ≠ [] then detokLoop s rest (ws ++ [cur]) [] else detokLoop s rest ws cur
      else if tok ∈ s.config.specialTokens then detokLoop s rest ws cur
      else detokLoop s rest ws (cur ++ tok)

/-- `detokenize(tokens)`. -/
def detokenize (s : BPEState) (ids : List Nat) : Tok :=
  if ids = [] then [] else joinSp (detokLoop s ids [] [])

/-! ## Validation and benchmarking -/

/-- The result record of `validateRoundTrip`. -/
structure ValidationResult where
  isValid : Bool
  originalText : Tok
  reconstructedText : Tok
  tokensMatch : Bool
  errors : List Tok
deriving DecidableEq, Repr

/-- `validateRoundTrip(text)`: any internal throw is caught and reported. -/
def validateRoundTrip (s : BPEState) (text : Tok) : ValidationResult :=
  match tokenize s text with
  | .error e =>
    { isValid := false, originalText := text, reconstructedText := []
      tokensMatch := false, errors := ["Validation error: ".toList ++ e] }
  | .ok toks =>
    let reconstructed := detokenize s toks
    let isValid := text = reconstructed
    { isValid := isValid
      originalText := text
      reconstructedText := reconstructed
      tokensMatch := toks.all (fun id => (mapGet s.reverseVocabulary id).isSome)
      errors := if isValid then [] else ["Round-trip validation failed".toList] }

/-- The aggregate of `benchmark` (timing and compression averages are
wall-clock/float metrics, not modelled). -/
structure BenchResult where
  totalTexts : Nat
  successfulRoundTrips : Nat
  roundTripAccuracy : Rat
  errors : List Tok
deriving DecidableEq, Repr

/-- `benchmark(texts)`: per text, retrain, tokenize, validate; a throw is
caught into the errors list and the batch continues. -/
def benchmark (s : BPEState) (texts : List Tok) : BPEState × BenchResult :=
  let step := fun (st : BPEState × List Tok × Nat) (t : Tok) =>
    match train st.1 t with
    | (s', some e) => (s', st.2.1 ++ ["Error processing text: ".toList ++ e], st.2.2)
    | (s', none) =>
      match tokenize s' t with
      | .error e => (s', st.2.1 ++ ["Error processing text: ".toList ++ e], st.2.2)
      | .ok _ =>
        if (validateRoundTrip s' t).isValid then (s', st.2.1, st.2.2 + 1)
        else (s', st.2.1 ++
          ["Round-trip failed for text: ".toList ++ t.take 50 ++ "...".toList], st.2.2)
  let out := texts.foldl step (s, [], 0)
  (out.1, { totalTexts := texts.length
            successfulRoundTrips := out.2.2
            roundTripAccuracy := ((out.2.2 : Rat) / (texts.length : Rat)) * 100
            errors := out.2.1 })

/-! ## Export / import

`exportVocabulary` passes the two `Map`s through `Object.fromEntries`, and
`importVocabulary` reads them back with `Object.entries`.  A JS object
enumerates integer-like keys (canonical numeric strings below `2^32 - 1`)
first, in ascending numeric order, then the remaining string keys in insertion
order; the composition of the two conversions is `objOrder` on the entry
list.  Ids pass through `Number(...)` unchanged. -/

/-- Decimal value of a digit string. -/
def tokToNat (k : Tok) : Nat := k.foldl (fun n c => n * 10 + (c.toNat - '0'.toNat)) 0

/-- Whether a JS object would treat this string key as an array index
(canonical decimal form, value below `2^32 - 1`). -/
def isArrayIndex (k : Tok) : Bool :=
  k ≠ [] && k.all (fun c => '0' ≤ c && c ≤ '9') &&
    (k = ['0'] || k.head? ≠ some '0') && tokToNat k < 4294967295

/-- Insertion into a list sorted by a numeric measure. -/
def insertByNat {α : Type} (f : α → Nat) (x : α) : List α → List α
  | [] => [x]
  | y :: ys => if f x ≤ f y then x :: y :: ys else y :: insertByNat f x ys

/-- Insertion sort by a numeric measure (ascending). -/
def sortByNat {α : Type} (f : α → Nat) (l : List α) : List α := l.foldr (insertByNat f) []

/-- `Object.entries(Object.fromEntries(m))` on a string-keyed map. -/
def objOrderStr (m : List (Tok × Nat)) : List (Tok × Nat) :=
  sortByNat (fun e => tokToNat e.1) (m.filter (fun e => isArrayIndex e.1)) ++
    m.filter (fun e => ¬ isArrayIndex e.1)

/-- `Object.entries(Object.fromEntries(m))` on a number-keyed map (numeric keys
stringify to canonical decimal, so ids below `2^32 - 1` sort ascending). -/
def objOrderNum (m : List (Nat × Tok)) : List (Nat × Tok) :=
  sortByNat (fun e => e.1) (m.filter (fun e => e.1 < 4294967295)) ++
    m.filter (fun e => ¬ e.1 < 4294967295)

/-- The serializable snapshot produced by `exportVocabulary` (the untyped
`stats` field is a wall-clock record, not modelled). -/
structure ExportData where
  vocabulary : List (Tok × Nat)
  reverseVocabulary : List (Nat × Tok)
  merges : List (Tok × Tok)
  config : TokenizerConfig
deriving DecidableEq, Repr

/-- `exportVocabulary()`. -/
def exportVocabulary (s : BPEState) : ExportData :=
  { vocabulary := objOrderStr s.vocabulary
    reverseVocabulary := objOrderNum s.reverseVocabulary
    merges := s.merges
    config := s.config }

/-- `importVocabulary(data)`: the snapshot replaces the internal state; the
incoming configuration is spread over the current one, and since an exported
configuration carries every field, the result is the incoming configuration. -/
def importVocabulary (s : BPEState) (d : ExportData) : BPEState :=
  { vocabulary := d.vocabulary
    reverseVocabulary := d.reverseVocabulary
    merges := d.merges
    config := d.config }

/-! ## The spec-side merge applier (for the refinement claim C2)

`specMergeSyms` is written from the specification's words, not from the code:
"replacing every non-overlapping left-to-right occurrence of the exact
adjacent pair with its concatenation", matching whole symbols only
(scan-and-advance over the symbol list). -/

/-- Whole-symbol, leftmost, non-overlapping merge of the adjacent pair
`(f, s)` in a symbol list — the Merge Applier as the spec describes it. -/
def specMergeSyms (f s : Tok) : List Tok → List Tok
  | [] => []
  | [x] => [x]
  | x :: y :: rest =>
    if x = f ∧ y = s then (f ++ s) :: specMergeSyms f s rest
    else x :: specMergeSyms f s (y :: rest)

/-! ## Predicates and example inputs used in the claim statements -/

/-- A non-empty symbol made of word characters only. -/
def wordTok (t : Tok) : Prop := t ≠ [] ∧ ∀ c ∈ t, isWordChar c = true

/-- A non-empty word of lowercase ASCII letters. -/
def lcword (w : Tok) : Prop := w ≠ [] ∧ ∀ c ∈ w, 'a' ≤ c ∧ c ≤ 'z'

/-- The text contains an uppercase ASCII letter. -/
def hasUpperAscii (t : Tok) : Prop := ∃ c ∈ t, 'A' ≤ c ∧ c ≤ 'Z'

/-- Irregular whitespace: a whitespace character other than a plain space, a
leading or trailing space, or two spaces in a row. -/
def irregularWS (t : Tok) : Prop :=
  (∃ c ∈ t, jsIsWS c = true ∧ c ≠ ' ') ∨ t.head? = some ' ' ∨ t.getLast? = some ' ' ∨
    ∃ l1 l2, t = l1 ++ ' ' :: ' ' :: l2

/-- Occurrences of the pair key `p` among adjacent symbols of a table word. -/
def pairOcc (p : Tok) (w : Tok) : Nat :=
  (((splitChar ' ' w).zip (splitChar ' ' w).tail).filter
    (fun xy => pairKey xy.1 xy.2 = p)).length

/-- The aggregated weighted count of a pair over a word-frequency table:
`Σ frequency(word) × occurrences(pair in word)`. -/
def weight (tbl : List (Tok × Nat)) (p : Tok) : Nat :=
  (tbl.map (fun wf => wf.2 * pairOcc p wf.1)).sum

/-- A string with its spaces removed (the symbol content of a table key,
invariant under merge application). -/
def despace (t : Tok) : Tok := t.filter (· ≠ ' ')

/-- A well-formed table key: a space-join of non-empty word-character symbols
terminated by the end-of-word marker. -/
def wfKey (k : Tok) : Prop :=
  ∃ syms : List Tok, syms ≠ [] ∧ (∀ t ∈ syms, wordTok t) ∧ k = joinSp (syms ++ [eow])

/-- Well-formedness of the paired vocabulary maps: distinct keys on both
sides, every id below the running counter, and the inverse map faithful to
the forward map. -/
def VocabOK (v : List (Tok × Nat)) (r : List (Nat × Tok)) (tid : Nat) : Prop :=
  (v.map Prod.fst).Nodup ∧ (r.map Prod.fst).Nodup ∧ (∀ e ∈ r, e.1 < tid) ∧
    (∀ e ∈ v, mapGet r e.2 = some e.1 ∧ e.2 < tid)

/-- A symbol with no ASCII uppercase letters and no whitespace at all. -/
def cleanSym (t : Tok) : Prop := ∀ c ∈ t, ¬('A' ≤ c ∧ c ≤ 'Z') ∧ jsIsWS c = false

/-- A table key with no ASCII uppercase letters whose only whitespace is the
single-space symbol separator. -/
def cleanKey (k : Tok) : Prop :=
  ∀ c ∈ k, ¬('A' ≤ c ∧ c ≤ 'Z') ∧ (jsIsWS c = true → c = ' ')

/-- Every vocabulary entry is a configured special token or a clean symbol. -/
def VocabClean (cfg : TokenizerConfig) (v : List (Tok × Nat)) : Prop :=
  ∀ e ∈ v, e.1 ∈ cfg.specialTokens ∨ cleanSym e.1

/-- Every inverse-vocabulary entry is a configured special token or a clean
symbol. -/
def RvClean (cfg : TokenizerConfig) (r : List (Nat × Tok)) : Prop :=
  ∀ e ∈ r, e.2 ∈ cfg.specialTokens ∨ cleanSym e.2

/-- Every table key is clean. -/
def TableClean (tbl : List (Tok × Nat)) : Prop := ∀ e ∈ tbl, cleanKey e.1

/-- Every table key is a well-formed symbol string. -/
def TableWF (tbl : List (Tok × Nat)) : Prop := ∀ e ∈ tbl, wfKey e.1

/-- The invariant carried through the BPE merge loop on canonical input: the
vocabulary pair is well-formed, every table key is a well-formed symbol
string, every symbol of every table key is in the vocabulary, and the
despaced table keys are distinct. -/
def LoopInv (v : List (Tok × Nat)) (r : List (Nat × Tok)) (tid : Nat)
    (tbl : List (Tok × Nat)) : Prop :=
  VocabOK v r tid ∧ TableWF tbl ∧
    (∀ e ∈ tbl, ∀ sym ∈ splitChar ' ' e.1, mapGet v sym ≠ none) ∧
    (tbl.map (fun e => despace e.1)).Nodup

/-- A small vocabulary (used by the concrete `detokenize([999999])` scenario). -/
def detokExampleState : BPEState :=
  { vocabulary := [("a".toList, 0)], reverseVocabulary := [(0, "a".toList)],
    merges := [], config := defaultConfig }

/-- A configuration whose target vocabulary size is below the seeded size. -/
def tinyVocabConfig : TokenizerConfig := { defaultConfig with vocabSize := 1 }

/-! # Lemmas -/

/-! ## Association-list basics -/

theorem mapSet_length_le {α β : Type} [DecidableEq α] (k : α) (v : β) :
    ∀ m : List (α × β), (mapSet m k v).length ≤ m.length + 1
  | [] => le_refl _
  | (k0, v0) :: rest => by
    simp only [mapSet]
    split
    · simp
    · simpa using Nat.succ_le_succ (mapSet_length_le k v rest)

theorem addIfAbsent_vocab_length_le (v : List (Tok × Nat)) (r : List (Nat × Tok)) (tid : Nat)
    (tok : Tok) : (addIfAbsent v r tid tok).1.length ≤ v.length + 1 := by
  unfold addIfAbsent
  split
  · exact mapSet_length_le _ _ _
  · exact Nat.le_succ _

/-! ## Bounds of the training loop (claim C3) -/

theorem trainLoopAux_vocab_bound (cfg : TokenizerConfig) :
    ∀ (fuel : Nat) (v : List (Tok × Nat)) (r : List (Nat × Tok)) (tid : Nat)
      (ms : List (Tok × Tok)) (tbl : List (Tok × Nat)),
      (trainLoopAux cfg fuel v r tid ms tbl).1.length ≤ max cfg.vocabSize v.length
  | 0, v, r, tid, ms, tbl => by simp [trainLoopAux]
  | fuel + 1, v, r, tid, ms, tbl => by
    simp only [trainLoopAux]
    split
    · rename_i hlt
      split
      · exact le_max_right _ _
      · rcases hsel : selectBest (countPairs tbl) (orDefault cfg.minFreq 2) with _ | ⟨f, s⟩
        · simp only [hsel]
          exact le_max_right _ _
        · simp only [hsel]
          refine le_trans (trainLoopAux_vocab_bound cfg fuel _ _ _ _ _) ?_
          have h1 : (addIfAbsent v r tid (f ++ s)).1.length ≤ v.length + 1 :=
            addIfAbsent_vocab_length_le v r tid (f ++ s)
          have h2 : v.length + 1 ≤ cfg.vocabSize := hlt
          simp only [max_le_iff]
          exact ⟨le_max_left _ _, le_trans (le_trans h1 h2) (le_max_left _ _)⟩
    · exact le_max_right _ _

theorem trainLoopAux_merges_bound (cfg : TokenizerConfig) :
    ∀ (fuel : Nat) (v : List (Tok × Nat)) (r : List (Nat × Tok)) (tid : Nat)
      (ms : List (Tok × Tok)) (tbl : List (Tok × Nat)),
      (trainLoopAux cfg fuel v r tid ms tbl).2.2.2.1.length ≤ ms.length + fuel
  | 0, v, r, tid, ms, tbl => by simp [trainLoopAux]
  | fuel + 1, v, r, tid, ms, tbl => by
    simp only [trainLoopAux]
    split
    · split
      · simp
      · rcases hsel : selectBest (countPairs tbl) (orDefault cfg.minFreq 2) with _ | ⟨f, s⟩
        · simp [hsel]
        · simp only [hsel]
          refine le_trans (trainLoopAux_merges_bound cfg fuel _ _ _ _ _) ?_
          simp only [List.length_append, List.length_cons, List.length_nil]
          omega
    · simp

/-! # Claims -/

/-- C3, counterexample: with a configured `vocabSize` of 1, training on `"a"`
succeeds but leaves a vocabulary of 6 entries (4 special tokens, the character
`a` and `</w>`), exceeding the configured `vocabSize`. -/
theorem claim3_counterexample :
    (train (initState tinyVocabConfig) "a".toList).2 = none ∧
    ¬ (train (initState tinyVocabConfig) "a".toList).1.vocabulary.length ≤
        tinyVocabConfig.vocabSize := by
  constructor
  · decide
  · decide

/-- C3, amended: after every successful `train`, the vocabulary size is at
most the maximum of the configured `vocabSize` and the seeded size (special
tokens, distinct characters, end-of-word marker) — seeding ignores the cap —
and the merge-list length is at most `maxMerges` read through JS `||`
(a configured `0` falls back to 500). -/
theorem claim3_amended (s : BPEState) (text : Tok) (h : (train s text).2 = none) :
    (train s text).1.vocabulary.length ≤
      max s.config.vocabSize (trainSeed s.config text).1.length ∧
    (train s text).1.merges.length ≤ orDefault s.config.maxMerges 500 := by
  unfold train at *
  by_cases ht : jsTrim text = []
  · simp [ht] at h
  · simp only [ht, if_false]
    constructor
    · exact trainLoopAux_vocab_bound _ _ _ _ _ _ _
    · simpa using trainLoopAux_merges_bound s.config (orDefault s.config.maxMerges 500)
        (trainSeed s.config text).1 (trainSeed s.config text).2.1
        (trainSeed s.config text).2.2.1 [] (trainSeed s.config text).2.2.2

/-- C3, witness for the amended claim at `train(initState default, "a")`. -/
theorem claim3_amended_witness :
    (train (initState defaultConfig) "a".toList).2 = none ∧
    (train (initState defaultConfig) "a".toList).1.vocabulary.length ≤
      max (initState defaultConfig).config.vocabSize
        (trainSeed (initState defaultConfig).config "a".toList).1.length ∧
    (train (initState defaultConfig) "a".toList).1.merges.length ≤
      orDefault (initState defaultConfig).config.maxMerges 500 :=
  ⟨by decide, claim3_amended (initState defaultConfig) "a".toList (by decide)⟩

/-- C6: training on empty or whitespace-only text fails with the invalid-input
error, and the state afterward carries an empty vocabulary and an empty merge
list — the reset happened, nothing further was committed. -/
theorem claim6_train_empty_input (s : BPEState) (text : Tok)
    (h : ∀ c ∈ text, jsIsWS c = true) :
    (train s text).2 = some "Training text cannot be empty".toList ∧
    (train s text).1.vocabulary = [] ∧ (train s text).1.reverseVocabulary = [] ∧
    (train s text).1.merges = [] := by
  have htrim : jsTrim text = [] := by
    unfold jsTrim
    rw [List.dropWhile_eq_nil_iff.mpr h]
    simp
  simp [train, htrim]

/-- C6, witness at the whitespace-only text `"  "`. -/
theorem claim6_witness :
    (∀ c ∈ "  ".toList, jsIsWS c = true) ∧
    (train (initState defaultConfig) "  ".toList).2 =
      some "Training text cannot be empty".toList ∧
    (train (initState defaultConfig) "  ".toList).1.vocabulary = [] ∧
    (train (initState defaultConfig) "  ".toList).1.reverseVocabulary = [] ∧
    (train (initState defaultConfig) "  ".toList).1.merges = [] :=
  ⟨by decide, claim6_train_empty_input (initState defaultConfig) "  ".toList (by decide)⟩

/-- C7: `tokenize` raises the not-trained error exactly when the vocabulary is
empty (in particular also on empty input), and with a non-empty vocabulary the
empty text yields the empty id sequence without error. -/
theorem claim7_tokenize_guards (s : BPEState) (text : Tok) :
    ((∃ e, tokenize s text = .error e) ↔ s.vocabulary = []) ∧
    (s.vocabulary ≠ [] → tokenize s [] = .ok []) := by
  constructor
  · constructor
    · rintro ⟨e, he⟩
      by_contra hv
      by_cases htext : text = [] <;> simp [tokenize, hv, htext] at he
    · intro hv
      exact ⟨"Tokenizer not trained. Call train() first.".toList, by simp [tokenize, hv]⟩
  · intro hv
    simp [tokenize, hv]

/-- C8: the decode behaviour, step by step.  The empty id sequence yields the
empty string; an id absent from the inverse vocabulary is skipped; the
end-of-word marker flushes the (non-empty) accumulated buffer; configured
special tokens contribute nothing; any other symbol's text is appended to the
buffer; after the loop a non-empty buffer is flushed; the collected words are
joined with single spaces; and on the small example vocabulary
`detokenize [999999]` returns `""` without failing. -/
theorem claim8_detokenize_spec :
    (∀ s : BPEState, detokenize s [] = []) ∧
    (∀ (s : BPEState) (id : Nat) rest ws cur, mapGet s.reverseVocabulary id = none →
      detokLoop s (id :: rest) ws cur = detokLoop s rest ws cur) ∧
    (∀ (s : BPEState) (id : Nat) rest ws cur, mapGet s.reverseVocabulary id = some eow →
      detokLoop s (id :: rest) ws cur =
        if cur ≠ [] then detokLoop s rest (ws ++ [cur]) [] else detokLoop s rest ws cur) ∧
    (∀ (s : BPEState) (id : Nat) rest ws cur tok, mapGet s.reverseVocabulary id = some tok →
      tok ≠ eow → tok ∈ s.config.specialTokens →
      detokLoop s (id :: rest) ws cur = detokLoop s rest ws cur) ∧
    (∀ (s : BPEState) (id : Nat) rest ws cur tok, mapGet s.reverseVocabulary id = some tok →
      tok ≠ eow → tok ∉ s.config.specialTokens →
      detokLoop s (id :: rest) ws cur = detokLoop s rest ws (cur ++ tok)) ∧
    (∀ (s : BPEState) ws cur, detokLoop s [] ws cur = if cur ≠ [] then ws ++ [cur] else ws) ∧
    (∀ (s : BPEState) ids, ids ≠ [] → detokenize s ids = joinSp (detokLoop s ids [] [])) ∧
    detokenize detokExampleState [999999] = [] := by
  refine ⟨fun s => by simp [detokenize], ?_, ?_, ?_, ?_, ?_, ?_, by decide⟩
  · intro s id rest ws cur h
    simp [detokLoop, h]
  · intro s id rest ws cur h
    have : eow ≠ [] := by decide
    simp [detokLoop, h, this]
  · intro s id rest ws cur tok h hne hmem
    by_cases htok : tok = []
    · simp [detokLoop, h, htok]
    · simp [detokLoop, h, htok, hne, hmem]
  · intro s id rest ws cur tok h hne hmem
    by_cases htok : tok = []
    · simp [detokLoop, h, htok]
    · simp [detokLoop, h, htok, hne, hmem]
  · intro s ws cur
    simp [detokLoop]
  · intro s ids h
    simp [detokenize, h]

/-- C8, witness: the unknown-id step applied at `999999` on the example
vocabulary, with a non-empty pending buffer. -/
theorem claim8_witness :
    mapGet detokExampleState.reverseVocabulary 999999 = none ∧
    detokLoop detokExampleState [999999] [] ['x'] = detokLoop detokExampleState [] [] ['x'] :=
  ⟨by decide, claim8_detokenize_spec.2.1 detokExampleState 999999 [] [] ['x'] (by decide)⟩

/-- C2, counterexample: on the single-entry table whose word is the symbol
sequence `["c<", "a"]` (written `"c< a"`), the merge rule `("<", "a")` must,
per the claim, match nothing — `"c<"` is a multi-character symbol that merely
ends with `"<"` — yet `applyMerge` rewrites the word to `"c<a"`, because the
regex `\b< a\b` matches at the word-boundary inside the symbol `"c<"`. -/
theorem claim2_counterexample :
    applyMerge [("c< a".toList, 1)] "<".toList "a".toList = [("c<a".toList, 1)] ∧
    joinSp (specMergeSyms "<".toList "a".toList (splitChar ' ' "c< a".toList)) =
      "c< a".toList ∧
    "c<a".toList ≠ "c< a".toList := by
  refine ⟨by decide, by decide, by decide⟩


/-! ## `listPrefix` basics -/

theorem listPrefix_cons_head {a b : Char} {p l : Tok}
    (h : listPrefix (a :: p) (b :: l) = true) : a = b := by
  simp only [listPrefix, Bool.and_eq_true, decide_eq_true_eq] at h
  exact h.1

theorem listPrefix_cons_tail {a b : Char} {p l : Tok}
    (h : listPrefix (a :: p) (b :: l) = true) : listPrefix p l = true := by
  simp only [listPrefix, Bool.and_eq_true, decide_eq_true_eq] at h
  exact h.2

theorem listPrefix_length : ∀ {p l : Tok}, listPrefix p l = true → p.length ≤ l.length
  | [], _, _ => Nat.zero_le _
  | _ :: _, [], h => by simp [listPrefix] at h
  | _ :: p, _ :: l, h =>
    Nat.succ_le_succ (listPrefix_length (listPrefix_cons_tail h))

theorem listPrefix_refl_append : ∀ (p t : Tok), listPrefix p (p ++ t) = true
  | [], _ => rfl
  | a :: p, t => by simp [listPrefix, listPrefix_refl_append p t]

theorem listPrefix_take : ∀ {p l : Tok}, listPrefix p l = true → l.take p.length = p
  | [], _, _ => rfl
  | a :: p, [], h => by simp [listPrefix] at h
  | a :: p, b :: l, h => by
    have h1 := listPrefix_cons_head h
    have h2 := listPrefix_take (listPrefix_cons_tail h)
    simp [h1, h2]

theorem listPrefix_eq_of_length : ∀ {p l : Tok}, listPrefix p l = true →
    p.length = l.length → p = l := by
  intro p l h hl
  have := listPrefix_take h
  rw [hl, List.take_length] at this
  exact this.symm

theorem listPrefix_append_drop {p l : Tok} (h : listPrefix p l = true) :
    l = p ++ l.drop p.length := by
  conv_lhs => rw [← List.take_append_drop p.length l, listPrefix_take h]

/-- Head of a dropped suffix is a member of the original list. -/
theorem head?_drop_mem : ∀ (l : Tok) (n : Nat) (c : Char), (l.drop n).head? = some c → c ∈ l
  | [], n, c, h => by simp at h
  | a :: l, 0, c, h => by
    simp only [List.drop_zero, List.head?_cons, Option.some.injEq] at h
    simp [h]
  | a :: l, n + 1, c, h => by
    simp only [List.drop_succ_cons] at h
    exact List.mem_cons_of_mem a (head?_drop_mem l n c h)

/-! ## The scan at canonical fuel -/

theorem replaceMergeGo_fuel (pat rep : Tok) :
    ∀ (n m : Nat) (prev : Option Char) (t : Tok), t.length ≤ n → t.length ≤ m →
      replaceMergeGo pat rep n prev t = replaceMergeGo pat rep m prev t := by
  intro n
  induction n with
  | zero =>
    intro m prev t hn _
    have : t = [] := List.length_eq_zero.mp (Nat.le_zero.mp hn)
    subst this
    cases m <;> simp [replaceMergeGo]
  | succ n ih =>
    intro m prev t hn hm
    cases t with
    | nil => cases m <;> simp [replaceMergeGo]
    | cons c cs =>
      cases m with
      | zero => simp at hm
      | succ m =>
        simp only [replaceMergeGo]
        split
        · rename_i hcond
          have hpat : pat.length ≥ 1 := by
            rcases hcond with ⟨hne, -⟩
            cases pat
            · simp at hne
            · simp
          have hlen : ((c :: cs).drop pat.length).length ≤ n := by
            simp only [List.length_drop, List.length_cons] at *
            omega
          have hlen' : ((c :: cs).drop pat.length).length ≤ m := by
            simp only [List.length_drop, List.length_cons] at *
            omega
          rw [ih m _ _ hlen hlen']
        · have hlen : cs.length ≤ n := by simpa using hn
          have hlen' : cs.length ≤ m := by simpa using hm
          rw [ih m _ _ hlen hlen']

theorem replaceMerge_eq_scanG (f s w : Tok) :
    replaceMerge f s w = scanG (f ++ ' ' :: s) (f ++ s) none w := rfl

theorem scanG_nil (pat rep : Tok) (prev : Option Char) : scanG pat rep prev [] = [] := by
  simp [scanG, replaceMergeGo]

theorem scanG_cons_match {pat : Tok} (rep : Tok) {prev : Option Char} {c : Char} {cs : Tok}
    (h : pat ≠ [] ∧ listPrefix pat (c :: cs) = true ∧
      (isWordCharO prev ≠ isWordChar c) ∧
      (isWordCharO pat.getLast? ≠ isWordCharO ((c :: cs).drop pat.length).head?)) :
    scanG pat rep prev (c :: cs) =
      rep ++ scanG pat rep pat.getLast? ((c :: cs).drop pat.length) := by
  have hpat : pat.length ≥ 1 := by
    rcases h with ⟨hne, -⟩
    cases pat
    · simp at hne
    · simp
  simp only [scanG, List.length_cons, replaceMergeGo]
  rw [if_pos (by simpa using h)]
  congr 1
  apply replaceMergeGo_fuel
  · simp only [List.length_drop, List.length_cons]; omega
  · exact le_refl _

theorem scanG_cons_nomatch {pat : Tok} (rep : Tok) {prev : Option Char} {c : Char} {cs : Tok}
    (h : ¬ (pat ≠ [] ∧ listPrefix pat (c :: cs) = true ∧
      (isWordCharO prev ≠ isWordChar c) ∧
      (isWordCharO pat.getLast? ≠ isWordCharO ((c :: cs).drop pat.length).head?))) :
    scanG pat rep prev (c :: cs) = c :: scanG pat rep (some c) cs := by
  simp only [scanG, List.length_cons, replaceMergeGo]
  rw [if_neg (by simpa using h)]

/-! ## Word-run analysis of the pattern `f ++ ' ' :: s` -/

/-- If the literal `f ++ ' ' ++ s` is a prefix of `x ++ rest`, with `f` and
`x` word-character runs and `rest` not starting with a word character, then
`f` is exactly `x` (the pattern's internal space must line up with the end of
the run). -/
theorem prefix_wordrun :
    ∀ (f x s rest : Tok), (∀ c ∈ f, isWordChar c = true) → (∀ c ∈ x, isWordChar c = true) →
      isWordCharO rest.head? = false →
      listPrefix (f ++ ' ' :: s) (x ++ rest) = true → f = x ∧ listPrefix (' ' :: s) rest = true
  | [], [], s, rest, _, _, _, h => ⟨rfl, h⟩
  | [], d :: x', s, rest, _, hx, _, h => by
    exfalso
    have hd : (' ' : Char) = d := listPrefix_cons_head (by simpa using h)
    have : isWordChar ' ' = true := hd ▸ hx d (by simp)
    exact absurd this (by decide)
  | c :: f', x, s, rest, hf, hx, hrest, h => by
    cases x with
    | nil =>
      exfalso
      cases rest with
      | nil => simp [listPrefix] at h
      | cons e r' =>
        have he : c = e := listPrefix_cons_head (by simpa using h)
        have : isWordCharO (some e) = false := by simpa using hrest
        rw [← he] at this
        have hc : isWordChar c = true := hf c (by simp)
        simp [isWordCharO] at this
        rw [this] at hc
        exact absurd hc (by simp)
    | cons d x' =>
      have hd : c = d := listPrefix_cons_head (by simpa using h)
      have htail : listPrefix (f' ++ ' ' :: s) (x' ++ rest) = true :=
        listPrefix_cons_tail (by simpa using h)
      have ih := prefix_wordrun f' x' s rest (fun a ha => hf a (by simp [ha]))
        (fun a ha => hx a (by simp [ha])) hrest htail
      exact ⟨by rw [hd, ih.1], ih.2⟩

/-- A word-character run that is a prefix of `y ++ rest2`, with `y` a
word-character run and `rest2` not starting with a word character, is already
a prefix of `y`. -/
theorem prefix_wordrun_stop :
    ∀ (s y rest2 : Tok), (∀ c ∈ s, isWordChar c = true) → (∀ c ∈ y, isWordChar c = true) →
      isWordCharO rest2.head? = false →
      listPrefix s (y ++ rest2) = true → listPrefix s y = true
  | [], _, _, _, _, _, _ => rfl
  | c :: s', [], rest2, hs, _, hrest, h => by
    exfalso
    cases rest2 with
    | nil => simp [listPrefix] at h
    | cons e r' =>
      have he : c = e := listPrefix_cons_head (by simpa using h)
      have hc : isWordChar c = true := hs c (by simp)
      rw [he] at hc
      simp [isWordCharO, hc] at hrest
  | c :: s', d :: y', rest2, hs, hy, hrest, h => by
    have hd : c = d := listPrefix_cons_head (by simpa using h)
    have htail := listPrefix_cons_tail (show listPrefix (c :: s') (d :: (y' ++ rest2)) = true
      by simpa using h)
    have ih := prefix_wordrun_stop s' y' rest2 (fun a ha => hs a (by simp [ha]))
      (fun a ha => hy a (by simp [ha])) hrest htail
    simp [listPrefix, hd, ih]

/-! ## Copying runs and tails unchanged -/

/-- Inside a word-character run the start boundary `\b` never holds, so the
scan copies the run unchanged. -/
theorem scanG_copy_run (pat rep : Tok) :
    ∀ (xs rest : Tok) (p : Char), (∀ c ∈ xs, isWordChar c = true) → isWordChar p = true →
      scanG pat rep (some p) (xs ++ rest) = xs ++ scanG pat rep (some (xs.getLastD p)) rest
  | [], rest, p, _, _ => by simp
  | c :: xs', rest, p, hxs, hp => by
    have hc : isWordChar c = true := hxs c (by simp)
    have hnm : ¬ (pat ≠ [] ∧ listPrefix pat (c :: (xs' ++ rest)) = true ∧
        (isWordCharO (some p) ≠ isWordChar c) ∧
        (isWordCharO pat.getLast? ≠
          isWordCharO ((c :: (xs' ++ rest)).drop pat.length).head?)) := by
      rintro ⟨-, -, h3, -⟩
      exact h3 (by simp [isWordCharO, hp, hc])
    rw [List.cons_append, scanG_cons_nomatch rep hnm]
    rw [scanG_copy_run pat rep xs' rest c (fun a ha => hxs a (by simp [ha])) hc]
    rw [List.getLastD_cons p c xs']
    simp

theorem isWordChar_space : isWordChar ' ' = false := by decide

/-- The scan never matches inside the tail `" </w>"` when the pattern is
`f ++ " " ++ s` with `f` a non-empty word-character run and `s` non-empty. -/
theorem scanG_tail_eow (f s : Tok) (hf0 : f ≠ []) (hfw : ∀ c ∈ f, isWordChar c = true)
    (hsne : s ≠ []) (p : Option Char) :
    scanG (f ++ ' ' :: s) (f ++ s) p (' ' :: eow) = ' ' :: eow := by
  obtain ⟨c0, f0, rfl⟩ : ∃ c0 f0, f = c0 :: f0 := by
    cases f with
    | nil => exact absurd rfl hf0
    | cons a l => exact ⟨a, l, rfl⟩
  have hc0 : isWordChar c0 = true := hfw c0 (by simp)
  have hpat : (c0 :: f0) ++ ' ' :: s = c0 :: (f0 ++ ' ' :: s) := by simp
  have hhead : ∀ (b : Char) (l : Tok), isWordChar b = false →
      listPrefix ((c0 :: f0) ++ ' ' :: s) (b :: l) = true → False := by
    intro b l hb h
    rw [hpat] at h
    have := listPrefix_cons_head h
    rw [this] at hc0
    rw [hc0] at hb
    exact absurd hb (by simp)
  have step : ∀ (b : Char) (l : Tok) (q : Option Char), isWordChar b = false →
      scanG ((c0 :: f0) ++ ' ' :: s) ((c0 :: f0) ++ s) q (b :: l) =
        b :: scanG ((c0 :: f0) ++ ' ' :: s) ((c0 :: f0) ++ s) (some b) l := by
    intro b l q hb
    refine scanG_cons_nomatch _ ?_
    rintro ⟨-, h2, -, -⟩
    exact hhead b l hb h2
  have hlen : ¬ listPrefix ((c0 :: f0) ++ ' ' :: s) ['w', '>'] = true := by
    intro h
    have := listPrefix_length h
    simp only [List.length_append, List.length_cons] at this
    cases s with
    | nil => exact absurd rfl hsne
    | cons a l => simp at this; omega
  have stepw : ∀ (q : Option Char),
      scanG ((c0 :: f0) ++ ' ' :: s) ((c0 :: f0) ++ s) q ['w', '>'] =
        'w' :: scanG ((c0 :: f0) ++ ' ' :: s) ((c0 :: f0) ++ s) (some 'w') ['>'] := by
    intro q
    refine scanG_cons_nomatch _ ?_
    rintro ⟨-, h2, -, -⟩
    exact hlen h2
  show scanG _ _ p (' ' :: '<' :: '/' :: 'w' :: '>' :: []) = _
  rw [step ' ' _ p (by decide), step '<' _ _ (by decide), step '/' _ _ (by decide),
    stepw, step '>' _ _ (by decide), scanG_nil]
  rfl

/-! ## Joining symbol lists -/

theorem joinSp_cons (w : Tok) {ws : List Tok} (h : ws ≠ []) :
    joinSp (w :: ws) = w ++ ' ' :: joinSp ws := by
  cases ws with
  | nil => exact absurd rfl h
  | cons y t => rfl

theorem joinSp_cons_append (x : Tok) {L : List Tok} (h : L ≠ []) (T : Tok) :
    joinSp (x :: L) ++ T = x ++ ' ' :: (joinSp L ++ T) := by
  rw [joinSp_cons x h]
  simp

theorem specMergeSyms_ne_nil (f s : Tok) : ∀ {L : List Tok}, L ≠ [] →
    specMergeSyms f s L ≠ []
  | [], h => absurd rfl h
  | [x], _ => by simp [specMergeSyms]
  | x :: y :: rest, _ => by
    simp only [specMergeSyms]
    split <;> simp

theorem specMergeSyms_mem (f s : Tok) :
    ∀ (n : Nat) (L : List Tok), L.length ≤ n → ∀ t ∈ specMergeSyms f s L, t ∈ L ∨ t = f ++ s := by
  intro n
  induction n with
  | zero =>
    intro L hL t ht
    have : L = [] := List.length_eq_zero.mp (Nat.le_zero.mp hL)
    subst this
    simp [specMergeSyms] at ht
  | succ n ih =>
    intro L hL t ht
    match L with
    | [] => simp [specMergeSyms] at ht
    | [x] =>
      simp [specMergeSyms] at ht
      simp [ht]
    | x :: y :: rest =>
      simp only [specMergeSyms] at ht
      split at ht
      · rcases List.mem_cons.mp ht with h | h
        · exact Or.inr h
        · rcases ih rest (by simp at hL ⊢; omega) t h with h' | h'
          · exact Or.inl (by simp [h'])
          · exact Or.inr h'
      · rcases List.mem_cons.mp ht with h | h
        · exact Or.inl (by simp [h])
        · rcases ih (y :: rest) (by simp at hL ⊢; omega) t h with h' | h'
          · exact Or.inl (by simp at h' ⊢; tauto)
          · exact Or.inr h'

theorem specMergeSyms_join (f s : Tok) :
    ∀ (n : Nat) (L : List Tok), L.length ≤ n → (specMergeSyms f s L).flatten = L.flatten := by
  intro n
  induction n with
  | zero =>
    intro L hL
    have : L = [] := List.length_eq_zero.mp (Nat.le_zero.mp hL)
    subst this
    rfl
  | succ n ih =>
    intro L hL
    match L with
    | [] => rfl
    | [x] => rfl
    | x :: y :: rest =>
      simp only [specMergeSyms]
      split
      · rename_i hxy
        rw [List.flatten_cons]
        rw [ih rest (by simp at hL ⊢; omega)]
        simp [hxy.1, hxy.2]
      · rw [List.flatten_cons, List.flatten_cons]
        rw [ih (y :: rest) (by simp at hL ⊢; omega)]

/-! ## Scan steps at the pattern level -/

/-- At a non-word character the pattern (which starts with a word character)
cannot match, so the scan copies it. -/
theorem scanG_skip_nonword {f : Tok} (s rep : Tok) (hf0 : f ≠ [])
    (hfw : ∀ c ∈ f, isWordChar c = true) {b : Char} (hb : isWordChar b = false)
    (l : Tok) (q : Option Char) :
    scanG (f ++ ' ' :: s) rep q (b :: l) = b :: scanG (f ++ ' ' :: s) rep (some b) l := by
  obtain ⟨c0, f0, rfl⟩ : ∃ c0 f0, f = c0 :: f0 := by
    cases f with
    | nil => exact absurd rfl hf0
    | cons a t => exact ⟨a, t, rfl⟩
  refine scanG_cons_nomatch _ ?_
  rintro ⟨-, h2, -, -⟩
  rw [show (c0 :: f0) ++ ' ' :: s = c0 :: (f0 ++ ' ' :: s) by simp] at h2
  have := listPrefix_cons_head h2
  rw [this] at hfw
  have hc := hfw b (by simp)
  rw [hc] at hb
  exact absurd hb (by simp)

/-- The last character of a pattern `f ++ ' ' :: s` with `s` a non-empty
word-character run is a word character. -/
theorem pat_getLast_word {f s : Tok} (hs0 : s ≠ []) (hsw : ∀ c ∈ s, isWordChar c = true) :
    isWordCharO (f ++ ' ' :: s).getLast? = true := by
  have h1 : (f ++ ' ' :: s).getLast? = (' ' :: s).getLast? :=
    List.getLast?_append_of_ne_nil _ (by simp)
  have h2 : (' ' :: s).getLast? = s.getLast? :=
    List.getLast?_append_of_ne_nil [' '] hs0
  rw [h1, h2, List.getLast?_eq_getLast s hs0]
  exact hsw _ (List.getLast_mem hs0)

/-- At the very start of an occurrence of the literal pattern followed by a
non-word continuation, the scan matches and consumes the pattern. -/
theorem scanG_match_start {f s : Tok} (rep : Tok) (hf0 : f ≠ [])
    (hfw : ∀ c ∈ f, isWordChar c = true) (hs0 : s ≠ [])
    (hsw : ∀ c ∈ s, isWordChar c = true) (rest : Tok)
    (hrest : isWordCharO rest.head? = false) (p : Option Char) (hp : isWordCharO p = false) :
    scanG (f ++ ' ' :: s) rep p ((f ++ ' ' :: s) ++ rest) =
      rep ++ scanG (f ++ ' ' :: s) rep (f ++ ' ' :: s).getLast? rest := by
  obtain ⟨c0, f0, rfl⟩ : ∃ c0 f0, f = c0 :: f0 := by
    cases f with
    | nil => exact absurd rfl hf0
    | cons a t => exact ⟨a, t, rfl⟩
  have hc0 : isWordChar c0 = true := hfw c0 (by simp)
  have hshape : ((c0 :: f0) ++ ' ' :: s) ++ rest = c0 :: ((f0 ++ ' ' :: s) ++ rest) := by simp
  have hdrop : (c0 :: ((f0 ++ ' ' :: s) ++ rest)).drop ((c0 :: f0) ++ ' ' :: s).length
      = rest := by
    rw [← hshape]
    exact List.drop_left _ _
  rw [hshape, scanG_cons_match rep ?_, hdrop]
  refine ⟨by simp, ?_, ?_, ?_⟩
  · rw [← hshape]
    exact listPrefix_refl_append _ _
  · rw [hp, hc0]
    simp
  · rw [hdrop, pat_getLast_word hs0 hsw, hrest]
    simp

theorem isWordCharO_tail_head {T : Tok} (hT : T = [] ∨ T = ' ' :: eow) :
    isWordCharO T.head? = false := by
  rcases hT with rfl | rfl <;> decide

/-- At the start of a symbol `x` that is not the left element of the rule (or
is not followed by the right element as a whole symbol), the pattern cannot
match with both boundaries: either the literal fails, or the trailing `\b`
falls inside a longer following symbol. -/
theorem no_match_at_symbol_start {f s : Tok} (hf : wordTok f) (hs : wordTok s)
    {x : Tok} (hx : wordTok x) {L' : List Tok} (hL' : ∀ t ∈ L', wordTok t)
    {T : Tok} (hT : T = [] ∨ T = ' ' :: eow)
    (hnm : ¬ (x = f ∧ ∃ L'', L' = s :: L'')) :
    ¬ (listPrefix (f ++ ' ' :: s) (joinSp (x :: L') ++ T) = true ∧
       (isWordCharO (f ++ ' ' :: s).getLast? ≠
         isWordCharO ((joinSp (x :: L') ++ T).drop (f ++ ' ' :: s).length).head?)) := by
  rintro ⟨h2, h4⟩
  cases L' with
  | nil =>
    rw [show joinSp [x] ++ T = x ++ T by simp [joinSp]] at h2
    obtain ⟨hfx, hsp⟩ :=
      prefix_wordrun f x s T hf.2 hx.2 (isWordCharO_tail_head hT) h2
    rcases hT with rfl | rfl
    · simp [listPrefix] at hsp
    · have hse : listPrefix s eow = true := listPrefix_cons_tail hsp
      obtain ⟨d, s1, rfl⟩ : ∃ d s1, s = d :: s1 := by
        cases s with
        | nil => exact absurd rfl hs.1
        | cons a t => exact ⟨a, t, rfl⟩
      have hd : d = '<' := listPrefix_cons_head (by simpa [eow] using hse)
      have := hs.2 d (by simp)
      rw [hd] at this
      exact absurd this (by decide)
  | cons y L2 =>
    rw [joinSp_cons_append x (by simp) T] at h2 h4
    obtain ⟨hfx, hsp⟩ := prefix_wordrun f x s (' ' :: (joinSp (y :: L2) ++ T)) hf.2 hx.2
      (by simp [isWordCharO, isWordChar_space]) h2
    have hsy' : listPrefix s (joinSp (y :: L2) ++ T) = true := listPrefix_cons_tail hsp
    have hy : wordTok y := hL' y (by simp)
    obtain ⟨rest2, hrest2, hrhead⟩ : ∃ rest2, joinSp (y :: L2) ++ T = y ++ rest2 ∧
        isWordCharO rest2.head? = false := by
      cases L2 with
      | nil => exact ⟨T, by simp [joinSp], isWordCharO_tail_head hT⟩
      | cons z L3 =>
        exact ⟨' ' :: (joinSp (z :: L3) ++ T), joinSp_cons_append y (by simp) T,
          by simp [isWordCharO, isWordChar_space]⟩
    rw [hrest2] at hsy' h4
    have hsy : listPrefix s y = true := prefix_wordrun_stop s y rest2 hs.2 hy.2 hrhead hsy'
    by_cases hlen : s.length = y.length
    · exact hnm ⟨hfx.symm, L2, by rw [listPrefix_eq_of_length hsy hlen]⟩
    · have hlt : s.length < y.length :=
        lt_of_le_of_ne (listPrefix_length hsy) hlen
      apply h4
      rw [pat_getLast_word hs.1 hs.2]
      have hplen : (f ++ ' ' :: s).length = (x ++ [' ']).length + s.length := by
        rw [hfx]
        simp
        omega
      have hassoc : x ++ ' ' :: (y ++ rest2) = (x ++ [' ']) ++ (y ++ rest2) := by simp
      rw [hassoc, hplen, List.drop_append]
      rw [List.drop_append_of_le_length (le_of_lt hlt)]
      obtain ⟨d, dl, hdl⟩ : ∃ d dl, y.drop s.length = d :: dl := by
        cases hdrop : y.drop s.length with
        | nil =>
          exfalso
          have := congrArg List.length hdrop
          simp at this
          omega
        | cons a t => exact ⟨a, t, rfl⟩
      rw [hdl]
      have hdmem : d ∈ y := List.drop_subset _ y (by rw [hdl]; simp)
      have := hy.2 d hdmem
      simp [isWordCharO, this]

/-- The master correspondence: on a space-joined list of non-empty
word-character symbols (optionally followed by the tail `" </w>"`), the regex
global replace of a word-character rule `(f, s)` is exactly the spec-level
whole-symbol leftmost non-overlapping merge. -/
theorem scanG_spec_merge (f s : Tok) (hf : wordTok f) (hs : wordTok s) :
    ∀ (n : Nat) (L : List Tok), L.length ≤ n → (∀ t ∈ L, wordTok t) →
      ∀ (T : Tok), (T = [] ∨ T = ' ' :: eow) → ∀ (p : Option Char), isWordCharO p = false →
      scanG (f ++ ' ' :: s) (f ++ s) p (joinSp L ++ T) =
        joinSp (specMergeSyms f s L) ++ T := by
  intro n
  induction n with
  | zero =>
    intro L hL hLw T hT p hp
    have hLnil : L = [] := List.length_eq_zero.mp (Nat.le_zero.mp hL)
    subst hLnil
    show scanG _ _ p ([] ++ T) = [] ++ T
    simp only [List.nil_append]
    rcases hT with rfl | rfl
    · exact scanG_nil _ _ _
    · exact scanG_tail_eow f s hf.1 hf.2 hs.1 p
  | succ n ih =>
    intro L hL hLw T hT p hp
    match L with
    | [] =>
      show scanG _ _ p ([] ++ T) = [] ++ T
      simp only [List.nil_append]
      rcases hT with rfl | rfl
      · exact scanG_nil _ _ _
      · exact scanG_tail_eow f s hf.1 hf.2 hs.1 p
    | x :: L' =>
      have hx : wordTok x := hLw x (by simp)
      have hL'w : ∀ t ∈ L', wordTok t := fun t ht => hLw t (by simp [ht])
      by_cases hm : x = f ∧ ∃ L'', L' = s :: L''
      · obtain ⟨hxf, L'', hL''⟩ := hm
        subst hxf
        subst hL''
        cases L'' with
        | nil =>
          have hstr : joinSp [x, s] ++ T = (x ++ ' ' :: s) ++ T := by simp [joinSp]
          rw [hstr,
            scanG_match_start (x ++ s) hx.1 hx.2 hs.1 hs.2 T (isWordCharO_tail_head hT) p hp]
          have htail : scanG (x ++ ' ' :: s) (x ++ s) (x ++ ' ' :: s).getLast? T = T := by
            rcases hT with rfl | rfl
            · exact scanG_nil _ _ _
            · exact scanG_tail_eow x s hx.1 hx.2 hs.1 _
          rw [htail]
          have hrhs : specMergeSyms x s [x, s] = [x ++ s] := by simp [specMergeSyms]
          rw [hrhs]
          simp [joinSp]
        | cons y L3 =>
          have hstr : joinSp (x :: s :: y :: L3) ++ T =
              (x ++ ' ' :: s) ++ (' ' :: (joinSp (y :: L3) ++ T)) := by
            rw [joinSp_cons_append x (by simp) T, joinSp_cons_append s (by simp) T]
            simp
          rw [hstr,
            scanG_match_start (x ++ s) hx.1 hx.2 hs.1 hs.2 _
              (by simp [isWordCharO, isWordChar_space]) p hp,
            scanG_skip_nonword s (x ++ s) hx.1 hx.2 (by decide) _ _,
            ih (y :: L3) (by simp at hL ⊢; omega) (fun t ht => hL'w t (by simp [ht])) T hT
              (some ' ') (by simp [isWordCharO, isWordChar_space])]
          have hrhs : specMergeSyms x s (x :: s :: y :: L3) =
              (x ++ s) :: specMergeSyms x s (y :: L3) := by simp [specMergeSyms]
          rw [hrhs, joinSp_cons_append _ (specMergeSyms_ne_nil x s (by simp)) T]
      · obtain ⟨c, x', rfl⟩ : ∃ c x', x = c :: x' := by
          cases x with
          | nil => exact absurd rfl hx.1
          | cons a t => exact ⟨a, t, rfl⟩
        have hc : isWordChar c = true := hx.2 c (by simp)
        have hx'w : ∀ a ∈ x', isWordChar a = true := fun a ha => hx.2 a (by simp [ha])
        have hnm2 := no_match_at_symbol_start hf hs hx hL'w hT hm
        cases L' with
        | nil =>
          have hstr : joinSp [c :: x'] ++ T = c :: (x' ++ T) := by simp [joinSp]
          rw [hstr] at hnm2
          rw [hstr, scanG_cons_nomatch _ (by rintro ⟨-, h2, -, h4⟩; exact hnm2 ⟨h2, h4⟩),
            scanG_copy_run _ _ x' T c hx'w hc]
          have htail : scanG (f ++ ' ' :: s) (f ++ s) (some (x'.getLastD c)) T = T := by
            rcases hT with rfl | rfl
            · exact scanG_nil _ _ _
            · exact scanG_tail_eow f s hf.1 hf.2 hs.1 _
          rw [htail]
          have hrhs : specMergeSyms f s [c :: x'] = [c :: x'] := by simp [specMergeSyms]
          rw [hrhs]
          simp [joinSp]
        | cons y L2 =>
          have hstr : joinSp ((c :: x') :: y :: L2) ++ T =
              c :: (x' ++ ' ' :: (joinSp (y :: L2) ++ T)) := by
            rw [joinSp_cons_append _ (by simp) T]
            simp
          rw [hstr] at hnm2
          rw [hstr, scanG_cons_nomatch _ (by rintro ⟨-, h2, -, h4⟩; exact hnm2 ⟨h2, h4⟩),
            scanG_copy_run _ _ x' _ c hx'w hc,
            scanG_skip_nonword s (f ++ s) hf.1 hf.2 (by decide) _ _,
            ih (y :: L2) (by simp at hL ⊢; omega) (fun t ht => hL'w t (by simp [ht])) T hT
              (some ' ') (by simp [isWordCharO, isWordChar_space])]
          have hrhs : specMergeSyms f s ((c :: x') :: y :: L2) =
              (c :: x') :: specMergeSyms f s (y :: L2) := by
            simp only [specMergeSyms]
            rw [if_neg]
            rintro ⟨ha, hb⟩
            exact hm ⟨ha, L2, by rw [hb]⟩
          rw [hrhs, joinSp_cons_append _ (specMergeSyms_ne_nil f s (by simp)) T]
          simp

theorem joinSp_append_singleton (e : Tok) :
    ∀ {L : List Tok}, L ≠ [] → joinSp (L ++ [e]) = joinSp L ++ ' ' :: e
  | [], h => absurd rfl h
  | [x], _ => by simp [joinSp]
  | x :: y :: t, _ => by
    rw [show (x :: y :: t) ++ [e] = x :: ((y :: t) ++ [e]) by simp,
      joinSp_cons x (by simp), joinSp_append_singleton e (L := y :: t) (by simp),
      joinSp_cons x (by simp)]
    simp

/-- A merge rule whose right-hand side is the end-of-word marker never
rewrites a well-formed symbol string: the only literal occurrence is at the
very end, where the trailing `\b` fails after `>`. -/
theorem scanG_eow_rule (f : Tok) (hf0 : f ≠ []) (hfw : ∀ c ∈ f, isWordChar c = true) :
    ∀ (n : Nat) (L : List Tok), L.length ≤ n → (∀ t ∈ L, wordTok t) →
      ∀ (p : Option Char), isWordCharO p = false →
      scanG (f ++ ' ' :: eow) (f ++ eow) p (joinSp L ++ ' ' :: eow) =
        joinSp L ++ ' ' :: eow := by
  intro n
  induction n with
  | zero =>
    intro L hL hLw p hp
    have hLnil : L = [] := List.length_eq_zero.mp (Nat.le_zero.mp hL)
    subst hLnil
    show scanG _ _ p ([] ++ ' ' :: eow) = [] ++ ' ' :: eow
    simp only [List.nil_append]
    exact scanG_tail_eow f eow hf0 hfw (by decide) p
  | succ n ih =>
    intro L hL hLw p hp
    match L with
    | [] =>
      show scanG _ _ p ([] ++ ' ' :: eow) = [] ++ ' ' :: eow
      simp only [List.nil_append]
      exact scanG_tail_eow f eow hf0 hfw (by decide) p
    | x :: L' =>
      have hx : wordTok x := hLw x (by simp)
      have hL'w : ∀ t ∈ L', wordTok t := fun t ht => hLw t (by simp [ht])
      obtain ⟨c, x', rfl⟩ : ∃ c x', x = c :: x' := by
        cases x with
        | nil => exact absurd rfl hx.1
        | cons a t => exact ⟨a, t, rfl⟩
      have hc : isWordChar c = true := hx.2 c (by simp)
      have hx'w : ∀ a ∈ x', isWordChar a = true := fun a ha => hx.2 a (by simp [ha])
      cases L' with
      | nil =>
        have hnm2 : ¬ (listPrefix (f ++ ' ' :: eow) ((c :: x') ++ ' ' :: eow) = true ∧
            (isWordCharO (f ++ ' ' :: eow).getLast? ≠
              isWordCharO (((c :: x') ++ ' ' :: eow).drop (f ++ ' ' :: eow).length).head?)) := by
          rintro ⟨h2, h4⟩
          obtain ⟨hfx, -⟩ := prefix_wordrun f (c :: x') eow (' ' :: eow) hfw hx.2
            (by simp [isWordCharO, isWordChar_space]) h2
          apply h4
          have hlast : (f ++ ' ' :: eow).getLast? = some '>' := by
            rw [List.getLast?_append_of_ne_nil _ (by simp)]
            decide
          have hplen : (f ++ ' ' :: eow).length = ((c :: x') ++ ' ' :: eow).length := by
            rw [hfx]
          rw [hlast, hplen, List.drop_eq_nil_of_le (le_refl _)]
          rfl
        have hstr : joinSp [c :: x'] ++ ' ' :: eow = c :: (x' ++ ' ' :: eow) := by
          simp [joinSp]
        rw [hstr, scanG_cons_nomatch _ (by
            rintro ⟨-, h2, -, h4⟩
            exact hnm2 ⟨by simpa using h2, by simpa using h4⟩),
          scanG_copy_run _ _ x' (' ' :: eow) c hx'w hc,
          scanG_tail_eow f eow hf0 hfw (by decide) _]
      | cons y L2 =>
        have hy : wordTok y := hL'w y (by simp)
        obtain ⟨d, y1, rfl⟩ : ∃ d y1, y = d :: y1 := by
          cases y with
          | nil => exact absurd rfl hy.1
          | cons a t => exact ⟨a, t, rfl⟩
        have hd : isWordChar d = true := hy.2 d (by simp)
        have hrest1 : joinSp ((c :: x') :: (d :: y1) :: L2) ++ ' ' :: eow =
            (c :: x') ++ ' ' :: (joinSp ((d :: y1) :: L2) ++ ' ' :: eow) :=
          joinSp_cons_append _ (by simp) _
        obtain ⟨r, hr⟩ : ∃ r, joinSp ((d :: y1) :: L2) ++ ' ' :: eow = d :: r := by
          cases L2 with
          | nil => exact ⟨y1 ++ ' ' :: eow, by simp [joinSp]⟩
          | cons z t =>
            refine ⟨y1 ++ ' ' :: (joinSp (z :: t) ++ ' ' :: eow), ?_⟩
            rw [joinSp_cons_append _ (by simp) _]
            simp
        have hnm2 : ¬ (listPrefix (f ++ ' ' :: eow)
              ((c :: x') ++ ' ' :: (joinSp ((d :: y1) :: L2) ++ ' ' :: eow)) = true ∧
            (isWordCharO (f ++ ' ' :: eow).getLast? ≠
              isWordCharO (((c :: x') ++ ' ' :: (joinSp ((d :: y1) :: L2) ++ ' ' :: eow)).drop
                (f ++ ' ' :: eow).length).head?)) := by
          rintro ⟨h2, -⟩
          obtain ⟨-, hsp⟩ := prefix_wordrun f (c :: x') eow
            (' ' :: (joinSp ((d :: y1) :: L2) ++ ' ' :: eow)) hfw hx.2
            (by simp [isWordCharO, isWordChar_space]) h2
          have heprefix := listPrefix_cons_tail hsp
          rw [hr] at heprefix
          have hd' : '<' = d :=
            listPrefix_cons_head (show listPrefix ('<' :: ['/', 'w', '>']) (d :: r) = true
              from heprefix)
          rw [← hd'] at hd
          exact absurd hd (by decide)
        have hstr : joinSp ((c :: x') :: (d :: y1) :: L2) ++ ' ' :: eow =
            c :: (x' ++ ' ' :: (joinSp ((d :: y1) :: L2) ++ ' ' :: eow)) := by
          rw [hrest1]
          simp
        rw [hstr, scanG_cons_nomatch _ (by
            rintro ⟨-, h2, -, h4⟩
            exact hnm2 ⟨by simpa using h2, by simpa using h4⟩),
          scanG_copy_run _ _ x' _ c hx'w hc,
          scanG_skip_nonword eow (f ++ eow) hf0 hfw (by decide) _ _,
          ih ((d :: y1) :: L2) (by simp at hL ⊢; omega) (fun t ht => hL'w t ht)
            (some ' ') (by simp [isWordCharO, isWordChar_space])]

/-! ## Merge application at the `replaceMerge` level -/

/-- A word-character rule on a space-joined word-character symbol list is the
spec-level whole-symbol merge. -/
theorem replaceMerge_wordSyms {f s : Tok} (hf : wordTok f) (hs : wordTok s)
    {L : List Tok} (hLw : ∀ t ∈ L, wordTok t) :
    replaceMerge f s (joinSp L) = joinSp (specMergeSyms f s L) := by
  rw [replaceMerge_eq_scanG]
  have := scanG_spec_merge f s hf hs L.length L (le_refl _) hLw [] (Or.inl rfl) none rfl
  simpa using this

/-- A word-character rule on a well-formed key rewrites its symbol list by the
spec-level merge, keeping the end-of-word marker in place. -/
theorem replaceMerge_wfKey {f s : Tok} (hf : wordTok f) (hs : wordTok s)
    {L : List Tok} (hL0 : L ≠ []) (hLw : ∀ t ∈ L, wordTok t) :
    replaceMerge f s (joinSp (L ++ [eow])) = joinSp (specMergeSyms f s L ++ [eow]) := by
  rw [replaceMerge_eq_scanG, joinSp_append_singleton eow hL0,
    joinSp_append_singleton eow (specMergeSyms_ne_nil f s hL0)]
  exact scanG_spec_merge f s hf hs L.length L (le_refl _) hLw (' ' :: eow) (Or.inr rfl)
    none rfl

/-- A rule whose right-hand side is the end-of-word marker never changes a
well-formed key. -/
theorem replaceMerge_eow_rule {f : Tok} (hf : wordTok f)
    {L : List Tok} (hL0 : L ≠ []) (hLw : ∀ t ∈ L, wordTok t) :
    replaceMerge f eow (joinSp (L ++ [eow])) = joinSp (L ++ [eow]) := by
  rw [replaceMerge_eq_scanG, joinSp_append_singleton eow hL0]
  exact scanG_eow_rule f hf.1 hf.2 L.length L (le_refl _) hLw none rfl

/-! ## Despace invariance -/

theorem despace_append (a b : Tok) : despace (a ++ b) = despace a ++ despace b := by
  simp [despace]

theorem replaceMergeGo_despace (f s : Tok) :
    ∀ (n : Nat) (prev : Option Char) (t : Tok), t.length ≤ n →
      despace (replaceMergeGo (f ++ ' ' :: s) (f ++ s) n prev t) = despace t := by
  intro n
  induction n with
  | zero =>
    intro prev t hn
    have : t = [] := List.length_eq_zero.mp (Nat.le_zero.mp hn)
    subst this
    simp [replaceMergeGo]
  | succ n ih =>
    intro prev t hn
    cases t with
    | nil => simp [replaceMergeGo]
    | cons c cs =>
      simp only [replaceMergeGo]
      split
      · rename_i hcond
        obtain ⟨-, h2, -, -⟩ := hcond
        have hsplit : c :: cs = (f ++ ' ' :: s) ++ (c :: cs).drop (f ++ ' ' :: s).length :=
          listPrefix_append_drop h2
        have hlen : ((c :: cs).drop (f ++ ' ' :: s).length).length ≤ n := by
          simp only [List.length_drop, List.length_cons, List.length_append]
          simp only [List.length_cons] at hn
          omega
        rw [despace_append, ih _ _ hlen]
        conv_rhs => rw [hsplit]
        rw [despace_append]
        congr 1
        rw [despace_append]
        simp [despace]
      · have hlen : cs.length ≤ n := by simpa using hn
        simp only [despace, List.filter_cons]
        split
        all_goals rw [← despace, ← despace, ih _ _ hlen]

theorem replaceMerge_despace (f s w : Tok) :
    despace (replaceMerge f s w) = despace w :=
  replaceMergeGo_despace f s w.length none w (le_refl _)

/-! ## `mapGet`, `mapSet` and the table fold -/

theorem mapGet_eq_none_iff {α β : Type} [DecidableEq α] :
    ∀ (m : List (α × β)) (k : α), mapGet m k = none ↔ k ∉ m.map Prod.fst
  | [], k => by simp [mapGet]
  | (k0, v0) :: rest, k => by
    simp only [mapGet, List.map_cons, List.mem_cons]
    split
    · rename_i h
      simp [h]
    · rename_i h
      rw [mapGet_eq_none_iff rest k]
      simp [h]

theorem mapSet_append {α β : Type} [DecidableEq α] :
    ∀ (m : List (α × β)) (k : α) (v : β), mapGet m k = none → mapSet m k v = m ++ [(k, v)]
  | [], k, v, _ => rfl
  | (k0, v0) :: rest, k, v, h => by
    simp only [mapGet] at h
    by_cases hk : k = k0
    · simp [hk] at h
    · simp only [mapSet, if_neg hk, List.cons_append]
      rw [mapSet_append rest k v (by simpa [hk] using h)]

/-- When every key produced by `g` is fresh and they are pairwise distinct,
the `Map.set` fold is a plain map. -/
theorem foldl_mapSet_map {β : Type} (g : Tok → Tok) :
    ∀ (tbl : List (Tok × β)) (acc : List (Tok × β)),
      (acc.map Prod.fst ++ tbl.map (fun wf => g wf.1)).Nodup →
      tbl.foldl (fun a wf => mapSet a (g wf.1) wf.2) acc =
        acc ++ tbl.map (fun wf => (g wf.1, wf.2))
  | [], acc, _ => by simp
  | (w, v) :: rest, acc, hnd => by
    simp only [List.foldl_cons]
    have hfresh : mapGet acc (g w) = none := by
      rw [mapGet_eq_none_iff]
      intro hmem
      exact List.disjoint_of_nodup_append hnd hmem
        (by simp only [List.map_cons]; exact List.mem_cons_self _ _)
    rw [mapSet_append acc (g w) v hfresh]
    rw [foldl_mapSet_map g rest (acc ++ [(g w, v)]) (by
      simp only [List.map_append, List.map_cons] at hnd ⊢
      simpa [List.append_assoc] using hnd)]
    simp

/-- C2, amended: restricted to symbols made of word characters, `applyMerge`'s
regex rewrite is exactly the whole-symbol, leftmost, non-overlapping
replacement of the adjacent pair; the table fold rewrites every entry's key by
that replacement (for tables whose despaced keys are distinct, as produced by
training); and `tokenize` performs the identical per-rule rewriting in
training order. -/
theorem claim2_amended :
    (∀ (L : List Tok) (f s : Tok), (∀ t ∈ L, wordTok t) → wordTok f → wordTok s →
      replaceMerge f s (joinSp L) = joinSp (specMergeSyms f s L)) ∧
    (∀ (tbl : List (Tok × Nat)) (f s : Tok),
      (tbl.map (fun wf => despace wf.1)).Nodup →
      applyMerge tbl f s = tbl.map (fun wf => (replaceMerge f s wf.1, wf.2))) ∧
    (∀ (st : BPEState) (w : Tok),
      applyMerges st.merges w =
        st.merges.foldl (fun acc fs => replaceMerge fs.1 fs.2 acc) w) := by
  refine ⟨?_, ?_, fun st w => rfl⟩
  · intro L f s hLw hf hs
    exact replaceMerge_wordSyms hf hs hLw
  · intro tbl f s hnd
    have key : (tbl.map (fun wf => replaceMerge f s wf.1)).map despace =
        tbl.map (fun wf => despace wf.1) := by
      rw [List.map_map]
      exact List.map_congr_left (fun x _ => replaceMerge_despace f s x.1)
    have hnodup : (tbl.map (fun wf => replaceMerge f s wf.1)).Nodup := by
      have h2 := hnd
      rw [← key] at h2
      exact h2.of_map
    have := foldl_mapSet_map (fun k => replaceMerge f s k) tbl [] (by simpa using hnodup)
    simpa [applyMerge] using this

/-- C2, witness for the amended claim: merging `("a", "b")` in the symbol
sequence `["a", "b"]` yields the single symbol `"ab"`. -/
theorem claim2_amended_witness :
    replaceMerge "a".toList "b".toList (joinSp ["a".toList, "b".toList]) =
      joinSp (specMergeSyms "a".toList "b".toList ["a".toList, "b".toList]) ∧
    replaceMerge "a".toList "b".toList "a b".toList = "ab".toList :=
  ⟨claim2_amended.1 ["a".toList, "b".toList] "a".toList "b".toList
      (by intro t ht; refine ⟨?_, ?_⟩ <;> simp at ht <;> rcases ht with rfl | rfl <;> decide)
      ⟨by decide, by decide⟩ ⟨by decide, by decide⟩,
    by decide⟩

/-! ## Counting lemmas (claim C4) -/

theorem mapGet_mapSet_self {α β : Type} [DecidableEq α] :
    ∀ (m : List (α × β)) (k : α) (v : β), mapGet (mapSet m k v) k = some v
  | [], k, v => by simp [mapSet, mapGet]
  | (k0, v0) :: rest, k, v => by
    simp only [mapSet]
    split
    · rename_i h
      simp [mapGet, h]
    · rename_i h
      simp only [mapGet, if_neg h]
      exact mapGet_mapSet_self rest k v

theorem mapGet_mapSet_ne {α β : Type} [DecidableEq α] :
    ∀ (m : List (α × β)) (k k' : α) (v : β), k' ≠ k →
      mapGet (mapSet m k v) k' = mapGet m k'
  | [], k, k', v, h => by simp [mapSet, mapGet, h]
  | (k0, v0) :: rest, k, k', v, h => by
    simp only [mapSet]
    split
    · rename_i hk
      subst hk
      simp [mapGet, h]
    · simp only [mapGet]
      split
      · rfl
      · exact mapGet_mapSet_ne rest k k' v h

theorem bump_getD {α : Type} [DecidableEq α] (m : List (α × Nat)) (k k' : α) (d : Nat) :
    mapGetD (bump m k d) k' 0 = mapGetD m k' 0 + (if k' = k then d else 0) := by
  by_cases h : k' = k
  · subst h
    simp [bump, mapGetD, mapGet_mapSet_self]
  · simp [bump, mapGetD, mapGet_mapSet_ne m k k' _ h, h]

theorem mapSet_keys {α β : Type} [DecidableEq α] :
    ∀ (m : List (α × β)) (k : α) (v : β),
      (mapSet m k v).map Prod.fst =
        if (mapGet m k).isNone then m.map Prod.fst ++ [k] else m.map Prod.fst
  | [], k, v => by simp [mapSet, mapGet]
  | (k0, v0) :: rest, k, v => by
    simp only [mapSet, mapGet]
    by_cases hk : k = k0
    · subst hk
      simp
    · simp only [if_neg hk, List.map_cons]
      rw [mapSet_keys rest k v]
      split <;> simp

theorem mapSet_keys_nodup {α β : Type} [DecidableEq α]
    (m : List (α × β)) (k : α) (v : β) (h : (m.map Prod.fst).Nodup) :
    ((mapSet m k v).map Prod.fst).Nodup := by
  rw [mapSet_keys]
  split
  · rename_i hnone
    rw [Option.isNone_iff_eq_none, mapGet_eq_none_iff] at hnone
    simp [List.nodup_append, h, hnone]
  · exact h

theorem bump_keys_nodup {α : Type} [DecidableEq α] (m : List (α × Nat)) (k : α) (d : Nat)
    (h : (m.map Prod.fst).Nodup) : ((bump m k d).map Prod.fst).Nodup :=
  mapSet_keys_nodup m k _ h

/-- The generic bump-fold: the final count of a key is its initial count plus
the sum of the increments recorded for it. -/
theorem foldl_bump_getD {α β : Type} [DecidableEq α] (g : β → α) (fn : β → Nat) :
    ∀ (l : List β) (acc : List (α × Nat)) (p : α),
      mapGetD (l.foldl (fun a x => bump a (g x) (fn x)) acc) p 0 =
        mapGetD acc p 0 + ((l.filter (fun x => g x = p)).map fn).sum
  | [], acc, p => by simp
  | x :: rest, acc, p => by
    simp only [List.foldl_cons, List.filter_cons]
    rw [foldl_bump_getD g fn rest _ p, bump_getD]
    by_cases h : g x = p
    · simp [h]
      omega
    · have h' : ¬ p = g x := fun hq => h hq.symm
      simp [h, h']

theorem foldl_bump_nodup {α β : Type} [DecidableEq α] (g : β → α) (fn : β → Nat) :
    ∀ (l : List β) (acc : List (α × Nat)), (acc.map Prod.fst).Nodup →
      ((l.foldl (fun a x => bump a (g x) (fn x)) acc).map Prod.fst).Nodup
  | [], acc, h => h
  | x :: rest, acc, h =>
    foldl_bump_nodup g fn rest _ (bump_keys_nodup acc (g x) (fn x) h)

/-- In an association list with distinct keys, the entries carrying a given
key are exactly described by `mapGet`. -/
theorem filter_key_of_nodup {α : Type} [DecidableEq α] :
    ∀ (m : List (α × Nat)) (p : α), (m.map Prod.fst).Nodup →
      (m.filter (fun kd => kd.1 = p)).map Prod.snd =
        (match mapGet m p with | none => [] | some v => [v])
  | [], p, _ => by simp [mapGet]
  | (k, v) :: rest, p, h => by
    simp only [List.map_cons, List.nodup_cons] at h
    simp only [List.filter_cons, mapGet]
    by_cases hk : k = p
    · subst hk
      have hnone : mapGet rest k = none := by
        rw [mapGet_eq_none_iff]
        exact h.1
      have hfil : rest.filter (fun kd => kd.1 = k) = [] := by
        rw [List.filter_eq_nil_iff]
        intro kd hkd
        simp only [decide_eq_true_eq]
        intro hcontra
        exact h.1 (hcontra ▸ List.mem_map_of_mem Prod.fst hkd)
      simp [hfil]
    · have hk' : ¬ p = k := fun hq => hk hq.symm
      simp only [if_neg hk']
      rw [← filter_key_of_nodup rest p h.2]
      simp [hk]

theorem getPairs_keys_nodup (word : List Tok) : ((getPairs word).map Prod.fst).Nodup :=
  foldl_bump_nodup _ _ _ [] (by simp)

theorem getPairs_getD (word : List Tok) (p : Tok) :
    mapGetD (getPairs word) p 0 =
      ((word.zip word.tail).filter (fun xy => pairKey xy.1 xy.2 = p)).length := by
  unfold getPairs
  rw [foldl_bump_getD (fun xy : Tok × Tok => pairKey xy.1 xy.2) (fun _ => 1)]
  simp [mapGetD, mapGet]

theorem sum_map_mul (freq : Nat) (l : List (Tok × Nat)) :
    (l.map (fun e => freq * e.2)).sum = freq * (l.map Prod.snd).sum := by
  induction l with
  | nil => simp
  | cons a t ih =>
    simp [ih]
    ring

theorem addWordPairs_getD (acc : List (Tok × Nat)) (w : Tok) (freq : Nat) (p : Tok) :
    mapGetD (addWordPairs acc w freq) p 0 = mapGetD acc p 0 + freq * pairOcc p w := by
  unfold addWordPairs
  rw [foldl_bump_getD (Prod.fst : Tok × Nat → Tok) (fun e => freq * e.2)]
  congr 1
  rw [sum_map_mul freq, filter_key_of_nodup _ p (getPairs_keys_nodup _)]
  have hgp := getPairs_getD (splitChar ' ' w) p
  unfold pairOcc
  cases hget : mapGet (getPairs (splitChar ' ' w)) p with
  | none =>
    simp only [mapGetD, hget, Option.getD_none] at hgp
    simp [← hgp]
  | some v =>
    simp only [mapGetD, hget, Option.getD_some] at hgp
    simp [← hgp]

theorem countPairs_aux :
    ∀ (tbl : List (Tok × Nat)) (acc : List (Tok × Nat)) (p : Tok),
      mapGetD (tbl.foldl (fun a wf => addWordPairs a wf.1 wf.2) acc) p 0 =
        mapGetD acc p 0 + weight tbl p
  | [], acc, p => by simp [weight]
  | (w, fr) :: rest, acc, p => by
    simp only [List.foldl_cons]
    rw [countPairs_aux rest _ p, addWordPairs_getD]
    simp [weight]
    omega

/-- The value bound to a pair in `countPairs` is its aggregated weighted
count over the table. -/
theorem countPairs_getD (tbl : List (Tok × Nat)) (p : Tok) :
    mapGetD (countPairs tbl) p 0 = weight tbl p := by
  unfold countPairs
  rw [countPairs_aux]
  simp [mapGetD, mapGet]

theorem countPairs_keys_nodup (tbl : List (Tok × Nat)) :
    ((countPairs tbl).map Prod.fst).Nodup := by
  unfold countPairs
  suffices h : ∀ (t : List (Tok × Nat)) (acc : List (Tok × Nat)), (acc.map Prod.fst).Nodup →
      ((t.foldl (fun a wf => addWordPairs a wf.1 wf.2) acc).map Prod.fst).Nodup by
    exact h tbl [] (by simp)
  intro t
  induction t with
  | nil => intro acc h; exact h
  | cons a rest ih =>
    intro acc h
    exact ih _ (foldl_bump_nodup _ _ _ acc h)

/-- The running-maximum fold of the training loop: either nothing qualified
(state unchanged, every qualifying count bounded by the running maximum), or
the final best is the first entry attaining the final maximum, every earlier
entry being strictly smaller and every later qualifying entry no larger. -/
theorem selectFold_spec (mf : Nat) :
    ∀ (l : List (Tok × Nat)) (mc : Nat) (b : Option Tok),
      (l.foldl (fun acc pc => if pc.2 > acc.1 ∧ pc.2 ≥ mf then (pc.2, some pc.1) else acc)
          (mc, b) = (mc, b) ∧ ∀ e ∈ l, e.2 ≥ mf → e.2 ≤ mc) ∨
      (∃ pre key post,
        l = pre ++
          (key, (l.foldl (fun acc pc => if pc.2 > acc.1 ∧ pc.2 ≥ mf then (pc.2, some pc.1)
            else acc) (mc, b)).1) :: post ∧
        (l.foldl (fun acc pc => if pc.2 > acc.1 ∧ pc.2 ≥ mf then (pc.2, some pc.1) else acc)
          (mc, b)).2 = some key ∧
        (l.foldl (fun acc pc => if pc.2 > acc.1 ∧ pc.2 ≥ mf then (pc.2, some pc.1) else acc)
          (mc, b)).1 ≥ mf ∧
        mc < (l.foldl (fun acc pc => if pc.2 > acc.1 ∧ pc.2 ≥ mf then (pc.2, some pc.1)
          else acc) (mc, b)).1 ∧
        (∀ e ∈ pre, e.2 < (l.foldl (fun acc pc => if pc.2 > acc.1 ∧ pc.2 ≥ mf
          then (pc.2, some pc.1) else acc) (mc, b)).1) ∧
        (∀ e ∈ post, e.2 ≥ mf → e.2 ≤ (l.foldl (fun acc pc => if pc.2 > acc.1 ∧ pc.2 ≥ mf
          then (pc.2, some pc.1) else acc) (mc, b)).1)) := by
  intro l
  induction l with
  | nil => intro mc b; left; exact ⟨rfl, by simp⟩
  | cons pc rest ih =>
    intro mc b
    simp only [List.foldl_cons]
    by_cases hq : pc.2 > mc ∧ pc.2 ≥ mf
    · rw [if_pos hq]
      rcases ih pc.2 (some pc.1) with ⟨heq, hbound⟩ | ⟨pre, key, post, hdec, hbest, hmf, hlt, hpre, hpost⟩
      · right
        refine ⟨[], pc.1, rest, ?_, ?_, ?_, ?_, ?_, ?_⟩
        · rw [heq]
          simp
        · rw [heq]
        · rw [heq]
          exact hq.2
        · rw [heq]
          exact hq.1
        · simp
        · rw [heq]
          exact hbound
      · right
        refine ⟨pc :: pre, key, post, ?_, hbest, hmf, lt_trans hq.1 hlt, ?_, hpost⟩
        · conv_lhs => rw [hdec]
          exact (List.cons_append pc pre _).symm
        · intro e he
          rcases List.mem_cons.mp he with rfl | he'
          · exact hlt
          · exact hpre e he'
    · rw [if_neg hq]
      rcases ih mc b with ⟨heq, hbound⟩ | ⟨pre, key, post, hdec, hbest, hmf, hlt, hpre, hpost⟩
      · left
        refine ⟨heq, ?_⟩
        intro e he hemf
        rcases List.mem_cons.mp he with rfl | he'
        · by_contra hgt
          exact hq ⟨by omega, hemf⟩
        · exact hbound e he' hemf
      · right
        refine ⟨pc :: pre, key, post, ?_, hbest, hmf, hlt, ?_, hpost⟩
        · conv_lhs => rw [hdec]
          exact (List.cons_append pc pre _).symm
        · intro e he
          rcases List.mem_cons.mp he with rfl | he'
          · rcases Nat.lt_or_ge e.2 mf with h1 | h1
            · omega
            · have : ¬ e.2 > mc := fun hgt => hq ⟨hgt, h1⟩
              omega
          · exact hpre e he'

/-- C4: the pair selected in each training-loop iteration.  The value stored
for every pair by `countPairs` is the aggregated weighted count
`Σ freq(word) × occurrences(pair, word)`; when `selectBest` picks a pair it is
the first entry (in table-iteration order) attaining the strictly highest
count, and that count meets the threshold; with a positive threshold,
`selectBest` declines exactly when every count is below the threshold; and the
loop returns its state unchanged when no pairs exist or nothing is selected. -/
theorem claim4_pair_selection (tbl : List (Tok × Nat)) (mf : Nat) :
    (∀ p, mapGetD (countPairs tbl) p 0 = weight tbl p) ∧
    (∀ fs, selectBest (countPairs tbl) mf = some fs →
      ∃ pre key c post, countPairs tbl = pre ++ (key, c) :: post ∧ fs = splitPair key ∧
        c = weight tbl key ∧ c ≥ mf ∧ (∀ e ∈ pre, e.2 < c) ∧
        (∀ e ∈ countPairs tbl, e.2 ≤ c)) ∧
    (1 ≤ mf → (selectBest (countPairs tbl) mf = none ↔
      ∀ e ∈ countPairs tbl, e.2 < mf)) ∧
    (∀ (cfg : TokenizerConfig) (fuel : Nat) (v : List (Tok × Nat)) (r : List (Nat × Tok))
      (tid : Nat) (ms : List (Tok × Tok)),
      countPairs tbl = [] ∨ selectBest (countPairs tbl) (orDefault cfg.minFreq 2) = none →
      trainLoopAux cfg (fuel + 1) v r tid ms tbl = (v, r, tid, ms, tbl)) := by
  refine ⟨countPairs_getD tbl, ?_, ?_, ?_⟩
  · intro fs hsel
    rcases selectFold_spec mf (countPairs tbl) 0 none with ⟨heq, -⟩ |
      ⟨pre, key, post, hdec, hbest, hmf, -, hpre, hpost⟩
    · have hnone : selectBest (countPairs tbl) mf = none := by
        unfold selectBest selectBestState
        rw [heq]
      rw [hnone] at hsel
      exact absurd hsel (by simp)
    · set r := (countPairs tbl).foldl
        (fun acc pc => if pc.2 > acc.1 ∧ pc.2 ≥ mf then (pc.2, some pc.1) else acc)
        (0, none) with hr
      have hstate : selectBestState (countPairs tbl) mf = (r.1, some key) := by
        rw [← hbest]
        exact hr.symm
      rw [show selectBest (countPairs tbl) mf =
          (if r.1 < mf then none else some (splitPair key)) from by
        unfold selectBest
        rw [hstate]] at hsel
      rw [if_neg (by omega)] at hsel
      refine ⟨pre, key, r.1, post, hdec, (Option.some.inj hsel).symm, ?_, hmf, hpre, ?_⟩
      · have hmem : (key, r.1) ∈ countPairs tbl := by
          rw [hdec]
          simp
        have hval := countPairs_getD tbl key
        have hget : mapGet (countPairs tbl) key = some r.1 := by
          have hnd := countPairs_keys_nodup tbl
          revert hnd hmem
          generalize countPairs tbl = m
          intro hmem hnd
          induction m with
          | nil => simp at hmem
          | cons a t iha =>
            rcases List.mem_cons.mp hmem with rfl | hm
            · simp [mapGet]
            · obtain ⟨ka, va⟩ := a
              simp only [List.map_cons, List.nodup_cons] at hnd
              simp only [mapGet]
              split
              · rename_i hka
                exfalso
                exact hnd.1 (hka ▸ List.mem_map_of_mem Prod.fst hm)
              · exact iha hm hnd.2
        rw [mapGetD, hget] at hval
        simpa using hval
      · intro e he
        rw [hdec] at he
        rcases List.mem_append.mp he with h1 | h1
        · exact le_of_lt (hpre e h1)
        · rcases List.mem_cons.mp h1 with rfl | h2
          · exact le_refl _
          · rcases Nat.lt_or_ge e.2 mf with hlt | hge
            · omega
            · exact hpost e h2 hge
  · intro hmf1
    rcases selectFold_spec mf (countPairs tbl) 0 none with ⟨heq, hbound⟩ |
      ⟨pre, key, post, hdec, hbest, hmf, -, -, -⟩
    · have hnone : selectBest (countPairs tbl) mf = none := by
        unfold selectBest selectBestState
        rw [heq]
      rw [hnone]
      simp only [true_iff]
      intro e he
      rcases Nat.lt_or_ge e.2 mf with h1 | h1
      · exact h1
      · have := hbound e he h1
        omega
    · set r := (countPairs tbl).foldl
        (fun acc pc => if pc.2 > acc.1 ∧ pc.2 ≥ mf then (pc.2, some pc.1) else acc)
        (0, none) with hr
      have hstate : selectBestState (countPairs tbl) mf = (r.1, some key) := by
        rw [← hbest]
        exact hr.symm
      have hbs : selectBest (countPairs tbl) mf = some (splitPair key) := by
        rw [show selectBest (countPairs tbl) mf =
            (if r.1 < mf then none else some (splitPair key)) from by
          unfold selectBest
          rw [hstate]]
        rw [if_neg (by omega)]
      rw [hbs]
      constructor
      · intro hcontra
        exact absurd hcontra (by simp)
      · intro hall
        have hmem : (key, r.1) ∈ countPairs tbl := by
          rw [hdec]
          simp
        have h2 : r.1 < mf := hall _ hmem
        omega
  · intro cfg fuel v r tid ms h
    simp only [trainLoopAux]
    split
    · rcases h with h | h
      · rw [if_pos h]
      · by_cases hpcs : countPairs tbl = []
        · rw [if_pos hpcs]
        · rw [if_neg hpcs, h]
    · rfl

/-- C4, witness: on the table of `train("ab ab")` the rule `("a", "b")` is
selected (count 2 at threshold 2), and at threshold 5 nothing is selected
exactly because every count is below 5. -/
theorem claim4_witness :
    (selectBest (countPairs [("a b </w>".toList, 2)]) 2 = some ("a".toList, "b".toList)) ∧
    (∃ pre key c post, countPairs [("a b </w>".toList, 2)] = pre ++ (key, c) :: post ∧
      ("a".toList, "b".toList) = splitPair key ∧
      c = weight [("a b </w>".toList, 2)] key ∧ c ≥ 2 ∧ (∀ e ∈ pre, e.2 < c) ∧
      (∀ e ∈ countPairs [("a b </w>".toList, 2)], e.2 ≤ c)) ∧
    (selectBest (countPairs [("a b </w>".toList, 3)]) 5 = none ↔
      ∀ e ∈ countPairs [("a b </w>".toList, 3)], e.2 < 5) :=
  ⟨by decide,
   (claim4_pair_selection [("a b </w>".toList, 2)] 2).2.1 ("a".toList, "b".toList) (by decide),
   (claim4_pair_selection [("a b </w>".toList, 3)] 5).2.2.1 (by decide)⟩

/-! ## More association-list facts -/

theorem mapGet_append_left {α β : Type} [DecidableEq α] :
    ∀ (m m' : List (α × β)) (k : α) (x : β), mapGet m k = some x →
      mapGet (m ++ m') k = some x
  | [], m', k, x, h => by simp [mapGet] at h
  | (k0, v0) :: rest, m', k, x, h => by
    simp only [List.cons_append, mapGet] at h ⊢
    split
    · rename_i hk
      rwa [if_pos hk] at h
    · rename_i hk
      rw [if_neg hk] at h
      exact mapGet_append_left rest m' k x h

theorem mapGet_append_right {α β : Type} [DecidableEq α] :
    ∀ (m m' : List (α × β)) (k : α), mapGet m k = none →
      mapGet (m ++ m') k = mapGet m' k
  | [], m', k, _ => by simp
  | (k0, v0) :: rest, m', k, h => by
    simp only [List.cons_append, mapGet] at h ⊢
    split
    · rename_i hk
      rw [if_pos hk] at h
      exact absurd h (by simp)
    · rename_i hk
      rw [if_neg hk] at h
      exact mapGet_append_right rest m' k h

theorem mapGet_mem {α β : Type} [DecidableEq α] :
    ∀ (m : List (α × β)) (k : α) (x : β), mapGet m k = some x → (k, x) ∈ m
  | [], k, x, h => by simp [mapGet] at h
  | (k0, v0) :: rest, k, x, h => by
    simp only [mapGet] at h
    split at h
    · rename_i hk
      subst hk
      simp at h
      simp [h]
    · exact List.mem_cons_of_mem _ (mapGet_mem rest k x h)

theorem mapGet_of_mem_nodup {α β : Type} [DecidableEq α] :
    ∀ (m : List (α × β)) (k : α) (x : β), (m.map Prod.fst).Nodup → (k, x) ∈ m →
      mapGet m k = some x
  | [], k, x, _, h => by simp at h
  | (k0, v0) :: rest, k, x, hnd, h => by
    simp only [List.map_cons, List.nodup_cons] at hnd
    rcases List.mem_cons.mp h with heq | hm
    · rw [Prod.mk.injEq] at heq
      obtain ⟨rfl, rfl⟩ := heq
      simp [mapGet]
    · simp only [mapGet]
      split
      · rename_i hk
        exact absurd (hk ▸ List.mem_map_of_mem Prod.fst hm) hnd.1
      · exact mapGet_of_mem_nodup rest k x hnd.2 hm

theorem mapSet_mem {α β : Type} [DecidableEq α] :
    ∀ (m : List (α × β)) (k : α) (v : β) (e : α × β), e ∈ mapSet m k v →
      e ∈ m ∨ e = (k, v)
  | [], k, v, e, h => by
    simp [mapSet] at h
    simp [h]
  | (k0, v0) :: rest, k, v, e, h => by
    simp only [mapSet] at h
    split at h
    · rename_i hk
      subst hk
      rcases List.mem_cons.mp h with rfl | hm
      · exact Or.inr rfl
      · exact Or.inl (List.mem_cons_of_mem _ hm)
    · rcases List.mem_cons.mp h with rfl | hm
      · exact Or.inl (List.mem_cons_self _ _)
      · rcases mapSet_mem rest k v e hm with h1 | h1
        · exact Or.inl (List.mem_cons_of_mem _ h1)
        · exact Or.inr h1

/-! ## Character provenance through the pipeline (claims C10, C1) -/

theorem char_le_toNat (a b : Char) : a ≤ b ↔ a.toNat ≤ b.toNat := by
  rw [Char.le_def, UInt32.le_def]
  exact Iff.rfl

theorem char_toNat_ofNat {n : Nat} (h : n.isValidChar) : (Char.ofNat n).toNat = n := by
  unfold Char.ofNat
  rw [dif_pos h]
  unfold Char.ofNatAux
  simp [Char.toNat, UInt32.toNat, UInt32.ofNatCore]

/-- `toLowerCase` never produces an ASCII uppercase letter. -/
theorem lowerChar_not_upper (c : Char) : ¬ ('A' ≤ lowerChar c ∧ lowerChar c ≤ 'Z') := by
  unfold lowerChar
  split
  · rename_i h
    simp only [Bool.and_eq_true, decide_eq_true_eq] at h
    have hc : 65 ≤ c.toNat ∧ c.toNat ≤ 90 :=
      ⟨(char_le_toNat 'A' c).mp h.1, (char_le_toNat c 'Z').mp h.2⟩
    have hval : (c.toNat + 32).isValidChar := Or.inl (by omega)
    intro hcon
    have h1 := (char_le_toNat _ _).mp hcon.1
    have h2 := (char_le_toNat _ _).mp hcon.2
    rw [char_toNat_ofNat hval] at h1 h2
    have : ('Z').toNat = 90 := by decide
    omega
  · rename_i h
    simp only [Bool.and_eq_true, decide_eq_true_eq] at h
    exact h

theorem lowerT_not_upper (t : Tok) : ∀ c ∈ lowerT t, ¬ ('A' ≤ c ∧ c ≤ 'Z') := by
  intro c hc
  rcases List.mem_map.mp hc with ⟨c0, _, rfl⟩
  exact lowerChar_not_upper c0

/-- Characters of the whitespace-collapsed string: either an inserted space or
a character of the input. -/
theorem collapseWSGo_chars :
    ∀ (fuel : Nat) (s : Tok) (c : Char), c ∈ collapseWSGo fuel s → c = ' ' ∨ c ∈ s
  | 0, s, c, h => Or.inr h
  | fuel + 1, s, c, h => by
    match s with
    | [] => exact Or.inr h
    | c0 :: cs =>
      simp only [collapseWSGo] at h
      split at h
      · rcases List.mem_cons.mp h with rfl | h2
        · exact Or.inl rfl
        · rcases collapseWSGo_chars fuel _ c h2 with h3 | h3
          · exact Or.inl h3
          · exact Or.inr (List.mem_cons_of_mem _
              ((List.dropWhile_sublist jsIsWS).subset h3))
      · rcases List.mem_cons.mp h with rfl | h2
        · exact Or.inr (List.mem_cons_self _ _)
        · rcases collapseWSGo_chars fuel _ c h2 with h3 | h3
          · exact Or.inl h3
          · exact Or.inr (List.mem_cons_of_mem _ h3)

theorem jsTrim_chars (s : Tok) (c : Char) (h : c ∈ jsTrim s) : c ∈ s := by
  unfold jsTrim at h
  rw [List.mem_reverse] at h
  have h2 := (List.dropWhile_sublist jsIsWS).subset h
  rw [List.mem_reverse] at h2
  exact (List.dropWhile_sublist jsIsWS).subset h2

/-- Characters of `split(/\s+/)` components come from the input. -/
theorem splitWSGo_chars :
    ∀ (fuel : Nat) (s acc : Tok) (w : Tok) (c : Char),
      w ∈ splitWSGo fuel s acc → c ∈ w → c ∈ s ∨ c ∈ acc
  | 0, s, acc, w, c, hw, hc => by
    simp only [splitWSGo] at hw
    rcases List.mem_singleton.mp hw with rfl
    exact Or.inr (List.mem_reverse.mp hc)
  | fuel + 1, s, acc, w, c, hw, hc => by
    match s with
    | [] =>
      simp only [splitWSGo] at hw
      rcases List.mem_singleton.mp hw with rfl
      exact Or.inr (List.mem_reverse.mp hc)
    | c0 :: cs =>
      simp only [splitWSGo] at hw
      split at hw
      · rcases List.mem_cons.mp hw with rfl | h2
        · exact Or.inr (List.mem_reverse.mp hc)
        · rcases splitWSGo_chars fuel _ [] w c h2 hc with h3 | h3
          · exact Or.inl (List.mem_cons_of_mem _
              ((List.dropWhile_sublist jsIsWS).subset h3))
          · simp at h3
      · rcases splitWSGo_chars fuel cs (c0 :: acc) w c hw hc with h3 | h3
        · exact Or.inl (List.mem_cons_of_mem _ h3)
        · rcases List.mem_cons.mp h3 with rfl | h4
          · exact Or.inl (List.mem_cons_self _ _)
          · exact Or.inr h4

/-- `split(/\s+/)` components contain no whitespace. -/
theorem splitWSGo_no_ws :
    ∀ (fuel : Nat) (s acc : Tok), (∀ c ∈ acc, jsIsWS c = false) →
      ∀ w ∈ splitWSGo fuel s acc, ∀ c ∈ w, jsIsWS c = false
  | 0, s, acc, hacc, w, hw, c, hc => by
    simp only [splitWSGo] at hw
    rcases List.mem_singleton.mp hw with rfl
    exact hacc c (List.mem_reverse.mp hc)
  | fuel + 1, s, acc, hacc, w, hw, c, hc => by
    match s with
    | [] =>
      simp only [splitWSGo] at hw
      rcases List.mem_singleton.mp hw with rfl
      exact hacc c (List.mem_reverse.mp hc)
    | c0 :: cs =>
      simp only [splitWSGo] at hw
      split at hw
      · rcases List.mem_cons.mp hw with rfl | h2
        · exact hacc c (List.mem_reverse.mp hc)
        · exact splitWSGo_no_ws fuel _ [] (by simp) w h2 c hc
      · rename_i hc0
        refine splitWSGo_no_ws fuel cs (c0 :: acc) ?_ w hw c hc
        intro d hd
        rcases List.mem_cons.mp hd with rfl | h4
        · simpa using hc0
        · exact hacc d h4

/-- Every word of the normalized training word list is non-uppercase and
whitespace-free. -/
theorem trainWordList_clean (text : Tok) : ∀ w ∈ trainWordList text, cleanSym w := by
  intro w hw
  unfold trainWordList at hw
  have hw2 := List.mem_of_mem_filter hw
  intro c hc
  constructor
  · rcases splitWSGo_chars _ _ _ w c hw2 hc with h3 | h3
    · have h4 := jsTrim_chars _ _ h3
      rcases collapseWSGo_chars _ _ _ h4 with rfl | h5
      · decide
      · exact lowerT_not_upper text c h5
    · simp at h3
  · exact splitWSGo_no_ws _ _ [] (by simp) w hw2 c hc

theorem sepChars_chars : ∀ (w : Tok) (c : Char), c ∈ sepChars w → c = ' ' ∨ c ∈ w
  | [], c, h => by simp [sepChars] at h
  | [c0], c, h => by
    simp only [sepChars] at h
    rcases List.mem_singleton.mp h with rfl
    exact Or.inr (List.mem_singleton.mpr rfl)
  | c0 :: c1 :: cs, c, h => by
    simp only [sepChars] at h
    rcases List.mem_cons.mp h with rfl | h2
    · exact Or.inr (List.mem_cons_self _ _)
    · rcases List.mem_cons.mp h2 with rfl | h3
      · exact Or.inl rfl
      · rcases sepChars_chars (c1 :: cs) c h3 with h4 | h4
        · exact Or.inl h4
        · exact Or.inr (List.mem_cons_of_mem _ h4)

/-- The processed table key of a clean word is a clean key. -/
theorem processedWord_cleanKey {w : Tok} (hw : cleanSym w) :
    cleanKey (processedWord w) := by
  intro c hc
  unfold processedWord at hc
  rcases List.mem_append.mp hc with h1 | h1
  · rcases sepChars_chars w c h1 with rfl | h2
    · exact ⟨by decide, fun _ => rfl⟩
    · exact ⟨(hw c h2).1, fun hq => absurd ((hw c h2).2) (by simp [hq])⟩
  · rcases List.mem_cons.mp h1 with rfl | h2
    · exact ⟨by decide, fun _ => rfl⟩
    · simp only [eow, List.mem_cons, List.not_mem_nil, or_false] at h2
      rcases h2 with rfl | rfl | rfl | rfl <;> exact ⟨by decide, by decide⟩

/-- Entry provenance for folds that write each step through `Map.set`. -/
theorem foldl_mapSet_mem {α β γ : Type} [DecidableEq α]
    (key : γ → α) (val : List (α × β) → γ → β) :
    ∀ (l : List γ) (acc : List (α × β)) (e : α × β),
      e ∈ l.foldl (fun a x => mapSet a (key x) (val a x)) acc →
      e ∈ acc ∨ ∃ x ∈ l, e.1 = key x
  | [], acc, e, h => Or.inl h
  | x :: rest, acc, e, h => by
    simp only [List.foldl_cons] at h
    rcases foldl_mapSet_mem key val rest _ e h with h1 | ⟨y, hy, h2⟩
    · rcases mapSet_mem _ _ _ _ h1 with h2 | h2
      · exact Or.inl h2
      · exact Or.inr ⟨x, List.mem_cons_self _ _, by rw [h2]⟩
    · exact Or.inr ⟨y, List.mem_cons_of_mem _ hy, h2⟩

/-- Every key of the initial word table is the processed form of a word of the
word list. -/
theorem buildWordTable_mem (L : List Tok) (e : Tok × Nat)
    (h : e ∈ buildWordTable L) : ∃ w ∈ L, e.1 = processedWord w := by
  have := foldl_mapSet_mem (fun w => processedWord w)
    (fun a w => mapGetD a (processedWord w) 0 + 1) L [] e h
  simpa using this

/-- Every entry of `applyMerge` carries a rewritten key of the input table. -/
theorem applyMerge_mem (tbl : List (Tok × Nat)) (f s : Tok) (e : Tok × Nat)
    (h : e ∈ applyMerge tbl f s) : ∃ wf ∈ tbl, e.1 = replaceMerge f s wf.1 := by
  have := foldl_mapSet_mem (fun (wf : Tok × Nat) => replaceMerge f s wf.1)
    (fun _ wf => wf.2) tbl [] e h
  simpa using this

theorem getPairs_mem (word : List Tok) (e : Tok × Nat) (h : e ∈ getPairs word) :
    ∃ xy ∈ word.zip word.tail, e.1 = pairKey xy.1 xy.2 := by
  have := foldl_mapSet_mem (fun (xy : Tok × Tok) => pairKey xy.1 xy.2)
    (fun a xy => mapGetD a (pairKey xy.1 xy.2) 0 + 1) (word.zip word.tail) [] e h
  simpa using this

theorem addWordPairs_mem (acc : List (Tok × Nat)) (w : Tok) (freq : Nat)
    (e : Tok × Nat) (h : e ∈ addWordPairs acc w freq) :
    e ∈ acc ∨ ∃ xy ∈ (splitChar ' ' w).zip (splitChar ' ' w).tail,
      e.1 = pairKey xy.1 xy.2 := by
  have := foldl_mapSet_mem (fun (p : Tok × Nat) => p.1)
    (fun a p => mapGetD a p.1 0 + freq * p.2) (getPairs (splitChar ' ' w)) acc e h
  rcases this with h1 | ⟨p, hp, h2⟩
  · exact Or.inl h1
  · rcases getPairs_mem _ p hp with ⟨xy, hxy, h3⟩
    exact Or.inr ⟨xy, hxy, h2.trans h3⟩

theorem countPairs_mem_aux :
    ∀ (tbl : List (Tok × Nat)) (acc : List (Tok × Nat)) (e : Tok × Nat),
      e ∈ tbl.foldl (fun acc wf => addWordPairs acc wf.1 wf.2) acc →
      e ∈ acc ∨ ∃ wf ∈ tbl, ∃ xy ∈ (splitChar ' ' wf.1).zip (splitChar ' ' wf.1).tail,
        e.1 = pairKey xy.1 xy.2
  | [], acc, e, h => Or.inl h
  | wf :: rest, acc, e, h => by
    simp only [List.foldl_cons] at h
    rcases countPairs_mem_aux rest _ e h with h1 | ⟨wf', hwf', hx⟩
    · rcases addWordPairs_mem acc wf.1 wf.2 e h1 with h2 | h2
      · exact Or.inl h2
      · exact Or.inr ⟨wf, List.mem_cons_self _ _, h2⟩
    · exact Or.inr ⟨wf', List.mem_cons_of_mem _ hwf', hx⟩

/-- Every counted pair key is the pair key of two adjacent symbols of some
table word. -/
theorem countPairs_mem (tbl : List (Tok × Nat)) (e : Tok × Nat)
    (h : e ∈ countPairs tbl) :
    ∃ wf ∈ tbl, ∃ xy ∈ (splitChar ' ' wf.1).zip (splitChar ' ' wf.1).tail,
      e.1 = pairKey xy.1 xy.2 := by
  rcases countPairs_mem_aux tbl [] e h with h1 | h1
  · simp at h1
  · exact h1

theorem splitChar_ne_nil (sep : Char) : ∀ s : Tok, splitChar sep s ≠ []
  | [] => by simp [splitChar]
  | c :: cs => by
    rcases h : splitChar sep cs with _ | ⟨t, ts⟩
    · simp [splitChar, h]
    · simp only [splitChar, h]
      split <;> simp

/-- Components of `split(sep)` come from the input and never contain the
separator. -/
theorem splitChar_mem_chars (sep : Char) :
    ∀ (s : Tok) (t : Tok) (c : Char), t ∈ splitChar sep s → c ∈ t →
      c ∈ s ∧ c ≠ sep
  | [], t, c, ht, hc => by
    simp only [splitChar] at ht
    rcases List.mem_singleton.mp ht with rfl
    simp at hc
  | c0 :: cs, t, c, ht, hc => by
    rcases heq : splitChar sep cs with _ | ⟨t0, ts⟩
    · exact absurd heq (splitChar_ne_nil sep cs)
    · by_cases hsep : c0 = sep
      · rw [show splitChar sep (c0 :: cs) = [] :: t0 :: ts by
            simp only [splitChar, heq]; rw [if_pos hsep]] at ht
        rcases List.mem_cons.mp ht with rfl | ht2
        · simp at hc
        · have := splitChar_mem_chars sep cs t c (by rw [heq]; exact ht2) hc
          exact ⟨List.mem_cons_of_mem _ this.1, this.2⟩
      · rw [show splitChar sep (c0 :: cs) = (c0 :: t0) :: ts by
            simp only [splitChar, heq]; rw [if_neg hsep]] at ht
        rcases List.mem_cons.mp ht with rfl | ht2
        · rcases List.mem_cons.mp hc with rfl | hc2
          · exact ⟨List.mem_cons_self _ _, hsep⟩
          · have := splitChar_mem_chars sep cs t0 c
              (by rw [heq]; exact List.mem_cons_self t0 ts) hc2
            exact ⟨List.mem_cons_of_mem _ this.1, this.2⟩
        · have := splitChar_mem_chars sep cs t c
            (by rw [heq]; exact List.mem_cons_of_mem t0 ht2) hc
          exact ⟨List.mem_cons_of_mem _ this.1, this.2⟩

/-- Characters of a global-replace result come from the replacement text or
the input. -/
theorem replaceMergeGo_chars (pat rep : Tok) :
    ∀ (fuel : Nat) (prev : Option Char) (t : Tok) (c : Char),
      c ∈ replaceMergeGo pat rep fuel prev t → c ∈ rep ∨ c ∈ t
  | 0, prev, t, c, h => Or.inr h
  | fuel + 1, prev, t, c, h => by
    match t with
    | [] => exact Or.inr h
    | c0 :: cs =>
      simp only [replaceMergeGo] at h
      split at h
      · rcases List.mem_append.mp h with h1 | h1
        · exact Or.inl h1
        · rcases replaceMergeGo_chars pat rep fuel _ _ c h1 with h2 | h2
          · exact Or.inl h2
          · exact Or.inr (List.drop_subset _ _ h2)
      · rcases List.mem_cons.mp h with rfl | h1
        · exact Or.inr (List.mem_cons_self _ _)
        · rcases replaceMergeGo_chars pat rep fuel _ _ c h1 with h2 | h2
          · exact Or.inl h2
          · exact Or.inr (List.mem_cons_of_mem _ h2)

theorem replaceMerge_chars (f s w : Tok) (c : Char)
    (h : c ∈ replaceMerge f s w) : c ∈ f ++ s ∨ c ∈ w :=
  replaceMergeGo_chars _ _ _ _ _ _ h

/-! ## Provenance of the selected merge pair (claims C10, C1) -/

theorem selectBestState_mem (pcs : List (Tok × Nat)) (mf : Nat) (p : Tok)
    (h : (selectBestState pcs mf).2 = some p) : p ∈ pcs.map Prod.fst := by
  rcases selectFold_spec mf pcs 0 none with ⟨heq, _⟩ | ⟨pre, key, post, hl, hsnd, _⟩
  · unfold selectBestState at h
    rw [heq] at h
    simp at h
  · unfold selectBestState at h
    rw [hsnd] at h
    obtain rfl : key = p := Option.some.inj h
    rw [hl]
    simp

theorem selectBest_mem (pcs : List (Tok × Nat)) (mf : Nat) (fs : Tok × Tok)
    (h : selectBest pcs mf = some fs) :
    ∃ p, p ∈ pcs.map Prod.fst ∧ fs = splitPair p := by
  rcases hb : (selectBestState pcs mf).2 with _ | p
  · have hstate : selectBestState pcs mf = ((selectBestState pcs mf).1, none) := by
      rw [← hb]
    rw [show selectBest pcs mf = none from by unfold selectBest; rw [hstate]] at h
    simp at h
  · have hstate : selectBestState pcs mf = ((selectBestState pcs mf).1, some p) := by
      rw [← hb]
    rw [show selectBest pcs mf =
        (if (selectBestState pcs mf).1 < mf then none else some (splitPair p)) from by
      unfold selectBest; rw [hstate]] at h
    split at h
    · simp at h
    · exact ⟨p, selectBestState_mem pcs mf p hb, (Option.some.inj h).symm⟩

theorem cleanSym_no_space {t : Tok} (h : cleanSym t) : ∀ c ∈ t, c ≠ ' ' := by
  intro c hc heq
  subst heq
  have := (h ' ' hc).2
  simp [jsIsWS] at this

theorem cleanSym_append {a b : Tok} (ha : cleanSym a) (hb : cleanSym b) :
    cleanSym (a ++ b) := by
  intro c hc
  rcases List.mem_append.mp hc with h | h
  · exact ha c h
  · exact hb c h

theorem takeWhile_neq_all : ∀ (b : Tok), (∀ c ∈ b, c ≠ ' ') →
    b.takeWhile (· ≠ ' ') = b
  | [], _ => rfl
  | c :: t, h => by
    rw [List.takeWhile_cons, if_pos (by simpa using h c (List.mem_cons_self c t)),
      takeWhile_neq_all t (fun d hd => h d (List.mem_cons_of_mem c hd))]

theorem takeWhile_append_sep (b : Tok) :
    ∀ a : Tok, (∀ c ∈ a, c ≠ ' ') → ((a ++ ' ' :: b).takeWhile (· ≠ ' ')) = a
  | [], _ => by
    rw [List.nil_append, List.takeWhile_cons, if_neg (by simp)]
  | c :: a', h => by
    rw [List.cons_append, List.takeWhile_cons,
      if_pos (by simpa using h c (List.mem_cons_self c a')),
      takeWhile_append_sep b a' (fun d hd => h d (List.mem_cons_of_mem c hd))]

theorem dropWhile_append_sep (b : Tok) :
    ∀ a : Tok, (∀ c ∈ a, c ≠ ' ') → ((a ++ ' ' :: b).dropWhile (· ≠ ' ')) = ' ' :: b
  | [], _ => by
    rw [List.nil_append, List.dropWhile_cons, if_neg (by simp)]
  | c :: a', h => by
    rw [List.cons_append, List.dropWhile_cons,
      if_pos (by simpa using h c (List.mem_cons_self c a')),
      dropWhile_append_sep b a' (fun d hd => h d (List.mem_cons_of_mem c hd))]

/-- Splitting a pair key at its first space recovers the two space-free
symbols. -/
theorem splitPair_pairKey {a b : Tok} (ha : ∀ c ∈ a, c ≠ ' ') (hb : ∀ c ∈ b, c ≠ ' ') :
    splitPair (pairKey a b) = (a, b) := by
  unfold splitPair pairKey
  rw [takeWhile_append_sep b a ha, dropWhile_append_sep b a ha]
  have hdrop : (' ' :: b).drop 1 = b := rfl
  rw [hdrop, takeWhile_neq_all b hb]

/-- Every counted pair key on a clean table splits into two clean, space-free
symbols. -/
theorem countPairs_key_parts {tbl : List (Tok × Nat)} (hcl : TableClean tbl)
    {e : Tok × Nat} (he : e ∈ countPairs tbl) :
    ∃ a b, e.1 = pairKey a b ∧ cleanSym a ∧ cleanSym b := by
  rcases countPairs_mem tbl e he with ⟨wf, hwf, xy, hxy, hkey⟩
  have hz := List.of_mem_zip hxy
  have hbL : xy.2 ∈ splitChar ' ' wf.1 := List.mem_of_mem_tail hz.2
  have hk := hcl wf hwf
  have hclean : ∀ t ∈ splitChar ' ' wf.1, cleanSym t := by
    intro t ht c hc
    have h2 := splitChar_mem_chars ' ' wf.1 t c ht hc
    refine ⟨(hk c h2.1).1, ?_⟩
    cases hjs : jsIsWS c with
    | false => rfl
    | true => exact absurd ((hk c h2.1).2 hjs) h2.2
  exact ⟨xy.1, xy.2, hkey, hclean xy.1 hz.1, hclean xy.2 hbL⟩

/-- A clean merge rule keeps table keys clean. -/
theorem replaceMerge_cleanKey {f s k : Tok} (hf : cleanSym f) (hs : cleanSym s)
    (hk : cleanKey k) : cleanKey (replaceMerge f s k) := by
  intro c hc
  rcases replaceMerge_chars f s k c hc with h1 | h1
  · rcases List.mem_append.mp h1 with h2 | h2
    · exact ⟨(hf c h2).1, fun hq => absurd (hf c h2).2 (by simp [hq])⟩
    · exact ⟨(hs c h2).1, fun hq => absurd (hs c h2).2 (by simp [hq])⟩
  · exact hk c h1

/-! ## Cleanliness of the seeded state (claim C10) -/

theorem addIfAbsent_rv_mem {v : List (Tok × Nat)} {r : List (Nat × Tok)} {tid : Nat}
    {tok : Tok} {e : Nat × Tok} (h : e ∈ (addIfAbsent v r tid tok).2.1) :
    e ∈ r ∨ e.2 = tok := by
  unfold addIfAbsent at h
  split at h
  · rcases mapSet_mem _ _ _ _ h with h1 | h1
    · exact Or.inl h1
    · exact Or.inr (by rw [h1])
  · exact Or.inl h

theorem seedChars_rvP (P : Tok → Prop) :
    ∀ (cs : List Tok) (v : List (Tok × Nat)) (r : List (Nat × Tok)) (tid : Nat),
      (∀ e ∈ r, P e.2) → (∀ c ∈ cs, P c) →
      ∀ e ∈ (seedChars v r tid cs).2.1, P e.2
  | [], v, r, tid, hr, _, e, he => hr e he
  | c :: cs, v, r, tid, hr, hcs, e, he => by
    have hstep : seedChars v r tid (c :: cs) =
        seedChars (addIfAbsent v r tid c).1 (addIfAbsent v r tid c).2.1
          (addIfAbsent v r tid c).2.2 cs := rfl
    rw [hstep] at he
    refine seedChars_rvP P cs _ _ _ (fun d hd => ?_)
      (fun d hd => hcs d (List.mem_cons_of_mem c hd)) e he
    rcases addIfAbsent_rv_mem hd with h1 | h1
    · exact hr d h1
    · rw [h1]
      exact hcs c (List.mem_cons_self c cs)

theorem seedSpecials_rvP (P : Tok → Prop) :
    ∀ (toks : List Tok) (st : List (Tok × Nat) × List (Nat × Tok) × Nat),
      (∀ e ∈ st.2.1, P e.2) → (∀ t ∈ toks, P t) →
      ∀ e ∈ (toks.foldl
        (fun st tok => (mapSet st.1 tok st.2.2, mapSet st.2.1 st.2.2 tok, st.2.2 + 1))
        st).2.1, P e.2
  | [], st, hst, _, e, he => hst e he
  | tok :: toks, st, hst, htoks, e, he => by
    simp only [List.foldl_cons] at he
    refine seedSpecials_rvP P toks _ (fun d hd => ?_)
      (fun d hd => htoks d (List.mem_cons_of_mem tok hd)) e he
    rcases mapSet_mem _ _ _ _ hd with h1 | h1
    · exact hst d h1
    · rw [h1]
      exact htoks tok (List.mem_cons_self tok toks)

theorem addUnique_mem {l : List Tok} {x y : Tok} (h : y ∈ addUnique l x) :
    y ∈ l ∨ y = x := by
  unfold addUnique at h
  split at h
  · exact Or.inl h
  · rcases List.mem_append.mp h with h1 | h1
    · exact Or.inl h1
    · exact Or.inr (List.mem_singleton.mp h1)

theorem insertTok_mem : ∀ {l : List Tok} {x y : Tok}, y ∈ insertTok x l → y = x ∨ y ∈ l
  | [], x, y, h => Or.inl (List.mem_singleton.mp h)
  | z :: l, x, y, h => by
    unfold insertTok at h
    split at h
    · rcases List.mem_cons.mp h with rfl | h1
      · exact Or.inl rfl
      · exact Or.inr h1
    · rcases List.mem_cons.mp h with rfl | h1
      · exact Or.inr (List.mem_cons_self _ _)
      · rcases insertTok_mem h1 with h2 | h2
        · exact Or.inl h2
        · exact Or.inr (List.mem_cons_of_mem _ h2)

theorem sortToks_mem : ∀ {l : List Tok} {y : Tok}, y ∈ sortToks l → y ∈ l
  | [], y, h => by simp [sortToks] at h
  | x :: l, y, h => by
    simp only [sortToks, List.foldr_cons] at h
    rcases insertTok_mem h with rfl | h1
    · exact List.mem_cons_self _ _
    · exact List.mem_cons_of_mem _ (sortToks_mem h1)

theorem collectInner_mem :
    ∀ (syms : List Tok) (acc : List Tok) (c : Tok),
      c ∈ syms.foldl (fun a t => if t ≠ eow ∧ t ≠ [] then addUnique a t else a) acc →
      c ∈ acc ∨ c ∈ syms
  | [], acc, c, h => Or.inl h
  | t :: syms, acc, c, h => by
    simp only [List.foldl_cons] at h
    rcases collectInner_mem syms _ c h with h1 | h1
    · split at h1
      · rcases addUnique_mem h1 with h2 | h2
        · exact Or.inl h2
        · exact Or.inr (h2 ▸ List.mem_cons_self _ _)
      · exact Or.inl h1
    · exact Or.inr (List.mem_cons_of_mem _ h1)

theorem collectChars_mem_aux :
    ∀ (keys : List Tok) (acc : List Tok) (c : Tok),
      c ∈ keys.foldl
        (fun acc k => (splitChar ' ' k).foldl
          (fun a t => if t ≠ eow ∧ t ≠ [] then addUnique a t else a) acc) acc →
      c ∈ acc ∨ ∃ k ∈ keys, c ∈ splitChar ' ' k
  | [], acc, c, h => Or.inl h
  | k :: keys, acc, c, h => by
    simp only [List.foldl_cons] at h
    rcases collectChars_mem_aux keys _ c h with h1 | ⟨k', hk', h2⟩
    · rcases collectInner_mem _ _ c h1 with h2 | h2
      · exact Or.inl h2
      · exact Or.inr ⟨k, List.mem_cons_self _ _, h2⟩
    · exact Or.inr ⟨k', List.mem_cons_of_mem _ hk', h2⟩

theorem collectChars_mem {keys : List Tok} {c : Tok} (h : c ∈ collectChars keys) :
    ∃ k ∈ keys, c ∈ splitChar ' ' k := by
  rcases collectChars_mem_aux keys [] c h with h1 | h1
  · simp at h1
  · exact h1

theorem buildWordTable_clean (text : Tok) :
    TableClean (buildWordTable (trainWordList text)) := by
  intro e he
  rcases buildWordTable_mem _ e he with ⟨w, hw, hkey⟩
  rw [hkey]
  exact processedWord_cleanKey (trainWordList_clean text w hw)

/-- The seeded inverse vocabulary holds only special tokens and clean
symbols. -/
theorem cleanSym_eow : cleanSym eow := by
  intro c hc
  simp only [eow, List.mem_cons, List.not_mem_nil, or_false] at hc
  rcases hc with rfl | rfl | rfl | rfl <;> exact ⟨by decide, by decide⟩

theorem trainSeed_rvClean (cfg : TokenizerConfig) (text : Tok) :
    RvClean cfg (trainSeed cfg text).2.1 := by
  intro e he
  simp only [trainSeed] at he
  rcases addIfAbsent_rv_mem he with h1 | h1
  · refine seedChars_rvP (fun t => t ∈ cfg.specialTokens ∨ cleanSym t) _ _ _ _
      (fun d hd => ?_) (fun d hd => ?_) e h1
    · exact seedSpecials_rvP _ cfg.specialTokens ([], [], 0) (by simp)
        (fun t ht => Or.inl ht) d hd
    · rcases collectChars_mem (sortToks_mem hd) with ⟨k, hk, hsplit⟩
      rcases List.mem_map.mp hk with ⟨entry, hentry, hkey⟩
      have hck : cleanKey k := hkey ▸ buildWordTable_clean text entry hentry
      refine Or.inr (fun c hc => ?_)
      have h2 := splitChar_mem_chars ' ' k d c hsplit hc
      refine ⟨(hck c h2.1).1, ?_⟩
      cases hjs : jsIsWS c with
      | false => rfl
      | true => exact absurd ((hck c h2.1).2 hjs) h2.2
  · rw [h1]
    exact Or.inr cleanSym_eow

theorem trainSeed_tableClean (cfg : TokenizerConfig) (text : Tok) :
    TableClean (trainSeed cfg text).2.2.2 :=
  buildWordTable_clean text

/-- The training loop keeps the inverse vocabulary clean: every entry is a
special token or a clean symbol. -/
theorem trainLoopAux_rvClean (cfg : TokenizerConfig) :
    ∀ (fuel : Nat) (v : List (Tok × Nat)) (r : List (Nat × Tok)) (tid : Nat)
      (ms : List (Tok × Tok)) (tbl : List (Tok × Nat)),
      RvClean cfg r → TableClean tbl →
      RvClean cfg (trainLoopAux cfg fuel v r tid ms tbl).2.1
  | 0, v, r, tid, ms, tbl, hr, _ => hr
  | fuel + 1, v, r, tid, ms, tbl, hr, htbl => by
    simp only [trainLoopAux]
    split
    · split
      · exact hr
      · rcases hsel : selectBest (countPairs tbl) (orDefault cfg.minFreq 2) with _ | ⟨f, s⟩
        · simp only [hsel]
          exact hr
        · simp only [hsel]
          obtain ⟨p, hpmem, hpsplit⟩ := selectBest_mem _ _ _ hsel
          obtain ⟨e0, he0, he0k⟩ := List.mem_map.mp hpmem
          obtain ⟨a, b, hab, hca, hcb⟩ := countPairs_key_parts htbl he0
          have hp : p = pairKey a b := by rw [← he0k, hab]
          have hfs : (f, s) = (a, b) := by
            rw [hpsplit, hp, splitPair_pairKey (cleanSym_no_space hca) (cleanSym_no_space hcb)]
          have hf : cleanSym f := by
            rw [show f = a from congrArg Prod.fst hfs]
            exact hca
          have hs2 : cleanSym s := by
            rw [show s = b from congrArg Prod.snd hfs]
            exact hcb
          refine trainLoopAux_rvClean cfg fuel _ _ _ _ _ (fun d hd => ?_) (fun d hd => ?_)
          · rcases addIfAbsent_rv_mem hd with h1 | h1
            · exact hr d h1
            · rw [h1]
              exact Or.inr (cleanSym_append hf hs2)
          · rcases applyMerge_mem tbl f s d hd with ⟨wf, hwf, hdk⟩
            rw [hdk]
            exact replaceMerge_cleanKey hf hs2 (htbl wf hwf)
    · exact hr

/-- After a successful `train`, the inverse vocabulary is clean. -/
theorem train_rvClean (s : BPEState) (text : Tok) (h : (train s text).2 = none) :
    RvClean s.config (train s text).1.reverseVocabulary := by
  unfold train at *
  by_cases ht : jsTrim text = []
  · simp [ht] at h
  · simp only [ht, if_false]
    exact trainLoopAux_rvClean s.config _ _ _ _ _ _
      (trainSeed_rvClean s.config text) (trainSeed_tableClean s.config text)

/-! ## Structure of the decoded text (claim C10) -/

theorem head?_mem_list : ∀ (l : Tok) (c : Char), l.head? = some c → c ∈ l
  | [], c, h => by simp at h
  | a :: t, c, h => by
    simp at h
    exact h ▸ List.mem_cons_self _ _

theorem getLast?_mem_list : ∀ (l : Tok) (c : Char), l.getLast? = some c → c ∈ l
  | [], c, h => by simp at h
  | [a], c, h => by
    simp at h
    exact h ▸ List.mem_cons_self _ _
  | a :: b :: t, c, h => by
    have h2 : (a :: b :: t).getLast? = (b :: t).getLast? :=
      List.getLast?_append_of_ne_nil [a] (by simp)
    rw [h2] at h
    exact List.mem_cons_of_mem _ (getLast?_mem_list (b :: t) c h)

/-- Every word collected by the decoding loop is non-empty and clean, given a
clean inverse vocabulary. -/
theorem detokLoop_words (s : BPEState) (hrv : RvClean s.config s.reverseVocabulary) :
    ∀ (ids : List Nat) (ws : List Tok) (cur : Tok),
      (∀ w ∈ ws, w ≠ [] ∧ cleanSym w) → cleanSym cur →
      ∀ w ∈ detokLoop s ids ws cur, w ≠ [] ∧ cleanSym w
  | [], ws, cur, hws, hcur, w, hw => by
    simp only [detokLoop] at hw
    split at hw
    · rename_i hcurne
      rcases List.mem_append.mp hw with h1 | h1
      · exact hws w h1
      · rcases List.mem_singleton.mp h1 with rfl
        exact ⟨hcurne, hcur⟩
    · exact hws w hw
  | id :: rest, ws, cur, hws, hcur, w, hw => by
    rcases hm : mapGet s.reverseVocabulary id with _ | tok
    · have hstep : detokLoop s (id :: rest) ws cur = detokLoop s rest ws cur := by
        simp only [detokLoop, hm]
      rw [hstep] at hw
      exact detokLoop_words s hrv rest ws cur hws hcur w hw
    · have hstep : detokLoop s (id :: rest) ws cur =
          (if tok = [] then detokLoop s rest ws cur
           else if tok = eow then
             (if cur ≠ [] then detokLoop s rest (ws ++ [cur]) []
              else detokLoop s rest ws cur)
           else if tok ∈ s.config.specialTokens then detokLoop s rest ws cur
           else detokLoop s rest ws (cur ++ tok)) := by
        simp only [detokLoop, hm]
      rw [hstep] at hw
      split at hw
      · exact detokLoop_words s hrv rest ws cur hws hcur w hw
      · split at hw
        · split at hw
          · rename_i hcurne
            refine detokLoop_words s hrv rest (ws ++ [cur]) [] (fun x hx => ?_)
              (by intro c hc; simp at hc) w hw
            rcases List.mem_append.mp hx with h1 | h1
            · exact hws x h1
            · rcases List.mem_singleton.mp h1 with rfl
              exact ⟨hcurne, hcur⟩
          · exact detokLoop_words s hrv rest ws cur hws hcur w hw
        · split at hw
          · exact detokLoop_words s hrv rest ws cur hws hcur w hw
          · rename_i htokspec
            refine detokLoop_words s hrv rest ws (cur ++ tok) hws ?_ w hw
            rcases hrv _ (mapGet_mem _ _ _ hm) with h1 | h1
            · exact absurd h1 htokspec
            · exact cleanSym_append hcur h1

theorem joinSp_chars : ∀ (W : List Tok) (c : Char), c ∈ joinSp W →
    c = ' ' ∨ ∃ w ∈ W, c ∈ w
  | [], c, h => by simp [joinSp] at h
  | [w], c, h => Or.inr ⟨w, List.mem_singleton.mpr rfl, h⟩
  | w :: w2 :: ws, c, h => by
    rw [joinSp_cons w (by simp)] at h
    rcases List.mem_append.mp h with h1 | h1
    · exact Or.inr ⟨w, List.mem_cons_self _ _, h1⟩
    · rcases List.mem_cons.mp h1 with rfl | h2
      · exact Or.inl rfl
      · rcases joinSp_chars (w2 :: ws) c h2 with h3 | ⟨x, hx, h4⟩
        · exact Or.inl h3
        · exact Or.inr ⟨x, List.mem_cons_of_mem _ hx, h4⟩

theorem joinSp_ne_nil : ∀ {W : List Tok}, W ≠ [] → (∀ w ∈ W, w ≠ []) → joinSp W ≠ []
  | [], h, _ => absurd rfl h
  | [w], _, hws => by simpa [joinSp] using hws w (by simp)
  | w :: w2 :: ws, _, hws => by
    rw [joinSp_cons w (by simp)]
    have hne := hws w (List.mem_cons_self _ _)
    cases w with
    | nil => exact absurd rfl hne
    | cons c w' => simp

theorem joinSp_head_ne_space : ∀ (W : List Tok), (∀ w ∈ W, w ≠ [] ∧ cleanSym w) →
    (joinSp W).head? ≠ some ' '
  | [], _ => by simp [joinSp]
  | [w], hws => by
    intro h
    exact cleanSym_no_space (hws w (by simp)).2 ' ' (head?_mem_list _ _ h) rfl
  | w :: w2 :: ws, hws => by
    intro h
    rw [joinSp_cons w (by simp)] at h
    rcases hws w (List.mem_cons_self _ _) with ⟨hne, hcl⟩
    cases w with
    | nil => exact absurd rfl hne
    | cons c0 w' =>
      rw [List.cons_append] at h
      simp at h
      exact cleanSym_no_space hcl c0 (List.mem_cons_self _ _) h

theorem joinSp_getLast_ne_space : ∀ (W : List Tok), (∀ w ∈ W, w ≠ [] ∧ cleanSym w) →
    (joinSp W).getLast? ≠ some ' '
  | [], _ => by simp [joinSp]
  | [w], hws => by
    intro h
    exact cleanSym_no_space (hws w (by simp)).2 ' ' (getLast?_mem_list _ _ h) rfl
  | w :: w2 :: ws, hws => by
    intro h
    rw [joinSp_cons w (by simp)] at h
    have hjne : joinSp (w2 :: ws) ≠ [] :=
      joinSp_ne_nil (by simp) (fun x hx => (hws x (List.mem_cons_of_mem _ hx)).1)
    rw [List.getLast?_append_of_ne_nil w (by simp),
      show ' ' :: joinSp (w2 :: ws) = [' '] ++ joinSp (w2 :: ws) from rfl,
      List.getLast?_append_of_ne_nil [' '] hjne] at h
    exact joinSp_getLast_ne_space (w2 :: ws)
      (fun x hx => hws x (List.mem_cons_of_mem _ hx)) h

theorem no_dbl_in_append (X : Tok) : ∀ (w : Tok), (∀ c ∈ w, c ≠ ' ') →
    ∀ (l1 l2 : Tok), w ++ X = l1 ++ ' ' :: ' ' :: l2 → ∃ m, X = m ++ ' ' :: ' ' :: l2
  | [], _, l1, l2, h => ⟨l1, by simpa using h⟩
  | c :: w', hw, l1, l2, h => by
    cases l1 with
    | nil =>
      rw [List.cons_append, List.nil_append] at h
      injection h with h1 h2
      exact absurd h1 (hw c (List.mem_cons_self _ _))
    | cons c1 l1' =>
      rw [List.cons_append, List.cons_append] at h
      injection h with h1 h2
      exact no_dbl_in_append X w' (fun d hd => hw d (List.mem_cons_of_mem _ hd)) l1' l2 h2

/-- A single-space join of non-empty space-free words never contains two
adjacent spaces. -/
theorem joinSp_no_dbl : ∀ (W : List Tok), (∀ w ∈ W, w ≠ [] ∧ cleanSym w) →
    ∀ (l1 l2 : Tok), joinSp W ≠ l1 ++ ' ' :: ' ' :: l2
  | [], _, l1, l2 => by
    intro h
    have hlen := congrArg List.length h
    simp [joinSp] at hlen
    omega
  | [w], hws, l1, l2 => by
    intro h
    have hsp : ' ' ∈ w := by
      rw [show joinSp [w] = w from rfl] at h
      rw [h]
      simp
    exact cleanSym_no_space (hws w (by simp)).2 ' ' hsp rfl
  | w :: w2 :: ws, hws, l1, l2 => by
    intro h
    rw [joinSp_cons w (by simp)] at h
    obtain ⟨m, hm⟩ := no_dbl_in_append _ w
      (cleanSym_no_space (hws w (List.mem_cons_self _ _)).2) l1 l2 h
    cases m with
    | nil =>
      rw [List.nil_append] at hm
      injection hm with h1 h2
      have hhead := joinSp_head_ne_space (w2 :: ws)
        (fun x hx => hws x (List.mem_cons_of_mem _ hx))
      rw [h2] at hhead
      simp at hhead
    | cons cm m' =>
      rw [List.cons_append] at hm
      injection hm with h1 h2
      exact joinSp_no_dbl (w2 :: ws) (fun x hx => hws x (List.mem_cons_of_mem _ hx))
        m' l2 h2

theorem joinSp_not_upper (W : List Tok) (hws : ∀ w ∈ W, w ≠ [] ∧ cleanSym w) :
    ∀ c ∈ joinSp W, ¬ ('A' ≤ c ∧ c ≤ 'Z') := by
  intro c hc
  rcases joinSp_chars W c hc with rfl | ⟨w, hw, h2⟩
  · decide
  · exact ((hws w hw).2 c h2).1

theorem joinSp_ws_space (W : List Tok) (hws : ∀ w ∈ W, w ≠ [] ∧ cleanSym w) :
    ∀ c ∈ joinSp W, jsIsWS c = true → c = ' ' := by
  intro c hc hjs
  rcases joinSp_chars W c hc with rfl | ⟨w, hw, h2⟩
  · rfl
  · exact absurd ((hws w hw).2 c h2).2 (by simp [hjs])

/-- On a clean inverse vocabulary, the decoded text cannot reproduce a text
with uppercase ASCII or irregular whitespace. -/
theorem decoded_ne_defective (s : BPEState) (hrv : RvClean s.config s.reverseVocabulary)
    (ids : List Nat) (text : Tok)
    (hdef : hasUpperAscii text ∨ irregularWS text) :
    text ≠ detokenize s ids := by
  intro heq
  unfold detokenize at heq
  split at heq
  · rcases hdef with ⟨c, hc, _⟩ | hirr
    · rw [heq] at hc
      simp at hc
    · rcases hirr with ⟨c, hc, _⟩ | hh | hl | ⟨l1, l2, hdd⟩
      · rw [heq] at hc
        simp at hc
      · rw [heq] at hh
        simp at hh
      · rw [heq] at hl
        simp at hl
      · rw [heq] at hdd
        have hlen := congrArg List.length hdd
        simp at hlen
        omega
  · have hwords : ∀ w ∈ detokLoop s ids [] [], w ≠ [] ∧ cleanSym w :=
      detokLoop_words s hrv ids [] [] (by simp) (by intro c hc; simp at hc)
    rcases hdef with ⟨c, hc, hup⟩ | hirr
    · rw [heq] at hc
      exact joinSp_not_upper _ hwords c hc hup
    · rcases hirr with ⟨c, hc, hws2, hcne⟩ | hh | hl | ⟨l1, l2, hdd⟩
      · rw [heq] at hc
        exact hcne (joinSp_ws_space _ hwords c hc hws2)
      · rw [heq] at hh
        exact joinSp_head_ne_space _ hwords hh
      · rw [heq] at hl
        exact joinSp_getLast_ne_space _ hwords hl
      · rw [heq] at hdd
        exact joinSp_no_dbl _ hwords l1 l2 hdd

theorem train_config (s : BPEState) (text : Tok) : (train s text).1.config = s.config := by
  unfold train
  by_cases ht : jsTrim text = []
  · simp [ht]
  · simp [ht]

/-- C10: the validator is total on every input: a caught encode error yields
an invalid result with a non-empty error list; with no internal failure,
validity is exactly character-for-character equality of the decoded text with
the original, and the error list is empty exactly when valid; and after a
successful training on a text containing uppercase ASCII or irregular
whitespace, validating that text reports failure. -/
theorem claim10_validate :
    (∀ (s : BPEState) (text e : Tok), tokenize s text = .error e →
      (validateRoundTrip s text).isValid = false ∧
        (validateRoundTrip s text).errors ≠ []) ∧
    (∀ (s : BPEState) (text : Tok) (toks : List Nat), tokenize s text = .ok toks →
      (((validateRoundTrip s text).isValid = true) ↔ text = detokenize s toks) ∧
      (((validateRoundTrip s text).errors = []) ↔
        (validateRoundTrip s text).isValid = true)) ∧
    (∀ text : Tok, hasUpperAscii text ∨ irregularWS text →
      (train (initState defaultConfig) text).2 = none →
      (validateRoundTrip (train (initState defaultConfig) text).1 text).isValid
        = false) := by
  refine ⟨?_, ?_, ?_⟩
  · intro s text e htk
    unfold validateRoundTrip
    rw [htk]
    exact ⟨rfl, by simp⟩
  · intro s text toks htk
    simp only [validateRoundTrip, htk]
    by_cases heq2 : text = detokenize s toks
    · simp [heq2]
    · simp [heq2]
  · intro text hdef htr
    rcases htk : tokenize (train (initState defaultConfig) text).1 text with e | toks
    · simp only [validateRoundTrip, htk]
    · have hrv : RvClean (train (initState defaultConfig) text).1.config
          (train (initState defaultConfig) text).1.reverseVocabulary := by
        rw [train_config]
        exact train_rvClean (initState defaultConfig) text htr
      have hne : text ≠ detokenize (train (initState defaultConfig) text).1 toks :=
        decoded_ne_defective (train (initState defaultConfig) text).1 hrv toks text hdef
      simp only [validateRoundTrip, htk]
      simp [hne]

/-! ## Canonical texts: lowercase single-space word joins (claim C1) -/

theorem lc_not_upper {c : Char} (h : 'a' ≤ c ∧ c ≤ 'z') : ¬ ('A' ≤ c ∧ c ≤ 'Z') := by
  intro hcon
  have h1 := (char_le_toNat 'a' c).mp h.1
  have h2 := (char_le_toNat c 'Z').mp hcon.2
  have ha : ('a').toNat = 97 := by decide
  have hz : ('Z').toNat = 90 := by decide
  omega

theorem lc_not_ws {c : Char} (h : 'a' ≤ c ∧ c ≤ 'z') : jsIsWS c = false := by
  cases hjs : jsIsWS c with
  | false => rfl
  | true =>
    simp only [jsIsWS, Bool.or_eq_true, decide_eq_true_eq] at hjs
    rcases hjs with ((((rfl | rfl) | rfl) | rfl) | rfl) | rfl <;> exact absurd h (by decide)

theorem canonical_words {W : List Tok} (hlc : ∀ w ∈ W, lcword w) :
    ∀ w ∈ W, w ≠ [] ∧ (∀ c ∈ w, jsIsWS c = false) :=
  fun w hw => ⟨(hlc w hw).1, fun c hc => lc_not_ws ((hlc w hw).2 c hc)⟩

theorem lowerChar_id {c : Char} (h : ¬ ('A' ≤ c ∧ c ≤ 'Z')) : lowerChar c = c := by
  unfold lowerChar
  split
  · rename_i hcond
    simp only [Bool.and_eq_true, decide_eq_true_eq] at hcond
    exact absurd hcond h
  · rfl

theorem lowerT_id {t : Tok} (h : ∀ c ∈ t, ¬ ('A' ≤ c ∧ c ≤ 'Z')) : lowerT t = t := by
  unfold lowerT
  rw [List.map_congr_left (fun c hc => lowerChar_id (h c hc))]
  simp

theorem joinSp_not_upper_lc {W : List Tok} (hlc : ∀ w ∈ W, lcword w) :
    ∀ c ∈ joinSp W, ¬ ('A' ≤ c ∧ c ≤ 'Z') := by
  intro c hc
  rcases joinSp_chars W c hc with rfl | ⟨w, hw, h2⟩
  · decide
  · exact lc_not_upper ((hlc w hw).2 c h2)

theorem dropWhile_of_head (p : Char → Bool) :
    ∀ (l : Tok), (∀ c, l.head? = some c → p c = false) → l.dropWhile p = l
  | [], _ => rfl
  | c :: t, h => by
    rw [List.dropWhile_cons, if_neg (by simp [h c rfl])]

theorem joinSp_head? : ∀ (w : Tok) (W' : List Tok), w ≠ [] →
    (joinSp (w :: W')).head? = w.head?
  | w, [], _ => rfl
  | [], w2 :: ws, h => absurd rfl h
  | c :: w', w2 :: ws, _ => by
    rw [joinSp_cons (c :: w') (by simp), List.cons_append]
    rfl

theorem joinSp_head?_wsfree :
    ∀ (W : List Tok), (∀ w ∈ W, w ≠ [] ∧ (∀ c ∈ w, jsIsWS c = false)) →
      ∀ c, (joinSp W).head? = some c → jsIsWS c = false
  | [], _, c, h => by simp [joinSp] at h
  | w :: W', hws, c, h => by
    rw [joinSp_head? w W' (hws w (List.mem_cons_self _ _)).1] at h
    exact (hws w (List.mem_cons_self _ _)).2 c (head?_mem_list _ _ h)

theorem joinSp_getLast?_wsfree :
    ∀ (W : List Tok), (∀ w ∈ W, w ≠ [] ∧ (∀ c ∈ w, jsIsWS c = false)) →
      ∀ c, (joinSp W).getLast? = some c → jsIsWS c = false
  | [], _, c, h => by simp [joinSp] at h
  | [w], hws, c, h => (hws w (by simp)).2 c (getLast?_mem_list _ _ h)
  | w :: w2 :: ws, hws, c, h => by
    rw [joinSp_cons w (by simp)] at h
    rw [List.getLast?_append_of_ne_nil w (by simp),
      show ' ' :: joinSp (w2 :: ws) = [' '] ++ joinSp (w2 :: ws) from rfl,
      List.getLast?_append_of_ne_nil [' ']
        (joinSp_ne_nil (by simp) (fun x hx => (hws x (List.mem_cons_of_mem _ hx)).1))] at h
    exact joinSp_getLast?_wsfree (w2 :: ws)
      (fun x hx => hws x (List.mem_cons_of_mem _ hx)) c h

theorem jsTrim_id {t : Tok}
    (hh : ∀ c, t.head? = some c → jsIsWS c = false)
    (hl : ∀ c, t.getLast? = some c → jsIsWS c = false) : jsTrim t = t := by
  unfold jsTrim
  rw [dropWhile_of_head jsIsWS t hh,
    dropWhile_of_head jsIsWS t.reverse
      (fun c hc => hl c (by rwa [List.head?_reverse] at hc))]
  exact List.reverse_reverse t

theorem collapseWSGo_nil : ∀ (fuel : Nat), collapseWSGo fuel [] = []
  | 0 => rfl
  | _ + 1 => rfl

theorem collapseWSGo_word : ∀ (w : Tok) (fuel : Nat) (R : Tok),
    (∀ c ∈ w, jsIsWS c = false) → w.length + R.length ≤ fuel →
    collapseWSGo fuel (w ++ R) = w ++ collapseWSGo (fuel - w.length) R
  | [], fuel, R, _, _ => by simp
  | c :: w', 0, R, _, hf => by
    exfalso
    simp at hf
  | c :: w', fuel + 1, R, hw, hf => by
    rw [List.cons_append]
    show collapseWSGo (fuel + 1) (c :: (w' ++ R)) = _
    simp only [collapseWSGo]
    rw [if_neg (by simp [hw c (List.mem_cons_self c w')])]
    rw [collapseWSGo_word w' fuel R (fun d hd => hw d (List.mem_cons_of_mem c hd))
      (by simp only [List.length_cons] at hf; omega)]
    have h1 : fuel + 1 - (c :: w').length = fuel - w'.length := by
      simp only [List.length_cons]
      omega
    rw [h1, List.cons_append]

theorem collapseWS_joinSp :
    ∀ (W : List Tok), (∀ w ∈ W, w ≠ [] ∧ (∀ c ∈ w, jsIsWS c = false)) →
      collapseWS (joinSp W) = joinSp W
  | [], _ => rfl
  | [w], hws => by
    unfold collapseWS
    have h := collapseWSGo_word w (joinSp [w]).length [] (hws w (by simp)).2
      (by simp [joinSp])
    rw [List.append_nil] at h
    rw [show joinSp [w] = w from rfl] at *
    rw [h, collapseWSGo_nil, List.append_nil]
  | w :: w2 :: ws, hws => by
    unfold collapseWS
    rw [joinSp_cons w (by simp)]
    have hlen : w.length + (' ' :: joinSp (w2 :: ws)).length ≤
        (w ++ ' ' :: joinSp (w2 :: ws)).length := by simp
    rw [collapseWSGo_word w _ _ (hws w (List.mem_cons_self _ _)).2 hlen]
    have harith : (w ++ ' ' :: joinSp (w2 :: ws)).length - w.length =
        (joinSp (w2 :: ws)).length + 1 := by simp
    rw [harith]
    show w ++ collapseWSGo ((joinSp (w2 :: ws)).length + 1) (' ' :: joinSp (w2 :: ws)) = _
    simp only [collapseWSGo]
    rw [if_pos (by decide)]
    have hdrop : (joinSp (w2 :: ws)).dropWhile jsIsWS = joinSp (w2 :: ws) :=
      dropWhile_of_head jsIsWS _ (joinSp_head?_wsfree (w2 :: ws)
        (fun x hx => hws x (List.mem_cons_of_mem _ hx)))
    rw [hdrop]
    have hrec := collapseWS_joinSp (w2 :: ws) (fun x hx => hws x (List.mem_cons_of_mem _ hx))
    unfold collapseWS at hrec
    rw [hrec]

theorem splitWSGo_nil : ∀ (fuel : Nat) (acc : Tok), splitWSGo fuel [] acc = [acc.reverse]
  | 0, _ => rfl
  | _ + 1, _ => rfl

theorem splitWSGo_word : ∀ (w : Tok) (fuel : Nat) (s acc : Tok),
    (∀ c ∈ w, jsIsWS c = false) → w.length + s.length ≤ fuel →
    splitWSGo fuel (w ++ s) acc = splitWSGo (fuel - w.length) s (w.reverse ++ acc)
  | [], fuel, s, acc, _, _ => by simp
  | c :: w', 0, s, acc, _, hf => by
    exfalso
    simp at hf
  | c :: w', fuel + 1, s, acc, hw, hf => by
    rw [List.cons_append]
    show splitWSGo (fuel + 1) (c :: (w' ++ s)) acc = _
    simp only [splitWSGo]
    rw [if_neg (by simp [hw c (List.mem_cons_self c w')])]
    rw [splitWSGo_word w' fuel s (c :: acc) (fun d hd => hw d (List.mem_cons_of_mem c hd))
      (by simp only [List.length_cons] at hf; omega)]
    have h1 : fuel + 1 - (c :: w').length = fuel - w'.length := by
      simp only [List.length_cons]
      omega
    rw [h1]
    congr 1
    simp [List.reverse_cons, List.append_assoc]

theorem splitWSGo_joinSp : ∀ (W' : List Tok) (w : Tok) (fuel : Nat) (acc : Tok),
    (∀ x ∈ w :: W', x ≠ [] ∧ (∀ c ∈ x, jsIsWS c = false)) →
    (joinSp (w :: W')).length ≤ fuel →
    splitWSGo fuel (joinSp (w :: W')) acc = (acc.reverse ++ w) :: W'
  | [], w, fuel, acc, hws, hf => by
    rw [show joinSp [w] = w from rfl] at *
    have h := splitWSGo_word w fuel [] acc (hws w (by simp)).2 (by simpa using hf)
    rw [List.append_nil] at h
    rw [h, splitWSGo_nil, List.reverse_append, List.reverse_reverse]
  | w2 :: ws, w, fuel, acc, hws, hf => by
    rw [joinSp_cons w (by simp)] at *
    have hlen : w.length + (' ' :: joinSp (w2 :: ws)).length ≤ fuel := by
      simpa using hf
    rw [splitWSGo_word w fuel _ acc (hws w (List.mem_cons_self _ _)).2 hlen]
    have hpos : (joinSp (w2 :: ws)).length + 1 ≤ fuel - w.length := by
      simp only [List.length_append, List.length_cons] at hf ⊢
      omega
    obtain ⟨f', hf'⟩ : ∃ f', fuel - w.length = f' + 1 :=
      ⟨fuel - w.length - 1, by omega⟩
    rw [hf']
    show splitWSGo (f' + 1) (' ' :: joinSp (w2 :: ws)) (w.reverse ++ acc) = _
    simp only [splitWSGo]
    rw [if_pos (by decide)]
    have hdrop : (joinSp (w2 :: ws)).dropWhile jsIsWS = joinSp (w2 :: ws) :=
      dropWhile_of_head jsIsWS _ (joinSp_head?_wsfree (w2 :: ws)
        (fun x hx => hws x (List.mem_cons_of_mem _ hx)))
    rw [hdrop]
    rw [splitWSGo_joinSp ws w2 f' [] (fun x hx => hws x (List.mem_cons_of_mem _ hx))
      (by omega)]
    simp [List.reverse_append]

theorem splitWS_joinSp (W : List Tok) (hW : W ≠ [])
    (hws : ∀ x ∈ W, x ≠ [] ∧ (∀ c ∈ x, jsIsWS c = false)) :
    splitWS (joinSp W) = W := by
  cases W with
  | nil => exact absurd rfl hW
  | cons w W' =>
    unfold splitWS
    rw [splitWSGo_joinSp W' w _ [] hws (le_refl _)]
    simp

/-- The normalized training word list of a canonical text is its word list. -/
theorem trainWordList_joinSp {W : List Tok} (hW : W ≠ []) (hlc : ∀ w ∈ W, lcword w) :
    trainWordList (joinSp W) = W := by
  unfold trainWordList
  rw [lowerT_id (joinSp_not_upper_lc hlc),
    collapseWS_joinSp W (canonical_words hlc),
    jsTrim_id (joinSp_head?_wsfree W (canonical_words hlc))
      (joinSp_getLast?_wsfree W (canonical_words hlc)),
    splitWS_joinSp W hW (canonical_words hlc)]
  exact List.filter_eq_self.mpr (fun w hw => by simp [(canonical_words hlc w hw).1])

/-- The word list `tokenize` computes on a canonical text is its word list. -/
theorem tokenizeWordList_joinSp {W : List Tok} (hW : W ≠ []) (hlc : ∀ w ∈ W, lcword w) :
    (splitWS (lowerT (joinSp W))).filter (· ≠ []) = W := by
  rw [lowerT_id (joinSp_not_upper_lc hlc), splitWS_joinSp W hW (canonical_words hlc)]
  exact List.filter_eq_self.mpr (fun w hw => by simp [(canonical_words hlc w hw).1])

/-! ## Symbol strings of processed words (claim C1) -/

theorem wordTok_no_space {t : Tok} (h : wordTok t) : ∀ c ∈ t, c ≠ ' ' := by
  intro c hc heq
  have h2 := h.2 c hc
  rw [heq, isWordChar_space] at h2
  exact absurd h2 (by simp)

theorem wordTok_append {a b : Tok} (ha : wordTok a) (hb : wordTok b) :
    wordTok (a ++ b) := by
  refine ⟨by simp [ha.1], ?_⟩
  intro c hc
  rcases List.mem_append.mp hc with h | h
  · exact ha.2 c h
  · exact hb.2 c h

theorem wordTok_ne_eow {t : Tok} (h : wordTok t) : t ≠ eow := by
  intro heq
  subst heq
  exact absurd (h.2 '<' (by decide)) (by decide)

theorem wordTok_not_special {t : Tok} (h : wordTok t) :
    t ∉ defaultConfig.specialTokens := by
  intro hmem
  have hmem' : t ∈ (["<pad>".toList, "<unk>".toList, "<s>".toList, "</s>".toList] :
      List Tok) := hmem
  simp only [List.mem_cons, List.not_mem_nil, or_false] at hmem'
  rcases hmem' with rfl | rfl | rfl | rfl <;>
    exact absurd (h.2 '<' (by decide)) (by decide)

theorem flatten_ne_nil {α : Type} {L : List (List α)} (h2 : L ≠ []) (h : ∀ x ∈ L, x ≠ []) :
    L.flatten ≠ [] := by
  cases L with
  | nil => simp at h2
  | cons x t =>
    simp only [List.flatten_cons]
    intro hc
    rcases List.append_eq_nil.mp hc with ⟨h3, h4⟩
    exact h x (List.mem_cons_self x t) h3

theorem splitChar_cons_eq (sep c : Char) (cs : Tok) :
    splitChar sep (c :: cs) =
      (match splitChar sep cs with
       | [] => [[c]]
       | t :: ts => if c = sep then [] :: t :: ts else (c :: t) :: ts) := rfl

theorem splitChar_single : ∀ (x : Tok), x ≠ [] → (∀ c ∈ x, c ≠ ' ') →
    splitChar ' ' x = [x]
  | [], h, _ => absurd rfl h
  | [c], _, hc => by
    simp only [splitChar]
    rw [if_neg (hc c (by simp))]
  | c :: c2 :: cs, _, hc => by
    have hrec := splitChar_single (c2 :: cs) (by simp)
      (fun d hd => hc d (List.mem_cons_of_mem c hd))
    rw [splitChar_cons_eq, hrec]
    show (if c = ' ' then [] :: (c2 :: cs) :: [] else (c :: c2 :: cs) :: []) =
      [c :: c2 :: cs]
    rw [if_neg (hc c (List.mem_cons_self _ _))]

theorem splitChar_word_append : ∀ (x : Tok) (R : Tok), (∀ c ∈ x, c ≠ ' ') →
    splitChar ' ' (x ++ ' ' :: R) = x :: splitChar ' ' R
  | [], R, _ => by
    rw [List.nil_append]
    rcases heq : splitChar ' ' R with _ | ⟨t0, ts⟩
    · exact absurd heq (splitChar_ne_nil ' ' R)
    · rw [splitChar_cons_eq, heq]
      show (if (' ' : Char) = ' ' then [] :: t0 :: ts else (' ' :: t0) :: ts) =
        [] :: t0 :: ts
      rw [if_pos rfl]
  | c :: x', R, hc => by
    rw [List.cons_append]
    have hrec := splitChar_word_append x' R (fun d hd => hc d (List.mem_cons_of_mem c hd))
    rcases heq : splitChar ' ' (x' ++ ' ' :: R) with _ | ⟨t0, ts⟩
    · exact absurd heq (splitChar_ne_nil ' ' _)
    · rw [heq] at hrec
      injection hrec with h1 h2
      rw [splitChar_cons_eq, heq]
      show (if c = ' ' then [] :: t0 :: ts else (c :: t0) :: ts) =
        (c :: x') :: splitChar ' ' R
      rw [if_neg (hc c (List.mem_cons_self _ _)), h1, h2]

/-- Splitting a space-join of non-empty space-free parts recovers the parts. -/
theorem splitChar_joinSp : ∀ (L : List Tok), L ≠ [] →
    (∀ x ∈ L, x ≠ [] ∧ ∀ c ∈ x, c ≠ ' ') → splitChar ' ' (joinSp L) = L
  | [], h, _ => absurd rfl h
  | [x], _, hx => splitChar_single x (hx x (by simp)).1 (hx x (by simp)).2
  | x :: y :: L', _, hx => by
    rw [joinSp_cons x (by simp),
      splitChar_word_append x _ (hx x (List.mem_cons_self _ _)).2,
      splitChar_joinSp (y :: L') (by simp) (fun z hz => hx z (List.mem_cons_of_mem _ hz))]

theorem sepChars_joinSp : ∀ (w : Tok), sepChars w = joinSp (w.map (fun c => [c]))
  | [] => rfl
  | [c] => rfl
  | c :: c2 :: cs => by
    show c :: ' ' :: sepChars (c2 :: cs) =
      joinSp (List.map (fun c => [c]) (c :: c2 :: cs))
    rw [List.map_cons, joinSp_cons [c] (by simp), sepChars_joinSp (c2 :: cs)]
    rfl

theorem processedWord_eq {w : Tok} (hw : w ≠ []) :
    processedWord w = joinSp (w.map (fun c => [c]) ++ [eow]) := by
  unfold processedWord
  rw [sepChars_joinSp w, joinSp_append_singleton eow (by simpa using hw)]

theorem processedWord_wfKey {w : Tok} (hlc : lcword w) : wfKey (processedWord w) := by
  refine ⟨w.map (fun c => [c]), by simpa using hlc.1, ?_, processedWord_eq hlc.1⟩
  intro t ht
  rcases List.mem_map.mp ht with ⟨c0, hc0, rfl⟩
  refine ⟨by simp, ?_⟩
  intro d hd
  rw [List.mem_singleton.mp hd]
  have h := hlc.2 c0 hc0
  simp [isWordChar, h.1, h.2]

theorem despace_sepfree {x : Tok} (hx : ∀ c ∈ x, c ≠ ' ') : despace x = x :=
  List.filter_eq_self.mpr (fun c hc => by simp [hx c hc])

theorem despace_joinSp : ∀ (L : List Tok), (∀ x ∈ L, ∀ c ∈ x, c ≠ ' ') →
    despace (joinSp L) = L.flatten
  | [], _ => rfl
  | [x], hx => by
    rw [show joinSp [x] = x from rfl, despace_sepfree (hx x (by simp))]
    simp
  | x :: y :: L', hx => by
    rw [joinSp_cons x (by simp), despace_append,
      despace_sepfree (hx x (List.mem_cons_self _ _)),
      show despace (' ' :: joinSp (y :: L')) = despace (joinSp (y :: L')) from by
        simp [despace],
      despace_joinSp (y :: L') (fun z hz => hx z (List.mem_cons_of_mem _ hz))]
    simp [List.flatten_cons]

theorem despace_sepChars : ∀ (w : Tok), (∀ c ∈ w, c ≠ ' ') →
    despace (sepChars w) = w
  | [], _ => rfl
  | [c], hc => by
    show despace [c] = [c]
    simp [despace, hc c (by simp)]
  | c :: c2 :: cs, hc => by
    show despace (c :: ' ' :: sepChars (c2 :: cs)) = c :: c2 :: cs
    rw [show despace (c :: ' ' :: sepChars (c2 :: cs)) =
        c :: despace (sepChars (c2 :: cs)) from by
      simp [despace, hc c (List.mem_cons_self _ _)]]
    rw [despace_sepChars (c2 :: cs) (fun d hd => hc d (List.mem_cons_of_mem c hd))]

theorem despace_processedWord {w : Tok} (hw : ∀ c ∈ w, c ≠ ' ') :
    despace (processedWord w) = w ++ eow := by
  unfold processedWord
  rw [despace_append, despace_sepChars w hw,
    show despace (' ' :: eow) = eow from by decide]

theorem applyMerges_despace : ∀ (ms : List (Tok × Tok)) (k : Tok),
    despace (applyMerges ms k) = despace k
  | [], k => rfl
  | (f, s) :: ms', k => by
    show despace (applyMerges ms' (replaceMerge f s k)) = _
    rw [applyMerges_despace ms' (replaceMerge f s k), replaceMerge_despace]

/-! ## The initial word table of a canonical text (claim C1) -/

theorem lcword_no_space {w : Tok} (h : lcword w) : ∀ c ∈ w, c ≠ ' ' := by
  intro c hc heq
  subst heq
  exact absurd (h.2 ' ' hc) (by decide)

theorem bump_keys_sub {α : Type} [DecidableEq α] (m : List (α × Nat)) (k k' : α) (d : Nat)
    (h : k' ∈ m.map Prod.fst) : k' ∈ (bump m k d).map Prod.fst := by
  unfold bump
  rw [mapSet_keys]
  split
  · exact List.mem_append_left _ h
  · exact h

theorem bump_key_self {α : Type} [DecidableEq α] (m : List (α × Nat)) (k : α) (d : Nat) :
    k ∈ (bump m k d).map Prod.fst := by
  unfold bump
  rw [mapSet_keys]
  split
  · exact List.mem_append_right _ (List.mem_singleton.mpr rfl)
  · rename_i hnone
    have hne : mapGet m k ≠ none := by
      intro hq
      simp [hq] at hnone
    exact not_not.mp (fun hq => hne ((mapGet_eq_none_iff m k).mpr hq))

theorem foldl_bump_keys_mono {α β : Type} [DecidableEq α] (g : β → α) (fn : β → Nat) :
    ∀ (l : List β) (acc : List (α × Nat)) (k : α), k ∈ acc.map Prod.fst →
      k ∈ (l.foldl (fun t y => bump t (g y) (fn y)) acc).map Prod.fst
  | [], _, _, h => h
  | y :: rest, acc, k, h =>
    foldl_bump_keys_mono g fn rest _ k (bump_keys_sub acc (g y) k (fn y) h)

theorem foldl_bump_key_mem {α β : Type} [DecidableEq α] (g : β → α) (fn : β → Nat) :
    ∀ (l : List β) (acc : List (α × Nat)) (x : β), x ∈ l →
      g x ∈ (l.foldl (fun t y => bump t (g y) (fn y)) acc).map Prod.fst
  | [], _, x, hx => by simp at hx
  | y :: rest, acc, x, hx => by
    simp only [List.foldl_cons]
    rcases List.mem_cons.mp hx with rfl | hx2
    · exact foldl_bump_keys_mono g fn rest _ _ (bump_key_self acc (g x) (fn x))
    · exact foldl_bump_key_mem g fn rest _ x hx2

theorem buildWordTable_key_mem {L : List Tok} {w : Tok} (hw : w ∈ L) :
    processedWord w ∈ (buildWordTable L).map Prod.fst :=
  foldl_bump_key_mem (fun w => processedWord w) (fun _ => 1) L [] w hw

theorem buildWordTable_wf {W : List Tok} (hlc : ∀ w ∈ W, lcword w) :
    TableWF (buildWordTable W) := by
  intro e he
  rcases buildWordTable_mem W e he with ⟨w, hw, hkey⟩
  rw [hkey]
  exact processedWord_wfKey (hlc w hw)

theorem buildWordTable_despace_nodup {W : List Tok} (hlc : ∀ w ∈ W, lcword w) :
    ((buildWordTable W).map (fun e => despace e.1)).Nodup := by
  have hkeys : ((buildWordTable W).map Prod.fst).Nodup :=
    foldl_bump_nodup _ _ W [] (by simp)
  have hmm : (buildWordTable W).map (fun e => despace e.1) =
      ((buildWordTable W).map Prod.fst).map despace := by
    rw [List.map_map]
    rfl
  rw [hmm]
  refine List.Nodup.map_on ?_ hkeys
  intro x hx y hy hxy
  rcases List.mem_map.mp hx with ⟨ex, hex, hx1⟩
  rcases List.mem_map.mp hy with ⟨ey, hey, hy1⟩
  rcases buildWordTable_mem W ex hex with ⟨wx, hwx, hkx⟩
  rcases buildWordTable_mem W ey hey with ⟨wy, hwy, hky⟩
  rw [← hx1, ← hy1, hkx, hky] at hxy
  rw [despace_processedWord (lcword_no_space (hlc wx hwx)),
    despace_processedWord (lcword_no_space (hlc wy hwy))] at hxy
  have hww : wx = wy := List.append_cancel_right hxy
  rw [← hx1, ← hy1, hkx, hky, hww]

/-! ## Vocabulary well-formedness through seeding (claim C1) -/

theorem mapSet_pair_vocabOK {v : List (Tok × Nat)} {r : List (Nat × Tok)} {tid : Nat}
    (h : VocabOK v r tid) (tok : Tok) :
    VocabOK (mapSet v tok tid) (mapSet r tid tok) (tid + 1) := by
  obtain ⟨hv, hr, hid, hfwd⟩ := h
  have hrtid : mapGet r tid = none := by
    rw [mapGet_eq_none_iff]
    intro hmem
    rcases List.mem_map.mp hmem with ⟨e, he, hke⟩
    exact absurd (hke ▸ hid e he) (lt_irrefl tid)
  refine ⟨mapSet_keys_nodup v tok tid hv, ?_, ?_, ?_⟩
  · rw [mapSet_append r tid tok hrtid, List.map_append]
    have hnm : tid ∉ r.map Prod.fst := (mapGet_eq_none_iff r tid).mp hrtid
    simp [List.nodup_append, hr, hnm]
  · intro e he
    rcases mapSet_mem _ _ _ _ he with h1 | h1
    · exact lt_trans (hid e h1) (Nat.lt_succ_self tid)
    · rw [h1]
      exact Nat.lt_succ_self tid
  · intro e he
    rcases mapSet_mem _ _ _ _ he with h1 | h1
    · have hf := hfwd e h1
      refine ⟨?_, lt_trans hf.2 (Nat.lt_succ_self tid)⟩
      rw [mapGet_mapSet_ne r tid e.2 tok (Nat.ne_of_lt hf.2)]
      exact hf.1
    · rw [h1]
      exact ⟨mapGet_mapSet_self r tid tok, Nat.lt_succ_self tid⟩

theorem addIfAbsent_vocabOK {v : List (Tok × Nat)} {r : List (Nat × Tok)} {tid : Nat}
    (h : VocabOK v r tid) (tok : Tok) :
    VocabOK (addIfAbsent v r tid tok).1 (addIfAbsent v r tid tok).2.1
      (addIfAbsent v r tid tok).2.2 := by
  unfold addIfAbsent
  split
  · exact mapSet_pair_vocabOK h tok
  · exact h

theorem addIfAbsent_get_mono {v : List (Tok × Nat)} {r : List (Nat × Tok)} {tid : Nat}
    {k : Tok} {x : Nat} (h : mapGet v k = some x) (tok : Tok) :
    mapGet (addIfAbsent v r tid tok).1 k = some x := by
  unfold addIfAbsent
  split
  · rename_i hnone
    have hk : k ≠ tok := by
      intro hq
      rw [hq, hnone] at h
      exact absurd h (by simp)
    rw [mapGet_mapSet_ne v tok k tid hk]
    exact h
  · exact h

theorem addIfAbsent_get_self {v : List (Tok × Nat)} {r : List (Nat × Tok)} {tid : Nat}
    (tok : Tok) : mapGet (addIfAbsent v r tid tok).1 tok ≠ none := by
  unfold addIfAbsent
  split
  · rw [mapGet_mapSet_self]
    simp
  · rename_i hne
    exact hne

theorem addIfAbsent_get_ne_none {v : List (Tok × Nat)} {r : List (Nat × Tok)} {tid : Nat}
    {k : Tok} (h : mapGet v k ≠ none) (tok : Tok) :
    mapGet (addIfAbsent v r tid tok).1 k ≠ none := by
  rcases ho : mapGet v k with _ | x
  · exact absurd ho h
  · rw [addIfAbsent_get_mono ho tok]
    simp

theorem seedChars_vocabOK :
    ∀ (cs : List Tok) (v : List (Tok × Nat)) (r : List (Nat × Tok)) (tid : Nat),
      VocabOK v r tid →
      VocabOK (seedChars v r tid cs).1 (seedChars v r tid cs).2.1
        (seedChars v r tid cs).2.2
  | [], _, _, _, h => h
  | c :: cs, v, r, tid, h => by
    rw [show seedChars v r tid (c :: cs) =
        seedChars (addIfAbsent v r tid c).1 (addIfAbsent v r tid c).2.1
          (addIfAbsent v r tid c).2.2 cs from rfl]
    exact seedChars_vocabOK cs _ _ _ (addIfAbsent_vocabOK h c)

theorem seedChars_get_mono :
    ∀ (cs : List Tok) (v : List (Tok × Nat)) (r : List (Nat × Tok)) (tid : Nat)
      {k : Tok}, mapGet v k ≠ none → mapGet (seedChars v r tid cs).1 k ≠ none
  | [], _, _, _, _, h => h
  | c :: cs, v, r, tid, k, h => by
    rw [show seedChars v r tid (c :: cs) =
        seedChars (addIfAbsent v r tid c).1 (addIfAbsent v r tid c).2.1
          (addIfAbsent v r tid c).2.2 cs from rfl]
    exact seedChars_get_mono cs _ _ _ (addIfAbsent_get_ne_none h c)

theorem seedChars_get_mem :
    ∀ (cs : List Tok) (v : List (Tok × Nat)) (r : List (Nat × Tok)) (tid : Nat)
      {c : Tok}, c ∈ cs → mapGet (seedChars v r tid cs).1 c ≠ none
  | [], _, _, _, c, hc => by simp at hc
  | c0 :: cs, v, r, tid, c, hc => by
    rw [show seedChars v r tid (c0 :: cs) =
        seedChars (addIfAbsent v r tid c0).1 (addIfAbsent v r tid c0).2.1
          (addIfAbsent v r tid c0).2.2 cs from rfl]
    rcases List.mem_cons.mp hc with rfl | h2
    · exact seedChars_get_mono cs _ _ _ (addIfAbsent_get_self c)
    · exact seedChars_get_mem cs _ _ _ h2

theorem seedSpecialsFold_vocabOK :
    ∀ (toks : List Tok) (st : List (Tok × Nat) × List (Nat × Tok) × Nat),
      VocabOK st.1 st.2.1 st.2.2 →
      VocabOK (toks.foldl (fun st tok =>
          (mapSet st.1 tok st.2.2, mapSet st.2.1 st.2.2 tok, st.2.2 + 1)) st).1
        (toks.foldl (fun st tok =>
          (mapSet st.1 tok st.2.2, mapSet st.2.1 st.2.2 tok, st.2.2 + 1)) st).2.1
        (toks.foldl (fun st tok =>
          (mapSet st.1 tok st.2.2, mapSet st.2.1 st.2.2 tok, st.2.2 + 1)) st).2.2
  | [], _, h => h
  | tok :: toks, st, h => by
    simp only [List.foldl_cons]
    exact seedSpecialsFold_vocabOK toks _ (mapSet_pair_vocabOK h tok)

/-- The seeded state is a well-formed vocabulary pair. -/
theorem trainSeed_vocabOK (cfg : TokenizerConfig) (text : Tok) :
    VocabOK (trainSeed cfg text).1 (trainSeed cfg text).2.1
      (trainSeed cfg text).2.2.1 := by
  have h1 : VocabOK (seedSpecials cfg).1 (seedSpecials cfg).2.1 (seedSpecials cfg).2.2 :=
    seedSpecialsFold_vocabOK cfg.specialTokens ([], [], 0)
      ⟨List.nodup_nil, List.nodup_nil, by simp, by simp⟩
  have h2 := seedChars_vocabOK
    (sortToks (collectChars ((buildWordTable (trainWordList text)).map Prod.fst)))
    _ _ _ h1
  have h3 := addIfAbsent_vocabOK h2 eow
  simp only [trainSeed]
  exact h3

theorem addUnique_mem_of {l : List Tok} {x y : Tok} (h : y ∈ l ∨ y = x) :
    y ∈ addUnique l x := by
  unfold addUnique
  split
  · rename_i hmem
    rcases h with h1 | rfl
    · exact h1
    · exact hmem
  · rcases h with h1 | rfl
    · exact List.mem_append_left _ h1
    · exact List.mem_append_right _ (List.mem_singleton.mpr rfl)

theorem collectInner_mem_of :
    ∀ (syms : List Tok) (acc : List Tok) (c : Tok),
      (c ∈ acc ∨ (c ∈ syms ∧ c ≠ eow ∧ c ≠ [])) →
      c ∈ syms.foldl (fun a t => if t ≠ eow ∧ t ≠ [] then addUnique a t else a) acc
  | [], acc, c, h => by
    rcases h with h1 | ⟨h2, _⟩
    · exact h1
    · simp at h2
  | t :: syms, acc, c, h => by
    simp only [List.foldl_cons]
    refine collectInner_mem_of syms _ c ?_
    rcases h with h1 | ⟨h2, h3, h4⟩
    · left
      split
      · exact addUnique_mem_of (Or.inl h1)
      · exact h1
    · rcases List.mem_cons.mp h2 with rfl | h5
      · left
        rw [if_pos ⟨h3, h4⟩]
        exact addUnique_mem_of (Or.inr rfl)
      · right
        exact ⟨h5, h3, h4⟩

theorem collectChars_mono :
    ∀ (keys : List Tok) (acc : List Tok) (c : Tok), c ∈ acc →
      c ∈ keys.foldl (fun acc k => (splitChar ' ' k).foldl
        (fun a t => if t ≠ eow ∧ t ≠ [] then addUnique a t else a) acc) acc
  | [], _, _, h => h
  | k0 :: keys, acc, c, h => by
    simp only [List.foldl_cons]
    exact collectChars_mono keys _ c (collectInner_mem_of _ _ c (Or.inl h))

theorem collectChars_mem_of :
    ∀ (keys : List Tok) (acc : List Tok) (c k : Tok), k ∈ keys →
      c ∈ splitChar ' ' k → c ≠ eow → c ≠ [] →
      c ∈ keys.foldl (fun acc k => (splitChar ' ' k).foldl
        (fun a t => if t ≠ eow ∧ t ≠ [] then addUnique a t else a) acc) acc
  | [], _, _, k, hk, _, _, _ => by simp at hk
  | k0 :: keys, acc, c, k, hk, hc, hne, hnn => by
    simp only [List.foldl_cons]
    rcases List.mem_cons.mp hk with rfl | h2
    · exact collectChars_mono keys _ c (collectInner_mem_of _ _ c (Or.inr ⟨hc, hne, hnn⟩))
    · exact collectChars_mem_of keys _ c k h2 hc hne hnn

theorem insertTok_mem_of : ∀ (l : List Tok) (x y : Tok), (y = x ∨ y ∈ l) →
    y ∈ insertTok x l
  | [], x, y, h => by
    rcases h with rfl | h1
    · simp [insertTok]
    · simp at h1
  | z :: l, x, y, h => by
    unfold insertTok
    split
    · rcases h with rfl | h1
      · exact List.mem_cons_self _ _
      · exact List.mem_cons_of_mem _ h1
    · rcases h with rfl | h1
      · exact List.mem_cons_of_mem _ (insertTok_mem_of l _ _ (Or.inl rfl))
      · rcases List.mem_cons.mp h1 with rfl | h2
        · exact List.mem_cons_self _ _
        · exact List.mem_cons_of_mem _ (insertTok_mem_of l _ _ (Or.inr h2))

theorem sortToks_mem_of : ∀ (l : List Tok) (y : Tok), y ∈ l → y ∈ sortToks l
  | [], y, h => by simp at h
  | x :: l, y, h => by
    simp only [sortToks, List.foldr_cons]
    rcases List.mem_cons.mp h with rfl | h1
    · exact insertTok_mem_of _ _ _ (Or.inl rfl)
    · exact insertTok_mem_of _ _ _ (Or.inr (sortToks_mem_of l y h1))

/-- Every non-empty symbol of every initial table key is present in the seeded
vocabulary. -/
theorem trainSeed_get_syms (cfg : TokenizerConfig) (text : Tok) :
    ∀ k ∈ (buildWordTable (trainWordList text)).map Prod.fst,
      ∀ sym ∈ splitChar ' ' k, sym ≠ [] →
        mapGet (trainSeed cfg text).1 sym ≠ none := by
  intro k hk sym hsym hne
  by_cases heq : sym = eow
  · subst heq
    simp only [trainSeed]
    exact addIfAbsent_get_self eow
  · simp only [trainSeed]
    refine addIfAbsent_get_ne_none ?_ eow
    refine seedChars_get_mem _ _ _ _ ?_
    exact sortToks_mem_of _ _ (collectChars_mem_of _ [] sym k hk hsym heq hne)

/-! ## Adjacent pairs and merge-rule shapes on well-formed tables (claim C1) -/

theorem wfKey_splitChar {k : Tok} {syms : List Tok} (hs0 : syms ≠ [])
    (hsw : ∀ t ∈ syms, wordTok t) (hkeq : k = joinSp (syms ++ [eow])) :
    splitChar ' ' k = syms ++ [eow] := by
  rw [hkeq]
  refine splitChar_joinSp (syms ++ [eow]) (by simp) ?_
  intro x hx
  rcases List.mem_append.mp hx with h1 | h1
  · exact ⟨(hsw x h1).1, wordTok_no_space (hsw x h1)⟩
  · rcases List.mem_singleton.mp h1 with rfl
    exact ⟨by decide, by decide⟩

theorem zip_adj_append_eow :
    ∀ (X : List Tok) (e a b : Tok),
      (a, b) ∈ (X ++ [e]).zip (X ++ [e]).tail →
      (a, b) ∈ X.zip X.tail ∨ (b = e ∧ a ∈ X)
  | [], e, a, b, h => by simp at h
  | [x], e, a, b, h => by
    rcases List.mem_singleton.mp h with heq
    rw [Prod.mk.injEq] at heq
    obtain ⟨rfl, rfl⟩ := heq
    exact Or.inr ⟨rfl, List.mem_singleton.mpr rfl⟩
  | x :: y :: X', e, a, b, h => by
    have hstep : ((x :: y :: X') ++ [e]).zip ((x :: y :: X') ++ [e]).tail =
        (x, y) :: ((y :: X') ++ [e]).zip (((y :: X') ++ [e]).tail) := rfl
    rw [hstep] at h
    rcases List.mem_cons.mp h with heq | h2
    · rw [Prod.mk.injEq] at heq
      obtain ⟨rfl, rfl⟩ := heq
      exact Or.inl (List.mem_cons_self _ _)
    · rcases zip_adj_append_eow (y :: X') e a b h2 with h3 | ⟨h4, h5⟩
      · exact Or.inl (List.mem_cons_of_mem _ h3)
      · exact Or.inr ⟨h4, List.mem_cons_of_mem _ h5⟩

/-- On a well-formed table, a selected merge rule is either a pair of
word-character symbols or a word-character symbol followed by the end-of-word
marker. -/
theorem select_shape {tbl : List (Tok × Nat)} (hwf : TableWF tbl)
    {f s : Tok} (mf : Nat)
    (hsel : selectBest (countPairs tbl) mf = some (f, s)) :
    (wordTok f ∧ wordTok s) ∨ (wordTok f ∧ s = eow) := by
  obtain ⟨p, hpmem, hpsplit⟩ := selectBest_mem _ _ _ hsel
  obtain ⟨e0, he0, he0k⟩ := List.mem_map.mp hpmem
  rcases countPairs_mem tbl e0 he0 with ⟨wf, hwfm, xy, hxy, hkey⟩
  obtain ⟨syms, hs0, hsw, hkeq⟩ := hwf wf hwfm
  rw [wfKey_splitChar hs0 hsw hkeq] at hxy
  rcases zip_adj_append_eow syms eow xy.1 xy.2 hxy with h1 | ⟨h2, h3⟩
  · have hz := List.of_mem_zip h1
    have ha : wordTok xy.1 := hsw _ hz.1
    have hb : wordTok xy.2 := hsw _ (List.mem_of_mem_tail hz.2)
    have hp : p = pairKey xy.1 xy.2 := by rw [← he0k, hkey]
    have hfs : (f, s) = (xy.1, xy.2) := by
      rw [hpsplit, hp, splitPair_pairKey (wordTok_no_space ha) (wordTok_no_space hb)]
    obtain ⟨rfl, rfl⟩ : f = xy.1 ∧ s = xy.2 := by
      rw [Prod.mk.injEq] at hfs
      exact hfs
    exact Or.inl ⟨ha, hb⟩
  · have ha : wordTok xy.1 := hsw _ h3
    have hp : p = pairKey xy.1 eow := by rw [← he0k, hkey, h2]
    have hfs : (f, s) = (xy.1, eow) := by
      rw [hpsplit, hp, splitPair_pairKey (wordTok_no_space ha) (by decide)]
    obtain ⟨rfl, rfl⟩ : f = xy.1 ∧ s = eow := by
      rw [Prod.mk.injEq] at hfs
      exact hfs
    exact Or.inr ⟨ha, rfl⟩

/-- On a table with distinct despaced keys, the `applyMerge` rebuild is a
plain map over the entries. -/
theorem applyMerge_eq_map {tbl : List (Tok × Nat)} (f s : Tok)
    (hnd : (tbl.map (fun e => despace e.1)).Nodup) :
    applyMerge tbl f s = tbl.map (fun e => (replaceMerge f s e.1, e.2)) := by
  have key : (tbl.map (fun wf => replaceMerge f s wf.1)).map despace =
      tbl.map (fun wf => despace wf.1) := by
    rw [List.map_map]
    exact List.map_congr_left (fun x _ => replaceMerge_despace f s x.1)
  have hnodup : (tbl.map (fun wf => replaceMerge f s wf.1)).Nodup := by
    have h2 := hnd
    rw [← key] at h2
    exact h2.of_map
  have := foldl_mapSet_map (fun k => replaceMerge f s k) tbl [] (by simpa using hnodup)
  simpa [applyMerge] using this

theorem map_applyMerges_nil (tbl : List (Tok × Nat)) :
    tbl.map (fun e => (applyMerges [] e.1, e.2)) = tbl := by
  have heta : (fun (e : Tok × Nat) => (applyMerges [] e.1, e.2)) = fun e => e := by
    funext e
    rfl
  rw [heta]
  simp

theorem map_applyMerges_cons (f s : Tok) (ms : List (Tok × Tok))
    (tbl : List (Tok × Nat)) :
    (tbl.map (fun e => (replaceMerge f s e.1, e.2))).map
      (fun e => (applyMerges ms e.1, e.2)) =
      tbl.map (fun e => (applyMerges ((f, s) :: ms) e.1, e.2)) := by
  rw [List.map_map]
  rfl

theorem despace_map_replaceMerge (f s : Tok) (tbl : List (Tok × Nat)) :
    (tbl.map (fun e => (replaceMerge f s e.1, e.2))).map (fun e => despace e.1) =
      tbl.map (fun e => despace e.1) := by
  rw [List.map_map]
  exact List.map_congr_left (fun x _ => replaceMerge_despace f s x.1)

/-! ## The merge loop preserves well-formedness (claim C1) -/

theorem trainLoopAux_wf (cfg : TokenizerConfig) :
    ∀ (fuel : Nat) (v : List (Tok × Nat)) (r : List (Nat × Tok)) (tid : Nat)
      (ms : List (Tok × Tok)) (tbl : List (Tok × Nat)),
      LoopInv v r tid tbl →
      LoopInv (trainLoopAux cfg fuel v r tid ms tbl).1
        (trainLoopAux cfg fuel v r tid ms tbl).2.1
        (trainLoopAux cfg fuel v r tid ms tbl).2.2.1
        (trainLoopAux cfg fuel v r tid ms tbl).2.2.2.2 ∧
      ∃ ms', (trainLoopAux cfg fuel v r tid ms tbl).2.2.2.1 = ms ++ ms' ∧
        (trainLoopAux cfg fuel v r tid ms tbl).2.2.2.2 =
          tbl.map (fun e => (applyMerges ms' e.1, e.2))
  | 0, v, r, tid, ms, tbl, hinv =>
    ⟨hinv, [], by simp [trainLoopAux], (map_applyMerges_nil tbl).symm⟩
  | fuel + 1, v, r, tid, ms, tbl, hinv => by
    simp only [trainLoopAux]
    split
    · split
      · exact ⟨hinv, [], by simp, (map_applyMerges_nil tbl).symm⟩
      · rcases hsel : selectBest (countPairs tbl) (orDefault cfg.minFreq 2) with _ | ⟨f, s⟩
        · simp only [hsel]
          exact ⟨hinv, [], by simp, (map_applyMerges_nil tbl).symm⟩
        · simp only [hsel]
          obtain ⟨hvOK, hwf, hsv, hnd⟩ := hinv
          have hvOK' := addIfAbsent_vocabOK hvOK (f ++ s)
          rcases select_shape hwf _ hsel with ⟨hf, hs⟩ | ⟨hf, rfl⟩
          · have happ : applyMerge tbl f s =
                tbl.map (fun e => (replaceMerge f s e.1, e.2)) :=
              applyMerge_eq_map f s hnd
            have hinv' : LoopInv (addIfAbsent v r tid (f ++ s)).1
                (addIfAbsent v r tid (f ++ s)).2.1
                (addIfAbsent v r tid (f ++ s)).2.2
                (applyMerge tbl f s) := by
              refine ⟨hvOK', ?_, ?_, ?_⟩
              · intro e he
                rw [happ] at he
                rcases List.mem_map.mp he with ⟨e0, he0, rfl⟩
                obtain ⟨syms, hs0, hsw, hkeq⟩ := hwf e0 he0
                refine ⟨specMergeSyms f s syms, specMergeSyms_ne_nil f s hs0, ?_, ?_⟩
                · intro t ht
                  rcases specMergeSyms_mem f s syms.length syms (le_refl _) t ht
                    with h1 | rfl
                  · exact hsw t h1
                  · exact wordTok_append hf hs
                · show replaceMerge f s e0.1 = _
                  rw [hkeq]
                  exact replaceMerge_wfKey hf hs hs0 hsw
              · intro e he sym hsym
                rw [happ] at he
                rcases List.mem_map.mp he with ⟨e0, he0, rfl⟩
                obtain ⟨syms, hs0, hsw, hkeq⟩ := hwf e0 he0
                have hkey' : replaceMerge f s e0.1 =
                    joinSp (specMergeSyms f s syms ++ [eow]) := by
                  rw [hkeq]
                  exact replaceMerge_wfKey hf hs hs0 hsw
                have hsplit' : splitChar ' ' (replaceMerge f s e0.1) =
                    specMergeSyms f s syms ++ [eow] :=
                  wfKey_splitChar (specMergeSyms_ne_nil f s hs0)
                    (fun t ht => by
                      rcases specMergeSyms_mem f s syms.length syms (le_refl _) t ht
                        with h1 | rfl
                      · exact hsw t h1
                      · exact wordTok_append hf hs) hkey'
                have hsym' : sym ∈ splitChar ' ' (replaceMerge f s e0.1) := hsym
                rw [hsplit'] at hsym'
                have hold := hsv e0 he0
                rw [wfKey_splitChar hs0 hsw hkeq] at hold
                rcases List.mem_append.mp hsym' with h1 | h1
                · rcases specMergeSyms_mem f s syms.length syms (le_refl _) sym h1
                    with h2 | rfl
                  · exact addIfAbsent_get_ne_none
                      (hold sym (List.mem_append_left _ h2)) _
                  · exact addIfAbsent_get_self (f ++ s)
                · rcases List.mem_singleton.mp h1 with rfl
                  exact addIfAbsent_get_ne_none
                    (hold eow (List.mem_append_right _ (List.mem_singleton.mpr rfl))) _
              · rw [happ, despace_map_replaceMerge]
                exact hnd
            obtain ⟨hinvOut, ms'', hms, htbl⟩ :=
              trainLoopAux_wf cfg fuel _ _ _ (ms ++ [(f, s)]) (applyMerge tbl f s) hinv'
            refine ⟨hinvOut, (f, s) :: ms'', ?_, ?_⟩
            · rw [hms]
              simp
            · rw [htbl, happ, map_applyMerges_cons]
          · have hid : applyMerge tbl f eow = tbl := by
              rw [applyMerge_eq_map f eow hnd]
              have hcongr : ∀ e ∈ tbl,
                  ((replaceMerge f eow e.1, e.2) : Tok × Nat) = e := by
                intro e he
                obtain ⟨syms, hs0, hsw, hkeq⟩ := hwf e he
                have h1 : replaceMerge f eow e.1 = e.1 := by
                  rw [hkeq]
                  exact replaceMerge_eow_rule hf hs0 hsw
                rw [h1]
              rw [List.map_congr_left hcongr]
              simp
            have hinv' : LoopInv (addIfAbsent v r tid (f ++ eow)).1
                (addIfAbsent v r tid (f ++ eow)).2.1
                (addIfAbsent v r tid (f ++ eow)).2.2
                (applyMerge tbl f eow) := by
              rw [hid]
              refine ⟨hvOK', hwf, ?_, hnd⟩
              intro e he sym hsym
              exact addIfAbsent_get_ne_none (hsv e he sym hsym) _
            obtain ⟨hinvOut, ms'', hms, htbl⟩ :=
              trainLoopAux_wf cfg fuel _ _ _ (ms ++ [(f, eow)]) (applyMerge tbl f eow)
                hinv'
            refine ⟨hinvOut, (f, eow) :: ms'', ?_, ?_⟩
            · rw [hms]
              simp
            · rw [htbl, hid]
              refine List.map_congr_left ?_
              intro e he
              obtain ⟨syms, hs0, hsw, hkeq⟩ := hwf e he
              have h1 : replaceMerge f eow e.1 = e.1 := by
                rw [hkeq]
                exact replaceMerge_eow_rule hf hs0 hsw
              show (applyMerges ms'' e.1, e.2) = (applyMerges ((f, eow) :: ms'') e.1, e.2)
              rw [show applyMerges ((f, eow) :: ms'') e.1 =
                  applyMerges ms'' (replaceMerge f eow e.1) from rfl, h1]
    · exact ⟨hinv, [], by simp, (map_applyMerges_nil tbl).symm⟩

/-! ## Per-word encoding and decoding blocks (claim C1) -/

theorem forall₂_mono {α β : Type} {R S : α → β → Prop} (h : ∀ a b, R a b → S a b) :
    ∀ {l₁ : List α} {l₂ : List β}, List.Forall₂ R l₁ l₂ → List.Forall₂ S l₁ l₂
  | _, _, List.Forall₂.nil => List.Forall₂.nil
  | _, _, List.Forall₂.cons hr ht => List.Forall₂.cons (h _ _ hr) (forall₂_mono h ht)

theorem forall₂_map_of_mem {α β : Type} {R : α → β → Prop} (g : α → β) :
    ∀ (l : List α), (∀ x ∈ l, R x (g x)) → List.Forall₂ R l (l.map g)
  | [], _ => List.Forall₂.nil
  | x :: l, h => List.Forall₂.cons (h x (List.mem_cons_self _ _))
      (forall₂_map_of_mem g l (fun y hy => h y (List.mem_cons_of_mem _ hy)))

theorem foldl_append_eq_flatten_map {α : Type} (g : α → List Nat) :
    ∀ (L : List α) (acc : List Nat),
      L.foldl (fun a x => a ++ g x) acc = acc ++ (L.map g).flatten
  | [], acc => by simp
  | x :: L, acc => by
    simp only [List.foldl_cons]
    rw [foldl_append_eq_flatten_map g L (acc ++ g x)]
    simp [List.append_assoc]

/-- The id-emitting fold of `tokenizeWord`, when every part resolves in the
vocabulary. -/
theorem tokenizeWord_eq (s : BPEState) :
    ∀ (parts : List Tok) (acc : List Nat),
      (∀ p ∈ parts, mapGet s.vocabulary p ≠ none) →
      ∃ ids, parts.foldl
          (fun acc part =>
            match mapGet s.vocabulary part with
            | some id => acc ++ [id]
            | none =>
              match mapGet s.vocabulary s.config.unknownToken with
              | some unk => acc ++ [unk]
              | none => acc) acc = acc ++ ids ∧
        List.Forall₂ (fun p i => mapGet s.vocabulary p = some i) parts ids
  | [], _, _ => ⟨[], by simp, List.Forall₂.nil⟩
  | p :: parts, acc, h => by
    rcases hp : mapGet s.vocabulary p with _ | i
    · exact absurd hp (h p (List.mem_cons_self _ _))
    · simp only [List.foldl_cons, hp]
      obtain ⟨ids, hfold, hcorr⟩ := tokenizeWord_eq s parts (acc ++ [i])
        (fun q hq => h q (List.mem_cons_of_mem _ hq))
      refine ⟨i :: ids, ?_, List.Forall₂.cons hp hcorr⟩
      rw [hfold]
      simp

/-- The encoded block of one word on a well-formed trained state: the symbol
ids followed by the end-of-word id. -/
theorem tokenizeWord_block (s : BPEState) {w : Tok} {syms : List Tok}
    (hkeq : applyMerges s.merges (processedWord w) = joinSp (syms ++ [eow]))
    (hs0 : syms ≠ []) (hsw : ∀ t ∈ syms, wordTok t)
    (hv : ∀ sym ∈ splitChar ' ' (applyMerges s.merges (processedWord w)),
      mapGet s.vocabulary sym ≠ none) :
    ∃ (sids : List Nat) (ie : Nat), tokenizeWord s w = sids ++ [ie] ∧
      List.Forall₂ (fun p i => mapGet s.vocabulary p = some i) syms sids ∧
      mapGet s.vocabulary eow = some ie := by
  have hsplit : splitChar ' ' (applyMerges s.merges (processedWord w)) =
      syms ++ [eow] := wfKey_splitChar hs0 hsw hkeq
  rw [hsplit] at hv
  have hparts : (splitChar ' ' (applyMerges s.merges (processedWord w))).filter
      (· ≠ []) = syms ++ [eow] := by
    rw [hsplit]
    refine List.filter_eq_self.mpr ?_
    intro x hx
    rcases List.mem_append.mp hx with h1 | h1
    · simp [(hsw x h1).1]
    · rcases List.mem_singleton.mp h1 with rfl
      decide
  rcases hie : mapGet s.vocabulary eow with _ | ie
  · exact absurd hie
      (hv eow (List.mem_append_right _ (List.mem_singleton.mpr rfl)))
  · obtain ⟨sids, hfold, hcorr⟩ := tokenizeWord_eq s syms []
      (fun q hq => hv q (List.mem_append_left _ hq))
    refine ⟨sids, ie, ?_, hcorr, rfl⟩
    simp only [tokenizeWord]
    rw [hparts, List.foldl_append, hfold]
    simp only [List.nil_append, List.foldl_cons, List.foldl_nil, hie]

/-- Decoding the symbol ids of one word appends the concatenated symbols to
the current buffer. -/
theorem detokLoop_sym_block (s : BPEState)
    (hspec : s.config.specialTokens = defaultConfig.specialTokens) :
    ∀ (syms : List Tok) (sids : List Nat),
      List.Forall₂ (fun p i => mapGet s.reverseVocabulary i = some p) syms sids →
      (∀ p ∈ syms, wordTok p) →
      ∀ (rest : List Nat) (ws : List Tok) (cur : Tok),
        detokLoop s (sids ++ rest) ws cur = detokLoop s rest ws (cur ++ syms.flatten)
  | [], sids, hf, _, rest, ws, cur => by
    cases hf
    simp
  | p :: syms, sids, hf, hw, rest, ws, cur => by
    cases hf with
    | cons hpi htail =>
      rename_i i sids'
      have hp := hw p (List.mem_cons_self _ _)
      have hstep : detokLoop s (i :: (sids' ++ rest)) ws cur =
          detokLoop s (sids' ++ rest) ws (cur ++ p) := by
        simp only [detokLoop, hpi]
        rw [if_neg hp.1, if_neg (wordTok_ne_eow hp), hspec,
          if_neg (wordTok_not_special hp)]
      rw [List.cons_append, hstep,
        detokLoop_sym_block s hspec syms sids' htail
          (fun q hq => hw q (List.mem_cons_of_mem _ hq)) rest ws (cur ++ p)]
      congr 1
      simp [List.flatten_cons, List.append_assoc]

/-- Decoding a concatenation of word blocks collects exactly the words. -/
theorem detokLoop_blocks (s : BPEState)
    (hspec : s.config.specialTokens = defaultConfig.specialTokens) :
    ∀ (W : List Tok) (idss : List (List Nat)),
      List.Forall₂ (fun w ids => ∃ (syms : List Tok) (sids : List Nat) (ie : Nat),
        ids = sids ++ [ie] ∧
        List.Forall₂ (fun p i => mapGet s.reverseVocabulary i = some p) syms sids ∧
        (∀ p ∈ syms, wordTok p) ∧ syms ≠ [] ∧ syms.flatten = w ∧
        mapGet s.reverseVocabulary ie = some eow) W idss →
      ∀ ws, detokLoop s idss.flatten ws [] = ws ++ W
  | [], idss, hf, ws => by
    cases hf
    simp [detokLoop]
  | w :: W', idss, hf, ws => by
    cases idss with
    | nil => exact (nomatch hf)
    | cons ids tl =>
      cases hf with
      | cons hblock htail =>
        obtain ⟨syms, sids, ie, hids, hcorr, hwall, hs0, hflat, hie⟩ := hblock
        rw [List.flatten_cons, hids, List.append_assoc,
          detokLoop_sym_block s hspec syms sids hcorr hwall _ ws [],
          List.nil_append, hflat]
        have hwne : w ≠ [] := by
          rw [← hflat]
          exact flatten_ne_nil hs0 (fun x hx => (hwall x hx).1)
        have hstep : detokLoop s ([ie] ++ tl.flatten) ws w =
            detokLoop s tl.flatten (ws ++ [w]) [] := by
          rw [List.cons_append, List.nil_append]
          simp only [detokLoop, hie]
          rw [if_pos trivial, if_pos hwne,
            if_neg (show ¬ (eow = ([] : Tok)) by decide)]
        rw [hstep, detokLoop_blocks s hspec W' tl htail (ws ++ [w])]
        simp

/-! ## Round trip on canonical input (claim C1) -/

theorem trainSeed_loopInv (cfg : TokenizerConfig) {W : List Tok} (hW : W ≠ [])
    (hlc : ∀ w ∈ W, lcword w) :
    LoopInv (trainSeed cfg (joinSp W)).1 (trainSeed cfg (joinSp W)).2.1
      (trainSeed cfg (joinSp W)).2.2.1 (trainSeed cfg (joinSp W)).2.2.2 := by
  have hwl : trainWordList (joinSp W) = W := trainWordList_joinSp hW hlc
  have htbl : (trainSeed cfg (joinSp W)).2.2.2 = buildWordTable W := by
    show buildWordTable (trainWordList (joinSp W)) = buildWordTable W
    rw [hwl]
  refine ⟨trainSeed_vocabOK _ _, ?_, ?_, ?_⟩
  · rw [htbl]
    exact buildWordTable_wf hlc
  · intro e he sym hsym
    rw [htbl] at he
    obtain ⟨syms, hs0, hsw, hkeq⟩ := buildWordTable_wf hlc e he
    have hsym' := hsym
    rw [wfKey_splitChar hs0 hsw hkeq] at hsym'
    have hne : sym ≠ [] := by
      rcases List.mem_append.mp hsym' with h1 | h1
      · exact (hsw sym h1).1
      · rcases List.mem_singleton.mp h1 with rfl
        decide
    refine trainSeed_get_syms cfg (joinSp W) e.1 ?_ sym hsym hne
    show e.1 ∈ (buildWordTable (trainWordList (joinSp W))).map Prod.fst
    rw [hwl]
    exact List.mem_map_of_mem _ he
  · rw [htbl]
    exact buildWordTable_despace_nodup hlc

set_option maxHeartbeats 4000000 in
/-- C1: training on a non-empty single-space join of non-empty lowercase
alphabetic words succeeds, tokenizing that text yields an id sequence, and
detokenizing it returns exactly the input text; in particular for
`"hello world"`. -/
theorem claim1_round_trip :
    (∀ (W : List Tok), W ≠ [] → (∀ w ∈ W, lcword w) →
      (train (initState defaultConfig) (joinSp W)).2 = none ∧
      ∃ ids, tokenize (train (initState defaultConfig) (joinSp W)).1 (joinSp W) =
          Except.ok ids ∧
        detokenize (train (initState defaultConfig) (joinSp W)).1 ids = joinSp W) ∧
    ((train (initState defaultConfig) "hello world".toList).2 = none ∧
      ∃ ids, tokenize (train (initState defaultConfig) "hello world".toList).1
          "hello world".toList = Except.ok ids ∧
        detokenize (train (initState defaultConfig) "hello world".toList).1 ids =
          "hello world".toList) := by
  have main : ∀ (W : List Tok), W ≠ [] → (∀ w ∈ W, lcword w) →
      (train (initState defaultConfig) (joinSp W)).2 = none ∧
      ∃ ids, tokenize (train (initState defaultConfig) (joinSp W)).1 (joinSp W) =
          Except.ok ids ∧
        detokenize (train (initState defaultConfig) (joinSp W)).1 ids = joinSp W := by
    intro W hW hlc
    have hcanon := canonical_words hlc
    have htrim : jsTrim (joinSp W) = joinSp W :=
      jsTrim_id (joinSp_head?_wsfree W hcanon) (joinSp_getLast?_wsfree W hcanon)
    have hTne : joinSp W ≠ [] := joinSp_ne_nil hW (fun w hw => (hcanon w hw).1)
    have htrimne : jsTrim (joinSp W) ≠ [] := by
      rw [htrim]
      exact hTne
    set sd := trainSeed (initState defaultConfig).config (joinSp W) with hsd
    have hsdtbl : sd.2.2.2 = buildWordTable (trainWordList (joinSp W)) := rfl
    have hinv := trainSeed_loopInv (initState defaultConfig).config hW hlc
    rw [← hsd] at hinv
    clear_value sd
    set out := trainLoopAux (initState defaultConfig).config
      (orDefault (initState defaultConfig).config.maxMerges 500)
      sd.1 sd.2.1 sd.2.2.1 [] sd.2.2.2 with hout
    clear_value out
    have hall := trainLoopAux_wf (initState defaultConfig).config
      (orDefault (initState defaultConfig).config.maxMerges 500)
      sd.1 sd.2.1 sd.2.2.1 [] sd.2.2.2 hinv
    rw [← hout] at hall
    obtain ⟨⟨hvOK, hwf, hsv, hnd⟩, ms', hms, htbleq⟩ := hall
    rw [List.nil_append] at hms
    set S : BPEState :=
      { vocabulary := out.1, reverseVocabulary := out.2.1,
        merges := out.2.2.2.1, config := (initState defaultConfig).config } with hS
    have htrain : train (initState defaultConfig) (joinSp W) = (S, none) := by
      rw [hS, hout, hsd]
      unfold train
      rw [if_neg htrimne]
    have hSv : S.vocabulary = out.1 := rfl
    have hSr : S.reverseVocabulary = out.2.1 := rfl
    have hSm : S.merges = out.2.2.2.1 := rfl
    have hScfg : S.config.specialTokens = defaultConfig.specialTokens := rfl
    rw [← hSv, ← hSr] at hvOK
    rw [← hSv] at hsv
    have hmerges : S.merges = ms' := by
      rw [hSm]
      exact hms
    have hblock : ∀ w ∈ W, ∃ (syms : List Tok) (sids : List Nat) (ie : Nat),
        tokenizeWord S w = sids ++ [ie] ∧
        List.Forall₂ (fun p i => mapGet S.reverseVocabulary i = some p) syms sids ∧
        (∀ p ∈ syms, wordTok p) ∧ syms ≠ [] ∧ syms.flatten = w ∧
        mapGet S.reverseVocabulary ie = some eow := by
      intro w hw
      have hk0 : processedWord w ∈ (sd.2.2.2).map Prod.fst := by
        rw [hsdtbl, trainWordList_joinSp hW hlc]
        exact buildWordTable_key_mem hw
      obtain ⟨e, he, hek⟩ := List.mem_map.mp hk0
      have hfe : (applyMerges ms' e.1, e.2) ∈ out.2.2.2.2 := by
        rw [htbleq]
        exact List.mem_map_of_mem _ he
      obtain ⟨syms, hs0, hsw, hkeq⟩ := hwf _ hfe
      have hsyv := hsv _ hfe
      have hKey : applyMerges S.merges (processedWord w) = joinSp (syms ++ [eow]) := by
        rw [hmerges, ← hek]
        exact hkeq
      have hv2 : ∀ sym ∈ splitChar ' ' (applyMerges S.merges (processedWord w)),
          mapGet S.vocabulary sym ≠ none := by
        intro sym hsym
        rw [hmerges, ← hek] at hsym
        exact hsyv sym hsym
      obtain ⟨sids, ie, hword, hcorr, hie⟩ := tokenizeWord_block S hKey hs0 hsw hv2
      have hcorr' : List.Forall₂
          (fun p i => mapGet S.reverseVocabulary i = some p) syms sids :=
        forall₂_mono (fun p i h => (hvOK.2.2.2 _ (mapGet_mem _ _ _ h)).1) hcorr
      have hie' : mapGet S.reverseVocabulary ie = some eow :=
        (hvOK.2.2.2 _ (mapGet_mem _ _ _ hie)).1
      have hflat : syms.flatten = w := by
        have hd1 : despace (applyMerges S.merges (processedWord w)) =
            despace (processedWord w) := applyMerges_despace _ _
        rw [hKey, despace_joinSp (syms ++ [eow]) ?spacefree,
          despace_processedWord (lcword_no_space (hlc w hw)),
          List.flatten_append] at hd1
        case spacefree =>
          intro x hx
          rcases List.mem_append.mp hx with h1 | h1
          · exact wordTok_no_space (hsw x h1)
          · rcases List.mem_singleton.mp h1 with rfl
            decide
        simp only [List.flatten_cons, List.flatten_nil, List.append_nil] at hd1
        exact List.append_cancel_right hd1
      exact ⟨syms, sids, ie, hword, hcorr', hsw, hs0, hflat, hie'⟩
    have hvne : S.vocabulary ≠ [] := by
      obtain ⟨w0, hw0⟩ : ∃ w0, w0 ∈ W := by
        cases W with
        | nil => exact absurd rfl hW
        | cons a l => exact ⟨a, List.mem_cons_self _ _⟩
      have hk0 : processedWord w0 ∈ (sd.2.2.2).map Prod.fst := by
        rw [hsdtbl, trainWordList_joinSp hW hlc]
        exact buildWordTable_key_mem hw0
      obtain ⟨e, he, hek⟩ := List.mem_map.mp hk0
      have hfe : (applyMerges ms' e.1, e.2) ∈ out.2.2.2.2 := by
        rw [htbleq]
        exact List.mem_map_of_mem _ he
      obtain ⟨syms, hs0, hsw, hkeq⟩ := hwf _ hfe
      have heowv := hsv _ hfe eow (by
        rw [wfKey_splitChar hs0 hsw hkeq]
        exact List.mem_append_right _ (List.mem_singleton.mpr rfl))
      intro hq
      rw [hq] at heowv
      exact heowv rfl
    have htok : tokenize S (joinSp W) =
        Except.ok ((W.map (tokenizeWord S)).flatten) := by
      unfold tokenize
      rw [if_neg hvne, if_neg hTne]
      congr 1
      rw [tokenizeWordList_joinSp hW hlc,
        foldl_append_eq_flatten_map (tokenizeWord S) W []]
      simp
    have hblocks : List.Forall₂ (fun w ids =>
        ∃ (syms : List Tok) (sids : List Nat) (ie : Nat),
          ids = sids ++ [ie] ∧
          List.Forall₂ (fun p i => mapGet S.reverseVocabulary i = some p) syms sids ∧
          (∀ p ∈ syms, wordTok p) ∧ syms ≠ [] ∧ syms.flatten = w ∧
          mapGet S.reverseVocabulary ie = some eow) W (W.map (tokenizeWord S)) :=
      forall₂_map_of_mem (tokenizeWord S) W (fun w hw => by
        obtain ⟨syms, sids, ie, hword, hcorr', hsw, hs0, hflat, hie'⟩ := hblock w hw
        exact ⟨syms, sids, ie, hword, hcorr', hsw, hs0, hflat, hie'⟩)
    have hidsne : (W.map (tokenizeWord S)).flatten ≠ [] := by
      refine flatten_ne_nil (by simpa using hW) ?_
      intro x hx
      rcases List.mem_map.mp hx with ⟨w, hw, rfl⟩
      obtain ⟨syms, sids, ie, hword, _, _, _, _, _⟩ := hblock w hw
      rw [hword]
      simp
    have hdetok : detokenize S ((W.map (tokenizeWord S)).flatten) = joinSp W := by
      unfold detokenize
      rw [if_neg hidsne, detokLoop_blocks S hScfg W (W.map (tokenizeWord S)) hblocks []]
      simp
    refine ⟨?_, (W.map (tokenizeWord S)).flatten, ?_, ?_⟩
    · rw [htrain]
    · rw [htrain]
      exact htok
    · rw [htrain]
      exact hdetok
  refine ⟨main, ?_⟩
  have hjoin : joinSp ["hello".toList, "world".toList] = "hello world".toList := by
    decide
  have hwords : ∀ w ∈ (["hello".toList, "world".toList] : List Tok), lcword w := by
    intro w hw
    simp only [List.mem_cons, List.not_mem_nil, or_false] at hw
    rcases hw with rfl | rfl <;> exact ⟨by decide, by decide⟩
  have h2 := main ["hello".toList, "world".toList] (by simp) hwords
  rwa [hjoin] at h2

theorem claim1_witness :
    (["hello".toList, "world".toList] : List Tok) ≠ [] ∧
    (∀ w ∈ (["hello".toList, "world".toList] : List Tok), lcword w) ∧
    (train (initState defaultConfig)
        (joinSp ["hello".toList, "world".toList])).2 = none ∧
    ∃ ids, tokenize (train (initState defaultConfig)
          (joinSp ["hello".toList, "world".toList])).1
        (joinSp ["hello".toList, "world".toList]) = Except.ok ids ∧
      detokenize (train (initState defaultConfig)
          (joinSp ["hello".toList, "world".toList])).1 ids =
        joinSp ["hello".toList, "world".toList] := by
  have hW : (["hello".toList, "world".toList] : List Tok) ≠ [] := by simp
  have hlc : ∀ w ∈ (["hello".toList, "world".toList] : List Tok), lcword w := by
    intro w hw
    simp only [List.mem_cons, List.not_mem_nil, or_false] at hw
    rcases hw with rfl | rfl <;> exact ⟨by decide, by decide⟩
  obtain ⟨h1, h2⟩ := claim1_round_trip.1 ["hello".toList, "world".toList] hW hlc
  exact ⟨hW, hlc, h1, h2⟩

/-! ## Export / import (claim C9) -/

theorem insertByNat_perm {α : Type} (f : α → Nat) (x : α) :
    ∀ l : List α, (insertByNat f x l).Perm (x :: l)
  | [] => List.Perm.refl _
  | y :: ys => by
    simp only [insertByNat]
    split
    · exact List.Perm.refl _
    · exact ((insertByNat_perm f x ys).cons y).trans (List.Perm.swap x y ys)

theorem sortByNat_perm {α : Type} (f : α → Nat) :
    ∀ l : List α, (sortByNat f l).Perm l
  | [] => List.Perm.refl _
  | x :: xs => by
    simp only [sortByNat, List.foldr_cons]
    exact (insertByNat_perm f x _).trans ((sortByNat_perm f xs).cons x)

theorem objOrderStr_perm (m : List (Tok × Nat)) : (objOrderStr m).Perm m := by
  unfold objOrderStr
  have hneg : (fun (e : Tok × Nat) => decide ¬ isArrayIndex e.1 = true) =
      fun (e : Tok × Nat) => ! isArrayIndex e.1 := by
    funext e
    cases h : isArrayIndex e.1 <;> simp [h]
  have h2 : (m.filter (fun e => isArrayIndex e.1) ++
      m.filter (fun e => ¬ isArrayIndex e.1)).Perm m := by
    rw [show (fun (e : Tok × Nat) => decide ¬ isArrayIndex e.1 = true) =
        fun (e : Tok × Nat) => ! isArrayIndex e.1 from hneg]
    exact List.filter_append_perm _ m
  exact ((sortByNat_perm _ _).append_right _).trans h2

theorem objOrderNum_perm (m : List (Nat × Tok)) : (objOrderNum m).Perm m := by
  unfold objOrderNum
  have hneg : (fun (e : Nat × Tok) => decide ¬ e.1 < 4294967295) =
      fun (e : Nat × Tok) => ! decide (e.1 < 4294967295) := by
    funext e
    by_cases h : e.1 < 4294967295 <;> simp [h]
  have h2 : (m.filter (fun e => e.1 < 4294967295) ++
      m.filter (fun e => ¬ e.1 < 4294967295)).Perm m := by
    rw [show (fun (e : Nat × Tok) => decide ¬ e.1 < 4294967295) =
        fun (e : Nat × Tok) => ! decide (e.1 < 4294967295) from hneg]
    exact List.filter_append_perm _ m
  exact ((sortByNat_perm _ _).append_right _).trans h2

/-- C9: exporting and re-importing reproduces the state: the vocabulary holds
exactly the same token-to-id pairs (ids preserved, no renumbering), the
inverse vocabulary exactly the same id-to-token pairs, and the merge list and
configuration are restored identically. -/
theorem claim9_export_import (s : BPEState) :
    (importVocabulary s (exportVocabulary s)).vocabulary.Perm s.vocabulary ∧
    (importVocabulary s (exportVocabulary s)).reverseVocabulary.Perm
      s.reverseVocabulary ∧
    (importVocabulary s (exportVocabulary s)).merges = s.merges ∧
    (importVocabulary s (exportVocabulary s)).config = s.config :=
  ⟨objOrderStr_perm s.vocabulary, objOrderNum_perm s.reverseVocabulary, rfl, rfl⟩

/-- C7, witness: on a freshly constructed tokenizer the vocabulary is empty
and `tokenize ""` errors; after training on `"a"` it is non-empty and
`tokenize ""` returns the empty sequence. -/
theorem claim7_witness :
    (∃ e, tokenize (initState defaultConfig) [] = .error e) ∧
    ((train (initState defaultConfig) "a".toList).1.vocabulary ≠ [] ∧
      tokenize (train (initState defaultConfig) "a".toList).1 [] = .ok []) := by
  constructor
  · exact (claim7_tokenize_guards (initState defaultConfig) []).1.mpr (by decide)
  · have hv : (train (initState defaultConfig) "a".toList).1.vocabulary ≠ [] := by decide
    exact ⟨hv, (claim7_tokenize_guards (train (initState defaultConfig) "a".toList).1 []).2 hv⟩

-- HEAVY-KERNEL-EVALUATION THEOREMS

set_option maxRecDepth 1000000 in
set_option maxHeartbeats 2000000 in
/-- C5: `benchmark(["a", "b b b"])` on a default-configured tokenizer reports
no errors and a 100% round-trip accuracy. -/
theorem claim5_benchmark :
    (benchmark (initState defaultConfig) ["a".toList, "b b b".toList]).2.errors = [] ∧
    (benchmark (initState defaultConfig) ["a".toList, "b b b".toList]).2.roundTripAccuracy
      = 100 := by
  have hsucc : (benchmark (initState defaultConfig)
      ["a".toList, "b b b".toList]).2.successfulRoundTrips = 2 := by decide
  have herr : (benchmark (initState defaultConfig)
      ["a".toList, "b b b".toList]).2.errors = [] := by decide
  refine ⟨herr, ?_⟩
  have hacc : (benchmark (initState defaultConfig)
        ["a".toList, "b b b".toList]).2.roundTripAccuracy =
      ((benchmark (initState defaultConfig)
        ["a".toList, "b b b".toList]).2.successfulRoundTrips : Rat) / ((2 : Nat) : Rat) * 100 :=
    rfl
  rw [hacc, hsucc]
  norm_num

/-- C10, witness: the untrained tokenizer's validation fails with a caught
error and a non-empty error list; the equality equations hold on a small
trained vocabulary; and validating `"Hello"` after training on it reports
failure. -/
theorem claim10_witness :
    ((validateRoundTrip (initState defaultConfig) "a".toList).isValid = false ∧
      (validateRoundTrip (initState defaultConfig) "a".toList).errors ≠ []) ∧
    (((validateRoundTrip detokExampleState "a".toList).isValid = true ↔
        "a".toList = detokenize detokExampleState [0]) ∧
      ((validateRoundTrip detokExampleState "a".toList).errors = [] ↔
        (validateRoundTrip detokExampleState "a".toList).isValid = true)) ∧
    (validateRoundTrip (train (initState defaultConfig) "Hello".toList).1
      "Hello".toList).isValid = false :=
  ⟨claim10_validate.1 (initState defaultConfig) "a".toList
      "Tokenizer not trained. Call train() first.".toList (by rfl),
    claim10_validate.2.1 detokExampleState "a".toList [0] (by rfl),
    claim10_validate.2.2 "Hello".toList (Or.inl ⟨'H', by decide, by decide⟩) (by decide)⟩

end BPE
